import Mathlib

/-!
# OCCAM `Model` (src/cpp/Model.cpp): a shallow embedding

A `Model` is a sorted collection of relation references together with lazily
derived state (cached names, structure matrix, fit table, attributes).  The
embedding renders each member function of `Model.cpp` as a function on an
explicit model state.  C arrays with a separate element count become lists
(`relationCount` is the length of `relations`); calls that end the process,
fault, or never return yield an `Except.error`.

Relation counts and capacities are natural numbers (the `int` fields never go
negative in a constructed model, and a relation array large enough to overflow
them does not fit in memory); matrix entries, cardinalities and row counts are
integers as in the source.  The collaborators whose code is outside the source
tree (`Relation`, `Variable`, `StateConstraint`, the state-based containment
test as seen from `addRelation`) are parameters of the embedded functions.

The file has two parts: the definitions, then the theorems, grouped by member
function.
-/

namespace Occam

/-! ## Definitions -/

/-- Ways in which a call fails to return to its caller. -/
inductive Halt where
  /-- The code printed a diagnostic and called `exit(1)`. -/
  | exit
  /-- An allocation threw, or memory outside an array was accessed. -/
  | fault
  /-- A loop whose condition can never become false. -/
  | hang
  deriving DecidableEq, Repr

/-- Modelled from the spec: the `Variable` record (Variable.h is not part of the
source tree).  Section 2 lists for each variable a cardinality and the
bit-packed key layout mask/shift/segment; `Model.cpp` reads exactly the fields
`cardinality`, `segment`, `shift` and `mask`. -/
structure Variable where
  cardinality : Int
  segment : Nat
  shift : Nat
  mask : Nat
  deriving DecidableEq, Repr

/-- Modelled from the spec: the `StateConstraint` collaborator
(StateConstraint.h is not part of the source tree), with the two operations
`Model.cpp` calls: `getConstraintCount()` and `getConstraint(j)`, the latter
returning a key (a pointer to key segments, read at `key[segment]`) or NULL. -/
structure StateConstraint where
  getConstraintCount : Int
  getConstraint : Nat → Option (Nat → Nat)

/-- Modelled from the spec: the `Relation` collaborator interface (Relation.h
is not part of the source tree; section 6 lists its operations).  The fields
are the member functions that the embedded part of `Model.cpp` calls; the
theorems hold for every implementation of them unless a hypothesis says
otherwise. -/
structure RelationOps (R : Type) where
  /-- The call `a->contains(b)`: the variable-set superset test. -/
  contains : R → R → Bool
  /-- The call `a->compare(b)`: the canonical comparator. -/
  compare : R → R → Int
  isStateBased : R → Bool
  /-- The call `r->getStateConstraints()`, `none` for NULL. -/
  getStateConstraints : R → Option StateConstraint

/-- The fields of `Model` that the embedded functions read or write.
`relations` holds the first `relationCount` slots of the C array; `T` is the
fit table type and `D` the type of attribute values (`double`). -/
structure Model (R T D : Type) where
  maxRelationCount : Nat
  relations : List R
  stateSpaceSize : Int
  totalConstraints : Int
  fitTable : Option T
  attributeList : List (String × D)
  printName : Option String
  inverseName : Option String
  structMatrix : Option (List (List Int))

/-- The fields of `this` that `Model::containsRelation` may write in the
state-based regime (through `getPrintName`, `completeSbModel` and
`setAttribute`); it never touches `relations`. -/
structure SbEffects (D : Type) where
  printName : Option String
  stateSpaceSize : Int
  totalConstraints : Int
  structMatrix : Option (List (List Int))
  attributeList : List (String × D)

/-- The state-based containment test as `addRelation` sees it: the call
`this->containsRelation(newRelation, cache)` of line 285, with the cache fixed.
It returns the boolean answer together with the derived fields of `this` it
left behind, or fails to return. -/
abbrev SbOracle (R T D : Type) := Model R T D → R → Except Halt (Bool × SbEffects D)

/-- The constructor `Model::Model(int size)` (lines 32-46). -/
def Model.new {R T D : Type} (size : Nat) : Model R T D :=
  { maxRelationCount := size
    relations := []
    stateSpaceSize := 0
    totalConstraints := 0
    fitTable := none
    attributeList := []
    printName := none
    inverseName := none
    structMatrix := none }

/-- The member `Model::getRelationCount` (lines 437-439). -/
def Model.getRelationCount {R T D : Type} (m : Model R T D) : Nat :=
  m.relations.length

/-- The member `Model::isStateBased` (lines 87-93). -/
def Model.isStateBased {R T D : Type} (ops : RelationOps R) (m : Model R T D) : Bool :=
  m.relations.any ops.isStateBased

/-- The scan of lines 288-300.  `i` is the loop counter and `rels` the current
array contents; one unit of fuel is spent per iteration.  The first component
of the result is `true` when the scan left through the `return` of line 292.
An absorbed element is removed by shifting the tail down (lines 294-297), and
the counter stays put (`i--` followed by `i++`). -/
def absorbScan {R : Type} (ops : RelationOps R) (newRelation : R) :
    Nat → Nat → List R → Bool × List R
  | 0, _, rels => (false, rels)
  | fuel + 1, i, rels =>
    match rels[i]? with
    | none => (false, rels)
    | some x =>
      if ops.contains x newRelation then (true, rels)
      else if ops.contains newRelation x then
        absorbScan ops newRelation fuel i (rels.eraseIdx i)
      else absorbScan ops newRelation fuel (i + 1) rels

/-- Outcome of the normalisation block, lines 283-302. -/
inductive Normalized (R T D : Type) where
  /-- One of the `return` statements of lines 286 and 292 was taken. -/
  | skip (m : Model R T D)
  /-- Control reached line 303. -/
  | proceed (m : Model R T D)
  /-- The containment oracle did not return. -/
  | halted (h : Halt)

/-- Lines 283-302 of `addRelation` for a non-null relation. -/
def normalizePhase {R T D : Type} (ops : RelationOps R) (oracle : SbOracle R T D)
    (m : Model R T D) (newRelation : R) (normalize : Bool) : Normalized R T D :=
  if normalize && decide (m.getRelationCount > 0) then
    if m.isStateBased ops || ops.isStateBased newRelation then
      match oracle m newRelation with
      | .error h => .halted h
      | .ok (answer, eff) =>
        let m1 : Model R T D :=
          { m with
            printName := eff.printName
            stateSpaceSize := eff.stateSpaceSize
            totalConstraints := eff.totalConstraints
            structMatrix := eff.structMatrix
            attributeList := eff.attributeList }
        if answer then .skip m1 else .proceed m1
    else
      match absorbScan ops newRelation m.relations.length 0 m.relations with
      | (true, rels) => .skip { m with relations := rels }
      | (false, rels) => .proceed { m with relations := rels }
  else .proceed m

/-- The storage growth loop of lines 303-306: the capacity reached when the loop
exits, or `none` when the fuel runs out first. -/
def growCapacity (relationCount : Nat) : Nat → Nat → Option Nat
  | 0, maxRelationCount =>
    if relationCount ≥ maxRelationCount then none else some maxRelationCount
  | fuel + 1, maxRelationCount =>
    if relationCount ≥ maxRelationCount then
      growCapacity relationCount fuel (maxRelationCount * 2)
    else some maxRelationCount

/-- The search of lines 307-310: the first position whose element compares
above the new relation, or the element count when there is none. -/
def findSpot {R : Type} (ops : RelationOps R) (newRelation : R) : List R → Nat
  | [] => 0
  | x :: xs => if ops.compare newRelation x < 0 then 0 else findSpot ops newRelation xs + 1

/-- Lines 311-315: shift the elements from position `i` up by one and store the
new relation at `i`. -/
def insertAt {R : Type} (newRelation : R) (i : Nat) (rels : List R) : List R :=
  rels.take i ++ newRelation :: rels.drop i

/-- Lines 303-338 of `addRelation`: grow the storage, insert in comparator
order, drop all derived state.  `relationCount + 1` doublings are enough for
every positive capacity, so running out of fuel means the loop never ends. -/
def insertPhase {R T D : Type} (ops : RelationOps R) (m : Model R T D) (newRelation : R) :
    Except Halt (Model R T D) :=
  match growCapacity m.relations.length (m.relations.length + 1) m.maxRelationCount with
  | none => .error .hang
  | some cap =>
    .ok { m with
          maxRelationCount := cap
          relations := insertAt newRelation (findSpot ops newRelation m.relations) m.relations
          printName := none
          inverseName := none
          structMatrix := none
          fitTable := none
          attributeList := [] }

/-- The member `Model::addRelation` (lines 277-339).  A NULL relation is
`none`. -/
def addRelation {R T D : Type} (ops : RelationOps R) (oracle : SbOracle R T D)
    (m : Model R T D) (newRelation : Option R) (normalize : Bool) :
    Except Halt (Model R T D) :=
  match newRelation with
  | none => .ok m
  | some r =>
    match normalizePhase ops oracle m r normalize with
    | .halted h => .error h
    | .skip m1 => .ok m1
    | .proceed m1 => insertPhase ops m1 r

/-- Insert a sequence of relations one after the other, each with
`addRelation(r, normalize)`, stopping at the first call that does not return. -/
def addRelations {R T D : Type} (ops : RelationOps R) (oracle : SbOracle R T D)
    (normalize : Bool) : Model R T D → List R → Except Halt (Model R T D)
  | m, [] => .ok m
  | m, r :: rs =>
    match addRelation ops oracle m (some r) normalize with
    | .error h => .error h
    | .ok m1 => addRelations ops oracle normalize m1 rs

/-! ### State enumeration -/

/-- Outcome of the carry loop at label `rap` (lines 257-270) for one new row. -/
inductive Advance where
  /-- The `else` branch of line 267 ran: a digit was incremented, `i++` follows. -/
  | next (row : List Int)
  /-- One of the `break` statements of lines 258 and 265 was taken. -/
  | done (row : List Int)
  /-- The call `getVariable(l)` was made with `l` outside the variable list. -/
  | fault
  deriving DecidableEq, Repr

/-- The carry loop at label `rap` (lines 257-270).  `prev` is row `i`, `row` is
row `i + 1` (a copy of `prev` on entry), `l` the current digit position.  The
two equations are the same loop body; they differ only in what `l--` leads to:
below position 0 the loop is left by the `break` of line 265. -/
def rap (vars : List Variable) (statespace i : Nat) (prev : List Int) :
    Nat → List Int → Advance
  | 0, row =>
    if i + 1 = statespace then .done row
    else
      match vars[0]? with
      | none => .fault
      | some var =>
        if prev.getD 0 0 = var.cardinality - 1 then .done (row.set 0 0)
        else .next (row.set 0 (row.getD 0 0 + 1))
  | l + 1, row =>
    if i + 1 = statespace then .done row
    else
      match vars[l + 1]? with
      | none => .fault
      | some var =>
        if prev.getD (l + 1) 0 = var.cardinality - 1 then
          rap vars statespace i prev l (row.set (l + 1) 0)
        else .next (row.set (l + 1) (row.getD (l + 1) 0 + 1))

/-- The `while` loop of lines 253-272, one unit of fuel per iteration.  `prev`
is row `i` and `l` the value of the variable `l` at the loop head; the result
lists the rows `i + 1, ..., statespace - 1`.  After a `break` the remaining
rows keep the zeros written by lines 242-246. -/
def fillRows (vars : List Variable) (statespace : Nat) :
    Nat → Nat → Int → List Int → Except Halt (List (List Int))
  | 0, _, _, _ => .ok []
  | fuel + 1, i, l, prev =>
    if i < statespace - 1 then
      if l < 0 then .error .fault
      else
        match rap vars statespace i prev l.toNat prev with
        | .fault => .error .fault
        | .done row =>
          .ok (row :: List.replicate (statespace - (i + 2)) (List.replicate vars.length 0))
        | .next row =>
          match fillRows vars statespace fuel (i + 1) ((vars.length : Int) - 1) row with
          | .error h => .error h
          | .ok rows => .ok (row :: rows)
    else .ok []

/-- The member `Model::makeStateSpaceArray` (lines 235-274).  A negative
`statespace` makes the first allocation throw; with `statespace = 0` line 248
writes through the missing row 0 as soon as there is a variable. -/
def makeStateSpaceArray (vars : List Variable) (statespace : Int) :
    Except Halt (List (List Int)) :=
  if statespace < 0 then .error .fault
  else if statespace = 0 then
    if vars.length = 0 then .ok [] else .error .fault
  else
    match fillRows vars statespace.toNat (statespace.toNat - 1) 0 ((vars.length : Int) - 1)
        (List.replicate vars.length 0) with
    | .error h => .error h
    | .ok rows => .ok (List.replicate vars.length 0 :: rows)

/-! ### Structure matrix -/

/-- The conversion of a `KeySegment` value to `int` in line 134-135 (two's
complement wrap to 32 bits). -/
def keyToInt (n : Nat) : Int :=
  ((n + 2 ^ 31) % 2 ^ 32 : Nat) - 2 ^ 31

/-- Lines 125-137 of `getIndicesFromKey`: the array `value_l`.  `DONT_CARE` is
the constant of that name (its definition is not part of the source tree), as
the `int` it becomes when stored in `value_l`. -/
def keyValues (DONT_CARE : Int) (key : Nat → Nat) (vars : List Variable) : List Int :=
  vars.map fun var =>
    if var.mask &&& key var.segment = var.mask then DONT_CARE
    else keyToInt ((key var.segment &&& var.mask) >>> var.shift)

/-- The inner loop of lines 141-150 for one state `row`: the value of
`not_a_match` when the loop ends, started at position `j` with the remaining
entries of `value_l`. -/
def matchState (DONT_CARE : Int) (row : Nat → Int) : List Int → Nat → Int → Int
  | [], _, not_a_match => not_a_match
  | v :: vs, j, not_a_match =>
    if v = DONT_CARE then matchState DONT_CARE row vs (j + 1) not_a_match
    else if v ≠ row j then 1
    else matchState DONT_CARE row vs (j + 1) 0

/-- The member `Model::getIndicesFromKey` (lines 119-161): the first `counter`
entries of the returned buffer, so `counter` is the length of the result.
`stateSpaceArr i j` is the entry `stateSpaceArr[i][j]`. -/
def getIndicesFromKey (DONT_CARE : Int) (key : Nat → Nat) (vars : List Variable)
    (statespace : Int) (stateSpaceArr : Nat → Nat → Int) : Except Halt (List Nat) :=
  if statespace < 0 then .error .fault
  else
    .ok ((List.range statespace.toNat).filter fun i =>
      matchState DONT_CARE (stateSpaceArr i) (keyValues DONT_CARE key vars) 0 (-1) = 0)

/-- Lines 169-174 of `makeStructMatrix`: the sum of the constraint counts of the
relations that have state constraints. -/
def constraintTotal {R : Type} (ops : RelationOps R) (rels : List R) : Int :=
  (rels.map fun rel =>
    match ops.getStateConstraints rel with
    | none => 0
    | some sc => sc.getConstraintCount).sum

/-- Lines 209-211: set the listed columns of row `r` to 1.  Nothing is written
for an empty index list; a write to a row the matrix does not have is a fault. -/
def writeRow (matrix : List (List Int)) (r : Nat) (indices : List Nat) :
    Except Halt (List (List Int)) :=
  match indices with
  | [] => .ok matrix
  | _ :: _ =>
    match matrix[r]? with
    | none => .error .fault
    | some row => .ok (matrix.set r (indices.foldl (fun acc k => acc.set k 1) row))

/-- The loop of lines 201-213 over the constraints `j, j + 1, ...` of one
relation, `fuel` of them. -/
def fillConstraints (DONT_CARE : Int) (vars : List Variable) (statespace : Int)
    (stateSpaceArr : Nat → Nat → Int) (sc : StateConstraint) (totalConstraintCount : Nat) :
    Nat → Nat → List (List Int) → Except Halt (List (List Int))
  | 0, _, matrix => .ok matrix
  | fuel + 1, j, matrix =>
    match sc.getConstraint j with
    | none => .error .exit
    | some key =>
      match getIndicesFromKey DONT_CARE key vars statespace stateSpaceArr with
      | .error h => .error h
      | .ok indices =>
        match writeRow matrix (totalConstraintCount + j) indices with
        | .error h => .error h
        | .ok matrix1 =>
          fillConstraints DONT_CARE vars statespace stateSpaceArr sc totalConstraintCount
            fuel (j + 1) matrix1

/-- The loop of lines 189-215 over the relations. -/
def fillRelations {R : Type} (ops : RelationOps R) (DONT_CARE : Int) (vars : List Variable)
    (statespace : Int) (stateSpaceArr : Nat → Nat → Int) :
    List R → Nat → List (List Int) → Except Halt (List (List Int))
  | [], _, matrix => .ok matrix
  | rel :: rest, totalConstraintCount, matrix =>
    match ops.getStateConstraints rel with
    | none => .error .exit
    | some sc =>
      if sc.getConstraintCount ≤ 0 then .error .exit
      else
        match fillConstraints DONT_CARE vars statespace stateSpaceArr sc totalConstraintCount
            sc.getConstraintCount.toNat 0 matrix with
        | .error h => .error h
        | .ok matrix1 =>
          fillRelations ops DONT_CARE vars statespace stateSpaceArr rest
            (totalConstraintCount + sc.getConstraintCount.toNat) matrix1

/-- Lines 177-186: the freshly allocated matrix, `constraintCount` rows of zeros
followed by the default row of ones. -/
def initialMatrix (constraintCount statespace : Int) : List (List Int) :=
  List.replicate constraintCount.toNat (List.replicate statespace.toNat 0) ++
    (if 0 ≤ constraintCount then [List.replicate statespace.toNat 1] else [])

/-- The member `Model::makeStructMatrix` (lines 164-216).  The three faults
before the second loop are: a negative row count in `new int *[...]`, a
negative `statespace` in the row allocations, and line 185 writing the default
row of a matrix without rows. -/
def makeStructMatrix {R T D : Type} (ops : RelationOps R) (DONT_CARE : Int)
    (m : Model R T D) (statespace : Int) (vars : List Variable)
    (stateSpaceArr : Nat → Nat → Int) : Except Halt (Model R T D) :=
  if m.structMatrix.isSome then .ok m
  else
    let constraintCount := constraintTotal ops m.relations
    if constraintCount + 1 < 0 then .error .fault
    else if 0 ≤ constraintCount ∧ statespace < 0 then .error .fault
    else if constraintCount = -1 ∧ 0 < statespace then .error .fault
    else
      match fillRelations ops DONT_CARE vars statespace stateSpaceArr m.relations 0
          (initialMatrix constraintCount statespace) with
      | .error h => .error h
      | .ok matrix =>
        .ok { m with
              totalConstraints := constraintCount + 1
              stateSpaceSize := statespace
              structMatrix := some matrix }

/-- View a state table held as a list of rows as the raw array the matcher
reads. -/
def tableOf (arr : List (List Int)) : Nat → Nat → Int :=
  fun i j => (arr.getD i []).getD j 0

/-! ### Sample collaborators

Concrete relations used to run the definitions on explicit inputs. -/

/-- Relations without state constraints over variables numbered 0, 1, 2, ...:
a relation is the bit set of its variables (A = 1, B = 2, AB = 3, ABC = 7).
`contains` is the superset test and `compare` orders by the code. -/
def bitsetOps : RelationOps Nat where
  contains a b := a &&& b == b
  compare a b := (a : Int) - (b : Int)
  isStateBased _ := false
  getStateConstraints _ := none

/-- State-based relations: a relation is its list of constraint keys, each key
a single segment. -/
def keyListOps : RelationOps (List Nat) where
  contains a b := a == b
  compare a b := (a.length : Int) - (b.length : Int)
  isStateBased _ := true
  getStateConstraints r :=
    some { getConstraintCount := r.length
           getConstraint := fun j => (r[j]?).map fun k => fun _ => k }

/-- An oracle for models that never enter the state-based regime. -/
def noOracle {R T D : Type} : SbOracle R T D :=
  fun _ _ => .error .exit

/-- Two binary variables packed into one key segment, two bits each. -/
def twoBinaryVars : List Variable :=
  [{ cardinality := 2, segment := 0, shift := 2, mask := 12 },
   { cardinality := 2, segment := 0, shift := 0, mask := 3 }]

/-! ### Predicates and list views used in the statements -/

/-- The scan of lines 288-300 read off the part of the array it has not visited
yet: the flag tells whether the `return` of line 292 was taken, the list is
what is left of that part. -/
def absorbList {R : Type} (ops : RelationOps R) (newRelation : R) : List R → Bool × List R
  | [] => (false, [])
  | x :: xs =>
    if ops.contains x newRelation then (true, x :: xs)
    else if ops.contains newRelation x then absorbList ops newRelation xs
    else ((absorbList ops newRelation xs).1, x :: (absorbList ops newRelation xs).2)

/-- The relation sequence is sorted by the comparator: for all `i < j`,
`relations[j].compare(relations[i]) >= 0`. -/
def Sorted {R : Type} (ops : RelationOps R) (rels : List R) : Prop :=
  ∀ (i j : Nat) (_ : i < j) (hj : j < rels.length), 0 ≤ ops.compare rels[j] rels[i]

/-- No relation of the sequence contains the relation at another position. -/
def Minimal {R : Type} (ops : RelationOps R) (rels : List R) : Prop :=
  ∀ (i j : Nat) (hi : i < rels.length) (hj : j < rels.length), i ≠ j →
    ops.contains rels[i] rels[j] = false

/-- All derived state of a model is gone: both cached names, the structure
matrix and the fit table are absent and the attribute store is empty. -/
def DerivedCleared {R T D : Type} (m : Model R T D) : Prop :=
  m.printName = none ∧ m.inverseName = none ∧ m.structMatrix = none ∧
    m.fitTable = none ∧ m.attributeList = []

/-! ### Mixed-radix view of the state table -/

/-- Product of the cardinalities of a variable list. -/
def cardProduct (vars : List Variable) : Nat :=
  (vars.map fun v => v.cardinality.toNat).prod

/-- Mixed-radix digits of `k`, least significant first, for variables listed
from the fastest-varying one. -/
def digitsOf : List Variable → Nat → List Int
  | [], _ => []
  | v :: vs, k =>
    ((k % v.cardinality.toNat : Nat) : Int) :: digitsOf vs (k / v.cardinality.toNat)

/-- The mixed-radix representation of `k` over the variable list, most
significant digit (first variable) first. -/
def stateRow (vars : List Variable) (k : Nat) : List Int :=
  (digitsOf vars.reverse k).reverse

/-- The number denoted by a list of digits, least significant first. -/
def valueOf : List Variable → List Int → Nat
  | v :: vs, d :: ds => d.toNat + v.cardinality.toNat * valueOf vs ds
  | _, _ => 0

/-- The index of a value assignment in mixed-radix order. -/
def stateIndex (vars : List Variable) (row : List Int) : Nat :=
  valueOf vars.reverse row.reverse

/-- Shape of a structure matrix: `rows` rows of `cols` entries, every entry 0
or 1, and the final row all ones. -/
def MatrixShape (rows cols : Nat) (matrix : List (List Int)) : Prop :=
  matrix.length = rows ∧
    (∀ row ∈ matrix, row.length = cols ∧ ∀ e ∈ row, e = 0 ∨ e = 1) ∧
    ∃ last, matrix[rows - 1]? = some last ∧ ∀ e ∈ last, e = 1

/-! ### Lookup, containment and equivalence -/

/-- The member `Model::getRelation` (lines 347-349); `none` is NULL.  The only
guard is `index < relationCount`, so a negative index reads the array below
its first slot. -/
def Model.getRelation {R T D : Type} (m : Model R T D) (index : Int) :
    Except Halt (Option R) :=
  if index < (m.relations.length : Int) then
    match index with
    | Int.ofNat i => .ok m.relations[i]?
    | Int.negSucc _ => .error .fault
  else .ok none

/-- The derived fields of a model, as `containsRelation` leaves them when it
writes nothing. -/
def Model.effects {R T D : Type} (m : Model R T D) : SbEffects D :=
  { printName := m.printName
    stateSpaceSize := m.stateSpaceSize
    totalConstraints := m.totalConstraints
    structMatrix := m.structMatrix
    attributeList := m.attributeList }

/-- The model after `containsRelation` has written the given derived fields. -/
def Model.withEffects {R T D : Type} (m : Model R T D) (eff : SbEffects D) : Model R T D :=
  { m with
    printName := eff.printName
    stateSpaceSize := eff.stateSpaceSize
    totalConstraints := eff.totalConstraints
    structMatrix := eff.structMatrix
    attributeList := eff.attributeList }

/-- The member `Model::containsRelation` (lines 352-408).  Equality on `R` is
identity of relation objects (`relations[i] == relation` compares pointers).
`dfCompare` stands for lines 358-400, the comparison of the degrees of freedom
of the model and of the candidate model: it runs on `double` values obtained
from `ocDegreesOfFreedomStateBased`, the attribute list and the model cache,
all outside the source tree, and is taken as a parameter for a fixed cache. -/
def containsRelation {R T D : Type} [DecidableEq R] (ops : RelationOps R)
    (dfCompare : SbOracle R T D) (m : Model R T D) (relation : R) :
    Except Halt (Bool × SbEffects D) :=
  if m.isStateBased ops || ops.isStateBased relation then
    if m.relations.any (fun x => decide (x = relation)) then .ok (true, m.effects)
    else dfCompare m relation
  else .ok (m.relations.any (fun x => ops.contains x relation), m.effects)

/-- The loop of `Model::containsModel` (lines 411-415) over the relations of
the other model that are still to be tested; the derived fields written by
`containsRelation` are carried along in `m`. -/
def containsModelLoop {R T D : Type} [DecidableEq R] (ops : RelationOps R)
    (dfCompare : SbOracle R T D) : Model R T D → List R → Except Halt (Bool × Model R T D)
  | m, [] => .ok (true, m)
  | m, r :: rs =>
    match containsRelation ops dfCompare m r with
    | .error h => .error h
    | .ok (false, eff) => .ok (false, m.withEffects eff)
    | .ok (true, eff) => containsModelLoop ops dfCompare (m.withEffects eff) rs

/-- The member `Model::containsModel` (lines 410-417), called on `m` with
argument `other`; the result carries `m` as the call leaves it.  `dfCompare`
is the comparison for the NULL cache that the one-argument call of line 412
passes. -/
def containsModel {R T D : Type} [DecidableEq R] (ops : RelationOps R)
    (dfCompare : SbOracle R T D) (m other : Model R T D) :
    Except Halt (Bool × Model R T D) :=
  containsModelLoop ops dfCompare m other.relations

/-- Relations for the scenario of two single-variable relations joined by a
state-based one: codes below 100 are variable bit sets (X = 1, Y = 2), codes
from 100 on are state-based relations. -/
def scenarioOps : RelationOps Nat where
  contains a b := a &&& b == b
  compare a b := (a : Int) - (b : Int)
  isStateBased r := decide (100 ≤ r)
  getStateConstraints _ := none

/-- A degrees-of-freedom comparison that finds every candidate different from
the model and writes nothing. -/
def neverImplied {R T D : Type} : SbOracle R T D :=
  fun m _ => .ok (false, m.effects)

/-! ### Print name -/

/-- Modelled from the spec: the operations of `Relation` and of its
`VariableList` that `getPrintName` and `completeSbModel` call (section 6;
neither class is part of the source tree).  A C string is a `String` with one
`Char` per `char`. -/
structure RelationView (R : Type) where
  /-- The call `r->getVariableList()`, as the list of its variables. -/
  getVariableList : R → List Variable
  /-- The call `r->getVariableList()->isDirected()`. -/
  isDirected : R → Bool
  isIndependentOnly : R → Bool
  getVariableCount : R → Int
  /-- The call `r->getPrintName(useInverse)`. -/
  getPrintName : R → Int → String

/-- The locals that the first loop of `getPrintName` (lines 464-479) updates. -/
structure NameScan where
  len : Nat
  indOnlyRel : Int
  useIVI : Nat
  notUsingIVI : Nat
  deriving DecidableEq, Repr

/-- The first loop of `getPrintName` (lines 464-479) from index `i` on. -/
def lengthPass {R : Type} (ops : RelationOps R) (view : RelationView R) (isDirected : Bool)
    (useInverse : Int) : List R → Nat → NameScan → NameScan
  | [], _, s => s
  | r :: rs, i, s =>
    if isDirected && view.isIndependentOnly r then
      lengthPass ops view isDirected useInverse rs (i + 1)
        { s with indOnlyRel := i, len := s.len + ("IV".length + 1) }
    else if !isDirected && decide (view.getVariableCount r = 1) && !ops.isStateBased r then
      lengthPass ops view isDirected useInverse rs (i + 1)
        { s with useIVI := s.useIVI + 1
                 notUsingIVI := (view.getPrintName r useInverse).length + 1 }
    else
      lengthPass ops view isDirected useInverse rs (i + 1)
        { s with len := s.len + ((view.getPrintName r useInverse).length + 1) }

/-- The second loop of `getPrintName` (lines 497-508) from index `i` on; `out`
is the text between `tempName` and `cp`, so `cp != tempName` reads
`out.length ≠ 0`. -/
def writePass {R : Type} (ops : RelationOps R) (view : RelationView R) (useInverse : Int)
    (indOnlyRel : Int) (useIVI : Nat) : List R → Nat → String → String
  | [], _, out => out
  | r :: rs, i, out =>
    if (i : Int) = indOnlyRel then
      writePass ops view useInverse indOnlyRel useIVI rs (i + 1) out
    else if decide (useIVI > 1) && decide (view.getVariableCount r = 1) &&
        !ops.isStateBased r then
      writePass ops view useInverse indOnlyRel useIVI rs (i + 1) out
    else
      writePass ops view useInverse indOnlyRel useIVI rs (i + 1)
        ((if out.length ≠ 0 then out ++ ":" else out) ++ view.getPrintName r useInverse)

/-- Lines 511-514: store a freshly formatted name in the cache field the flag
selects. -/
def storeName {R T D : Type} (m : Model R T D) (useInverse : Int) (name : String) :
    Model R T D :=
  if useInverse = 0 then { m with printName := some name }
  else { m with inverseName := some name }

/-- The member `Model::getPrintName` (lines 456-519); the result is the
returned pointer (`none` for NULL) and the model with its caches.  Line 459
reads `relations[0]`, which an empty model does not have.  The buffer holds
`len + 1` characters, so a text longer than `len` is written past its end. -/
def getPrintName {R T D : Type} (ops : RelationOps R) (view : RelationView R)
    (m : Model R T D) (useInverse : Int) : Except Halt (Option String × Model R T D) :=
  match m.relations with
  | [] => .error .fault
  | first :: _ =>
    let isDirected := view.isDirected first
    let formatted : Except Halt (Model R T D) :=
      if (m.printName.isNone && decide (useInverse ≠ 1)) ||
          (m.inverseName.isNone && decide (useInverse = 1)) then
        let s := lengthPass ops view isDirected useInverse m.relations 0
          { len := 0, indOnlyRel := -1, useIVI := 0, notUsingIVI := 0 }
        let len :=
          if s.useIVI > 1 then s.len + (3 + 1)
          else if s.useIVI = 1 then s.len + s.notUsingIVI
          else s.len
        let start := if 0 ≤ s.indOnlyRel then "IV" else if s.useIVI > 1 then "IVI" else ""
        let out := writePass ops view useInverse s.indOnlyRel s.useIVI m.relations 0 start
        if out.length > len then .error .fault
        else .ok (storeName m useInverse out)
      else .ok m
    match formatted with
    | .error h => .error h
    | .ok m1 => .ok (if useInverse = 0 then m1.printName else m1.inverseName, m1)

/-- The names joined with `:` between consecutive ones. -/
def joinNames : List String → String
  | [] => ""
  | [a] => a
  | a :: b :: rest => a ++ ":" ++ joinNames (b :: rest)

/-- Each name preceded by a `:`, as a list of names reads after a leading
token. -/
def colonEach : List String → String
  | [] => ""
  | a :: rest => ":" ++ a ++ colonEach rest

/-- Relations as variable bit sets over A = 1, B = 2, C = 4, named by their
letters, in an undirected system. -/
def letterView : RelationView Nat where
  getVariableList _ := twoBinaryVars
  isDirected _ := false
  isIndependentOnly r := r &&& 4 == 0
  getVariableCount r := if r = 1 ∨ r = 2 ∨ r = 4 then 1 else if r = 7 then 3 else 2
  getPrintName r _ :=
    (if r &&& 1 = 1 then "A" else "") ++ (if r &&& 2 = 2 then "B" else "") ++
      (if r &&& 4 = 4 then "C" else "")

/-- The same relations in a directed system whose dependent variable is C: a
relation without C is independent-only. -/
def directedLetterView : RelationView Nat :=
  { letterView with isDirected := fun _ => true }

/-- The text after writing the given names behind `out` the way the second loop
of `getPrintName` does: a `:` goes before a name unless nothing has been
written yet. -/
def writeNames : List String → String → String
  | [], out => out
  | n :: ns, out => writeNames ns ((if out.length ≠ 0 then out ++ ":" else out) ++ n)

/-- The buffer space the first loop of `getPrintName` reserves for a list of
names: each length plus one. -/
def nameCost (names : List String) : Nat :=
  (names.map fun n => n.length + 1).sum

/-- A model of capacity 4 holding the given relations, with no derived state. -/
def sampleModel {R : Type} (rels : List R) : Model R Unit Unit :=
  { (Model.new 4 : Model R Unit Unit) with relations := rels }

/-- The member `Model::isEquivalentTo` (lines 419-435), called on the object at
address `thisAddr` with the object at address `otherAddr` as argument; `m` and
`other` are their states, and `this == other` compares the addresses.  The
result carries both states as the call leaves them.  `getPrintName()` is the
call with the default flag 0, and `strcmp(...) == 0` is equality of the two
names; `dfCompare` is as in `containsModel`. -/
def isEquivalentTo {R T D : Type} [DecidableEq R] (ops : RelationOps R)
    (view : RelationView R) (dfCompare : SbOracle R T D) (thisAddr otherAddr : Nat)
    (m other : Model R T D) : Except Halt (Bool × Model R T D × Model R T D) :=
  if m.isStateBased ops || other.isStateBased ops then
    if thisAddr = otherAddr then .ok (true, m, other)
    else
      match getPrintName ops view m 0 with
      | .error h => .error h
      | .ok (name1, m1) =>
        match getPrintName ops view other 0 with
        | .error h => .error h
        | .ok (name2, other1) =>
          if name1 = name2 then .ok (true, m1, other1)
          else
            match containsModel ops dfCompare m1 other1 with
            | .error h => .error h
            | .ok (false, m2) => .ok (false, m2, other1)
            | .ok (true, m2) =>
              match containsModel ops dfCompare other1 m2 with
              | .error h => .error h
              | .ok (answer, other2) => .ok (answer, m2, other2)
  else .ok (decide (thisAddr = otherAddr), m, other)

/-- The view of the key-list relations: all over the two binary variables of
an undirected system, a relation with n keys being named by n letters k. -/
def keyListView : RelationView (List Nat) where
  getVariableList _ := twoBinaryVars
  isDirected _ := false
  isIndependentOnly _ := false
  getVariableCount _ := 2
  getPrintName r _ := String.mk (List.replicate r.length 'k')

/-! ### Completing a state-based model -/

/-- Modelled from the spec: the value `(int) ocDegreesOfFreedom(varList) + 1` of
line 226 (`ocDegreesOfFreedom` is not part of the source tree).  Section 4.3
defines the state space size as the number of enumerated joint states of the
first relation's variable list, the product of the cardinalities, so the
degrees of freedom are that product minus 1, held in a `double`.  The
conversion `(int)` keeps a value that lies in the range of `int`; for a value
outside that range the conversion is undefined, and it is taken to give the
most negative `int`, which is what the x86 conversion instruction stores.  The
`+ 1` is an addition of `int`s and wraps to 32 bits. -/
def stateSpaceOf (vars : List Variable) : Int :=
  let df : Int := (vars.map fun v => v.cardinality).prod - 1
  let narrowed : Int := if -2 ^ 31 ≤ df ∧ df < 2 ^ 31 then df else -2 ^ 31
  (narrowed + 1 + 2 ^ 31) % 2 ^ 32 - 2 ^ 31

/-- The member `Model::completeSbModel` (lines 218-233).  The test for an empty
model comes first, then the test for a matrix that is already there. -/
def completeSbModel {R T D : Type} (ops : RelationOps R) (view : RelationView R)
    (DONT_CARE : Int) (m : Model R T D) : Except Halt (Model R T D) :=
  match m.relations with
  | [] => .error .exit
  | first :: _ =>
    if m.structMatrix.isSome then .ok m
    else
      match makeStateSpaceArray (view.getVariableList first)
          (stateSpaceOf (view.getVariableList first)) with
      | .error h => .error h
      | .ok stateSpaceArray =>
        makeStructMatrix ops DONT_CARE m (stateSpaceOf (view.getVariableList first))
          (view.getVariableList first) (tableOf stateSpaceArray)

/-- The member `Model::getStructMatrix` (lines 535-542): the returned matrix
pointer with the two sizes written through the out parameters, and the model
as the call leaves it. -/
def getStructMatrix {R T D : Type} (ops : RelationOps R) (view : RelationView R)
    (DONT_CARE : Int) (m : Model R T D) :
    Except Halt ((Option (List (List Int)) × Int × Int) × Model R T D) :=
  match (if m.structMatrix.isNone then completeSbModel ops view DONT_CARE m else .ok m) with
  | .error h => .error h
  | .ok m1 => .ok ((m1.structMatrix, m1.stateSpaceSize, m1.totalConstraints), m1)

/-- A relation whose constraint data stops the build: its state constraints
are absent, or its constraint count is not positive, or one of its constraint
keys is absent. -/
def BadConstraints {R : Type} (ops : RelationOps R) (rel : R) : Prop :=
  match ops.getStateConstraints rel with
  | none => True
  | some sc =>
    sc.getConstraintCount ≤ 0 ∨
      ∃ j : Nat, (j : Int) < sc.getConstraintCount ∧ sc.getConstraint j = none

/-- The finished row of one constraint key: column `c` is 1 exactly for the
states the matcher accepts. -/
def constraintRow (DONT_CARE : Int) (vars : List Variable) (statespace : Int)
    (stateSpaceArr : Nat → Nat → Int) (key : Nat → Nat) : List Int :=
  (List.range statespace.toNat).map fun c =>
    if matchState DONT_CARE (stateSpaceArr c) (keyValues DONT_CARE key vars) 0 (-1) = 0
    then 1 else 0

/-- The finished rows of the constraints `j, j + 1, ...` (`fuel` of them) of
one relation, or the `exit(1)` at the first absent key. -/
def constraintRows (DONT_CARE : Int) (vars : List Variable) (statespace : Int)
    (stateSpaceArr : Nat → Nat → Int) (sc : StateConstraint) :
    Nat → Nat → Except Halt (List (List Int))
  | 0, _ => .ok []
  | fuel + 1, j =>
    match sc.getConstraint j with
    | none => .error .exit
    | some key =>
      match constraintRows DONT_CARE vars statespace stateSpaceArr sc fuel (j + 1) with
      | .error h => .error h
      | .ok rows => .ok (constraintRow DONT_CARE vars statespace stateSpaceArr key :: rows)

/-- The finished constraint rows of a relation sequence, relation by relation,
or the `exit(1)` at the first relation whose constraint data is not usable. -/
def relationRows {R : Type} (ops : RelationOps R) (DONT_CARE : Int) (vars : List Variable)
    (statespace : Int) (stateSpaceArr : Nat → Nat → Int) :
    List R → Except Halt (List (List Int))
  | [] => .ok []
  | rel :: rest =>
    match ops.getStateConstraints rel with
    | none => .error .exit
    | some sc =>
      if sc.getConstraintCount ≤ 0 then .error .exit
      else
        match constraintRows DONT_CARE vars statespace stateSpaceArr sc
            sc.getConstraintCount.toNat 0 with
        | .error h => .error h
        | .ok rows =>
          match relationRows ops DONT_CARE vars statespace stateSpaceArr rest with
          | .error h => .error h
          | .ok more => .ok (rows ++ more)

/-- The number of constraint rows a relation sequence asks for. -/
def rowsNeeded {R : Type} (ops : RelationOps R) (rels : List R) : Nat :=
  (rels.map fun rel =>
    match ops.getStateConstraints rel with
    | none => 0
    | some sc => sc.getConstraintCount.toNat).sum

/-! ### Further sample collaborators -/

/-- Six binary variables, one bit each in key segment 0. -/
def sixBinaryVars : List Variable :=
  (List.range 6).map fun i => { cardinality := 2, segment := 0, shift := i, mask := 2 ^ i }

/-- Relations as variable bit sets over A = 1, B = 2, C = 4, D = 8, E = 16 and
Z = 32, named by their letters, in a directed system whose dependent variable
is Z: a relation without Z is independent-only. -/
def wideLetterView : RelationView Nat where
  getVariableList _ := sixBinaryVars
  isDirected _ := true
  isIndependentOnly r := r &&& 32 == 0
  getVariableCount r := (([1, 2, 4, 8, 16, 32].filter fun b => r &&& b == b).length : Int)
  getPrintName r _ :=
    (if r &&& 1 = 1 then "A" else "") ++ (if r &&& 2 = 2 then "B" else "") ++
      (if r &&& 4 = 4 then "C" else "") ++ (if r &&& 8 = 8 then "D" else "") ++
      (if r &&& 16 = 16 then "E" else "") ++ (if r &&& 32 = 32 then "Z" else "")

/-- Relations whose state constraints report the constraint count -1 and hold
no key. -/
def negativeCountOps : RelationOps (List Nat) :=
  { keyListOps with
    getStateConstraints := fun _ =>
      some { getConstraintCount := -1, getConstraint := fun _ => none } }

/-- Two variables of cardinality 65536, sixteen bits each in key segment 0:
2^32 joint states. -/
def wideDomainVars : List Variable :=
  [{ cardinality := 65536, segment := 0, shift := 16, mask := 4294901760 },
   { cardinality := 65536, segment := 0, shift := 0, mask := 65535 }]

/-- The key-list relations over the two variables of cardinality 65536. -/
def wideDomainView : RelationView (List Nat) :=
  { keyListView with getVariableList := fun _ => wideDomainVars }

/-! ## Theorems: relation insertion -/

theorem absorbScan_eq {R : Type} (ops : RelationOps R) (r : R) :
    ∀ (fuel : Nat) (pre suf : List R), suf.length ≤ fuel →
      absorbScan ops r fuel pre.length (pre ++ suf) =
        ((absorbList ops r suf).1, pre ++ (absorbList ops r suf).2) := by
  intro fuel
  induction fuel with
  | zero =>
    intro pre suf h
    have : suf = [] := List.length_eq_zero.mp (Nat.le_zero.mp h)
    subst this
    simp [absorbScan, absorbList]
  | succ fuel ih =>
    intro pre suf h
    cases suf with
    | nil => simp [absorbScan, absorbList]
    | cons x xs =>
      have hx : (pre ++ x :: xs)[pre.length]? = some x := by
        rw [List.getElem?_append_right (le_refl _)]; simp
      simp only [absorbScan, hx, absorbList]
      by_cases h1 : ops.contains x r = true
      · simp [h1]
      · by_cases h2 : ops.contains r x = true
        · have he : (pre ++ x :: xs).eraseIdx pre.length = pre ++ xs := by
            simp [List.eraseIdx_append_of_length_le]
          simp only [h1, h2, he, if_true, if_false]
          exact ih pre xs (by simpa using h)
        · have := ih (pre ++ [x]) xs (by simpa using h)
          simp only [List.length_append, List.length_singleton, List.append_assoc,
            List.singleton_append] at this
          simp [h1, h2, this]

theorem absorbScan_start {R : Type} (ops : RelationOps R) (r : R) (rels : List R) :
    absorbScan ops r rels.length 0 rels = absorbList ops r rels := by
  have := absorbScan_eq ops r rels.length [] rels (le_refl _)
  simpa using this

theorem absorbList_sublist {R : Type} (ops : RelationOps R) (r : R) (xs : List R) :
    (absorbList ops r xs).2.Sublist xs := by
  induction xs with
  | nil => simp [absorbList]
  | cons x xs ih =>
    simp only [absorbList]
    split_ifs
    · exact List.Sublist.refl _
    · exact ih.trans (List.sublist_cons_self x xs)
    · exact ih.cons₂ x

theorem absorbList_false {R : Type} (ops : RelationOps R) (r : R) (xs : List R)
    (h : (absorbList ops r xs).1 = false) :
    (absorbList ops r xs).2 = xs.filter (fun x => !ops.contains r x) ∧
      ∀ x ∈ xs, ops.contains x r = false := by
  induction xs with
  | nil => simp [absorbList]
  | cons x xs ih =>
    simp only [absorbList] at h ⊢
    by_cases h1 : ops.contains x r = true
    · simp [h1] at h
    · by_cases h2 : ops.contains r x = true
      · simp only [h1, h2, if_true, if_false] at h ⊢
        obtain ⟨e, f⟩ := ih h
        refine ⟨by simp [e, h2], ?_⟩
        intro y hy
        rcases List.mem_cons.mp hy with rfl | hy
        · simpa using h1
        · exact f y hy
      · simp only [h1, h2, if_false] at h ⊢
        obtain ⟨e, f⟩ := ih h
        refine ⟨by simp [e, h2], ?_⟩
        intro y hy
        rcases List.mem_cons.mp hy with rfl | hy
        · simpa using h1
        · exact f y hy

theorem absorbList_of_none_contains {R : Type} (ops : RelationOps R) (r : R) (xs : List R)
    (h : ∀ x ∈ xs, ops.contains x r = false) : (absorbList ops r xs).1 = false := by
  induction xs with
  | nil => simp [absorbList]
  | cons x xs ih =>
    have hx : ops.contains x r = false := h x (List.mem_cons_self _ _)
    have hxs := ih (fun y hy => h y (List.mem_cons_of_mem _ hy))
    simp only [absorbList, hx]
    split_ifs <;> simp_all


theorem sorted_iff_pairwise {R : Type} (ops : RelationOps R) (rels : List R) :
    Sorted ops rels ↔ rels.Pairwise (fun a b => 0 ≤ ops.compare b a) := by
  rw [List.pairwise_iff_getElem]
  constructor
  · intro h i j hi hj hij
    exact h i j hij hj
  · intro h i j hij hj
    exact h i j (lt_trans hij hj) hj hij

theorem minimal_iff_pairwise {R : Type} (ops : RelationOps R) (rels : List R) :
    Minimal ops rels ↔
      rels.Pairwise (fun a b => ops.contains a b = false ∧ ops.contains b a = false) := by
  rw [List.pairwise_iff_getElem]
  constructor
  · intro h i j hi hj hij
    exact ⟨h i j hi hj (Nat.ne_of_lt hij), h j i hj hi (Nat.ne_of_gt hij)⟩
  · intro h i j hi hj hij
    rcases Nat.lt_or_gt_of_ne hij with hlt | hgt
    · exact (h i j hi hj hlt).1
    · exact (h j i hj hi hgt).2

theorem growCapacity_some (count : Nat) :
    ∀ (fuel cap0 : Nat), count < cap0 * 2 ^ fuel →
      ∃ cap, growCapacity count fuel cap0 = some cap ∧ count < cap ∧ cap0 ≤ cap := by
  intro fuel
  induction fuel with
  | zero =>
    intro cap0 h
    have h1 : count < cap0 := by simpa using h
    exact ⟨cap0, by simp [growCapacity, h1], h1, le_refl _⟩
  | succ fuel ih =>
    intro cap0 h
    by_cases hc : count ≥ cap0
    · have h2 : count < cap0 * 2 * 2 ^ fuel := by
        rw [pow_succ] at h
        calc count < cap0 * (2 ^ fuel * 2) := h
          _ = cap0 * 2 * 2 ^ fuel := by ring
      obtain ⟨cap, e, hlt, hle⟩ := ih (cap0 * 2) h2
      exact ⟨cap, by simp [growCapacity, hc, e], hlt, by omega⟩
    · exact ⟨cap0, by simp [growCapacity, hc], by omega, le_refl _⟩

theorem growCapacity_pos (count cap0 : Nat) (h : 0 < cap0) :
    ∃ cap, growCapacity count (count + 1) cap0 = some cap ∧ count < cap ∧ cap0 ≤ cap := by
  apply growCapacity_some
  have h1 : count < 2 ^ (count + 1) :=
    lt_trans (Nat.lt_two_pow count) (Nat.pow_lt_pow_right (by decide) (Nat.lt_succ_self _))
  calc count < 2 ^ (count + 1) := h1
    _ ≤ cap0 * 2 ^ (count + 1) := Nat.le_mul_of_pos_left _ h

theorem growCapacity_zero (count : Nat) :
    ∀ fuel : Nat, growCapacity count fuel 0 = none := by
  intro fuel
  induction fuel with
  | zero => simp [growCapacity]
  | succ fuel ih => simp [growCapacity, ih]

theorem insertAt_perm {R : Type} (r : R) (i : Nat) (rels : List R) :
    (insertAt r i rels).Perm (r :: rels) := by
  unfold insertAt
  have h := @List.perm_middle R r (rels.take i) (rels.drop i)
  rwa [List.take_append_drop] at h

theorem mem_insertAt {R : Type} (r x : R) (i : Nat) (rels : List R) :
    x ∈ insertAt r i rels ↔ x = r ∨ x ∈ rels := by
  rw [(insertAt_perm r i rels).mem_iff, List.mem_cons]

theorem insertAt_findSpot_cons {R : Type} (ops : RelationOps R) (r x : R) (xs : List R) :
    insertAt r (findSpot ops r (x :: xs)) (x :: xs) =
      if ops.compare r x < 0 then r :: x :: xs
      else x :: insertAt r (findSpot ops r xs) xs := by
  by_cases h : ops.compare r x < 0 <;> simp [findSpot, insertAt, h]

theorem findSpot_le {R : Type} (ops : RelationOps R) (r : R) (xs : List R) :
    findSpot ops r xs ≤ xs.length := by
  induction xs with
  | nil => simp [findSpot]
  | cons x xs ih =>
    simp only [findSpot]
    split_ifs
    · simp
    · simp only [List.length_cons]; omega

theorem insert_sorted {R : Type} (ops : RelationOps R) (r : R)
    (hanti : ∀ a b, ops.compare a b < 0 → 0 ≤ ops.compare b a)
    (htrans : ∀ a b c, 0 ≤ ops.compare a b → 0 ≤ ops.compare b c → 0 ≤ ops.compare a c)
    (xs : List R) (h : xs.Pairwise (fun a b => 0 ≤ ops.compare b a)) :
    (insertAt r (findSpot ops r xs) xs).Pairwise (fun a b => 0 ≤ ops.compare b a) := by
  induction xs with
  | nil => simp [findSpot, insertAt]
  | cons x xs ih =>
    rw [insertAt_findSpot_cons]
    rw [List.pairwise_cons] at h
    by_cases hc : ops.compare r x < 0
    · simp only [hc, if_true]
      refine List.Pairwise.cons ?_ (List.Pairwise.cons h.1 h.2)
      intro y hy
      have hxr : 0 ≤ ops.compare x r := hanti r x hc
      rcases List.mem_cons.mp hy with rfl | hy
      · exact hxr
      · exact htrans y x r (h.1 y hy) hxr
    · simp only [hc, if_false]
      refine List.Pairwise.cons ?_ (ih h.2)
      intro y hy
      rcases (mem_insertAt r y _ xs).mp hy with rfl | hy
      · exact not_lt.mp hc
      · exact h.1 y hy

theorem insert_minimal {R : Type} (ops : RelationOps R) (r : R) (i : Nat) (xs : List R)
    (h : xs.Pairwise (fun a b => ops.contains a b = false ∧ ops.contains b a = false))
    (hr : ∀ x ∈ xs, ops.contains x r = false ∧ ops.contains r x = false) :
    (insertAt r i xs).Pairwise
      (fun a b => ops.contains a b = false ∧ ops.contains b a = false) := by
  have hsymm : ∀ a b : R, (ops.contains a b = false ∧ ops.contains b a = false) →
      (ops.contains b a = false ∧ ops.contains a b = false) := fun _ _ hab => ⟨hab.2, hab.1⟩
  refine ((insertAt_perm r i xs).pairwise_iff (fun {a b} hab => hsymm a b hab)).mpr ?_
  refine List.Pairwise.cons ?_ h
  intro y hy
  exact ⟨(hr y hy).2, (hr y hy).1⟩


theorem insertPhase_ok {R T D : Type} (ops : RelationOps R) (m m' : Model R T D) (r : R)
    (h : insertPhase ops m r = .ok m') :
    m'.relations = insertAt r (findSpot ops r m.relations) m.relations ∧
      DerivedCleared m' ∧ m.relations.length < m'.maxRelationCount := by
  unfold insertPhase at h
  cases hg : growCapacity m.relations.length (m.relations.length + 1) m.maxRelationCount with
  | none => simp [hg] at h
  | some cap =>
    simp only [hg, Except.ok.injEq] at h
    have hpos : 0 < m.maxRelationCount := by
      rcases Nat.eq_zero_or_pos m.maxRelationCount with h0 | h0
      · rw [h0, growCapacity_zero] at hg
        exact absurd hg (by simp)
      · exact h0
    obtain ⟨cap1, e1, hlt, _⟩ := growCapacity_pos m.relations.length m.maxRelationCount hpos
    rw [hg] at e1
    have hcap : cap = cap1 := Option.some.inj e1
    subst h
    exact ⟨rfl, ⟨rfl, rfl, rfl, rfl, rfl⟩, by simpa [hcap] using hlt⟩

theorem insertPhase_returns {R T D : Type} (ops : RelationOps R) (m : Model R T D) (r : R)
    (h : 0 < m.maxRelationCount) : ∃ m', insertPhase ops m r = .ok m' := by
  obtain ⟨cap, e, _, _⟩ := growCapacity_pos m.relations.length m.maxRelationCount h
  unfold insertPhase
  rw [e]
  exact ⟨_, rfl⟩

theorem insertPhase_hangs {R T D : Type} (ops : RelationOps R) (m : Model R T D) (r : R)
    (h : m.maxRelationCount = 0) : insertPhase ops m r = .error .hang := by
  unfold insertPhase
  rw [h, growCapacity_zero]

/-- In the regime without state-based relations the normalisation block is the
list scan. -/
theorem normalizePhase_plain {R T D : Type} (ops : RelationOps R) (oracle : SbOracle R T D)
    (m : Model R T D) (r : R) (hm : m.isStateBased ops = false)
    (hr : ops.isStateBased r = false) :
    normalizePhase ops oracle m r true =
      if (absorbList ops r m.relations).1 then
        .skip { m with relations := (absorbList ops r m.relations).2 }
      else .proceed { m with relations := (absorbList ops r m.relations).2 } := by
  unfold normalizePhase
  by_cases hc : m.getRelationCount > 0
  · simp only [hc, decide_True, Bool.and_self, if_true, hm, hr, Bool.or_self]
    rw [absorbScan_start]
    cases hl : absorbList ops r m.relations with
    | mk b ys => cases b <;> simp
  · have hnil : m.relations = [] := by
      unfold Model.getRelationCount at hc
      exact List.length_eq_zero.mp (by omega)
    simp [hc, hnil, absorbList]
    cases m
    simp_all

theorem normalizePhase_relations {R T D : Type} (ops : RelationOps R)
    (oracle : SbOracle R T D) (m : Model R T D) (r : R) (normalize : Bool) :
    (∀ m1, normalizePhase ops oracle m r normalize = .skip m1 →
        m1.relations.Sublist m.relations ∧ m1.maxRelationCount = m.maxRelationCount) ∧
      (∀ m1, normalizePhase ops oracle m r normalize = .proceed m1 →
        m1.relations.Sublist m.relations ∧ m1.maxRelationCount = m.maxRelationCount) := by
  unfold normalizePhase
  split_ifs with h1 h2
  · cases ho : oracle m r with
    | error h => simp
    | ok p =>
      obtain ⟨answer, eff⟩ := p
      cases answer <;> simp
  · rw [absorbScan_start]
    have hs := absorbList_sublist ops r m.relations
    cases hl : absorbList ops r m.relations with
    | mk b ys =>
      rw [hl] at hs
      cases b
      · simp only [false_implies, implies_true, true_and, reduceCtorEq]
        intro m1 hm1
        simp only [Normalized.proceed.injEq] at hm1
        subst hm1
        exact ⟨hs, rfl⟩
      · simp only [false_implies, implies_true, and_true, reduceCtorEq]
        intro m1 hm1
        simp only [Normalized.skip.injEq] at hm1
        subst hm1
        exact ⟨hs, rfl⟩
  · simp only [false_implies, implies_true, true_and, reduceCtorEq]
    intro m1 hm1
    simp only [Normalized.proceed.injEq] at hm1
    subst hm1
    exact ⟨List.Sublist.refl _, rfl⟩

theorem addRelation_ok_cases {R T D : Type} (ops : RelationOps R) (oracle : SbOracle R T D)
    (m m' : Model R T D) (r : R) (normalize : Bool)
    (h : addRelation ops oracle m (some r) normalize = .ok m') :
    normalizePhase ops oracle m r normalize = .skip m' ∨
      ∃ m1, normalizePhase ops oracle m r normalize = .proceed m1 ∧
        insertPhase ops m1 r = .ok m' := by
  unfold addRelation at h
  cases hn : normalizePhase ops oracle m r normalize with
  | skip m1 =>
    simp only [hn, Except.ok.injEq] at h
    left; rw [h]
  | proceed m1 =>
    simp only [hn] at h
    right; exact ⟨m1, rfl, h⟩
  | halted e => simp [hn] at h


theorem isStateBased_false_iff {R T D : Type} (ops : RelationOps R) (m : Model R T D) :
    m.isStateBased ops = false ↔ ∀ x ∈ m.relations, ops.isStateBased x = false := by
  unfold Model.isStateBased
  simp [List.any_eq_false]

theorem addRelation_plain {R T D : Type} (ops : RelationOps R) (oracle : SbOracle R T D)
    (m : Model R T D) (r : R) (hm : m.isStateBased ops = false)
    (hr : ops.isStateBased r = false) :
    addRelation ops oracle m (some r) true =
      if (absorbList ops r m.relations).1 then
        .ok { m with relations := (absorbList ops r m.relations).2 }
      else insertPhase ops { m with relations := (absorbList ops r m.relations).2 } r := by
  unfold addRelation
  simp only [normalizePhase_plain ops oracle m r hm hr]
  split_ifs <;> rfl

theorem addRelation_returns {R T D : Type} (ops : RelationOps R) (oracle : SbOracle R T D)
    (m : Model R T D) (newRelation : Option R) (normalize : Bool)
    (hcap : 0 < m.maxRelationCount)
    (hn : ∀ r h, newRelation = some r → normalizePhase ops oracle m r normalize ≠ .halted h) :
    ∃ m', addRelation ops oracle m newRelation normalize = .ok m' := by
  cases newRelation with
  | none => exact ⟨m, rfl⟩
  | some r =>
    cases hp : normalizePhase ops oracle m r normalize with
    | skip m1 => exact ⟨m1, by simp only [addRelation, hp]⟩
    | proceed m1 =>
      have hc := ((normalizePhase_relations ops oracle m r normalize).2 m1 hp).2
      obtain ⟨m', hm'⟩ := insertPhase_returns ops m1 r (by omega)
      exact ⟨m', by simp only [addRelation, hp, hm']⟩
    | halted e => exact absurd hp (hn r e rfl)

theorem normalizePhase_not_halted {R T D : Type} (ops : RelationOps R)
    (oracle : SbOracle R T D) (m : Model R T D) (r : R) (normalize : Bool)
    (ho : ∀ h, oracle m r ≠ .error h) (e : Halt) :
    normalizePhase ops oracle m r normalize ≠ .halted e := by
  unfold normalizePhase
  split_ifs with h1 h2
  · cases hor : oracle m r with
    | error h => exact absurd hor (ho h)
    | ok p =>
      obtain ⟨answer, eff⟩ := p
      cases answer <;> simp
  · cases hl : absorbScan ops r m.relations.length 0 m.relations with
    | mk b ys => cases b <;> simp
  · simp

theorem addRelation_capacity {R T D : Type} (ops : RelationOps R) (oracle : SbOracle R T D)
    (m m' : Model R T D) (r : R) (normalize : Bool)
    (hcap : 0 < m.maxRelationCount)
    (h : addRelation ops oracle m (some r) normalize = .ok m') : 0 < m'.maxRelationCount := by
  rcases addRelation_ok_cases ops oracle m m' r normalize h with hs | ⟨m1, _, hi⟩
  · rw [((normalizePhase_relations ops oracle m r normalize).1 m' hs).2]; exact hcap
  · have := (insertPhase_ok ops m1 m' r hi).2.2
    omega

theorem addRelation_mem {R T D : Type} (ops : RelationOps R) (oracle : SbOracle R T D)
    (m m' : Model R T D) (r : R) (normalize : Bool)
    (h : addRelation ops oracle m (some r) normalize = .ok m') :
    ∀ x ∈ m'.relations, x = r ∨ x ∈ m.relations := by
  intro x hx
  rcases addRelation_ok_cases ops oracle m m' r normalize h with hs | ⟨m1, hp, hi⟩
  · exact Or.inr (((normalizePhase_relations ops oracle m r normalize).1 m' hs).1.subset hx)
  · rw [(insertPhase_ok ops m1 m' r hi).1, mem_insertAt] at hx
    rcases hx with hx | hx
    · exact Or.inl hx
    · exact Or.inr (((normalizePhase_relations ops oracle m r normalize).2 m1 hp).1.subset hx)

theorem addRelation_minimal_step {R T D : Type} (ops : RelationOps R)
    (oracle : SbOracle R T D) (m m' : Model R T D) (r : R)
    (hm : ∀ x ∈ m.relations, ops.isStateBased x = false) (hr : ops.isStateBased r = false)
    (hmin : Minimal ops m.relations)
    (h : addRelation ops oracle m (some r) true = .ok m') : Minimal ops m'.relations := by
  rw [minimal_iff_pairwise] at hmin ⊢
  rw [addRelation_plain ops oracle m r ((isStateBased_false_iff ops m).mpr hm) hr] at h
  by_cases hb : (absorbList ops r m.relations).1 = true
  · simp only [hb, if_true, Except.ok.injEq] at h
    subst h
    exact hmin.sublist (absorbList_sublist ops r m.relations)
  · simp only [hb, if_false] at h
    have hf := absorbList_false ops r m.relations (by simpa using hb)
    rw [(insertPhase_ok ops _ m' r h).1]
    refine insert_minimal ops r _ _ (hmin.sublist (absorbList_sublist ops r m.relations)) ?_
    intro x hx
    simp only [hf.1, List.mem_filter, Bool.not_eq_true'] at hx
    exact ⟨hf.2 x hx.1, hx.2⟩

theorem addRelations_plain_invariant {R T D : Type} (ops : RelationOps R)
    (oracle : SbOracle R T D) (rs : List R) (hrs : ∀ r ∈ rs, ops.isStateBased r = false) :
    ∀ (m m' : Model R T D), (∀ x ∈ m.relations, ops.isStateBased x = false) →
      Minimal ops m.relations → addRelations ops oracle true m rs = .ok m' →
      Minimal ops m'.relations ∧ ∀ x ∈ m'.relations, ops.isStateBased x = false := by
  induction rs with
  | nil =>
    intro m m' hm hmin h
    simp only [addRelations, Except.ok.injEq] at h
    subst h
    exact ⟨hmin, hm⟩
  | cons r rs ih =>
    intro m m' hm hmin h
    have hr := hrs r (List.mem_cons_self _ _)
    simp only [addRelations] at h
    cases h1 : addRelation ops oracle m (some r) true with
    | error e => simp [h1] at h
    | ok m1 =>
      simp only [h1] at h
      refine ih (fun x hx => hrs x (List.mem_cons_of_mem _ hx)) m1 m' ?_ ?_ h
      · intro x hx
        rcases addRelation_mem ops oracle m m1 r true h1 x hx with rfl | hx
        · exact hr
        · exact hm x hx
      · exact addRelation_minimal_step ops oracle m m1 r hm hr hmin h1

theorem addRelations_plain_returns {R T D : Type} (ops : RelationOps R)
    (oracle : SbOracle R T D) (rs : List R) (hrs : ∀ r ∈ rs, ops.isStateBased r = false) :
    ∀ (m : Model R T D), (∀ x ∈ m.relations, ops.isStateBased x = false) →
      0 < m.maxRelationCount → ∃ m', addRelations ops oracle true m rs = .ok m' := by
  induction rs with
  | nil => intro m _ _; exact ⟨m, rfl⟩
  | cons r rs ih =>
    intro m hm hcap
    have hr := hrs r (List.mem_cons_self _ _)
    have hnh : ∀ r' h, some r = some r' → normalizePhase ops oracle m r' true ≠ .halted h := by
      intro r' e he
      cases he
      rw [normalizePhase_plain ops oracle m r ((isStateBased_false_iff ops m).mpr hm) hr]
      split_ifs <;> simp
    obtain ⟨m1, h1⟩ := addRelation_returns ops oracle m (some r) true hcap hnh
    have hm1 : ∀ x ∈ m1.relations, ops.isStateBased x = false := by
      intro x hx
      rcases addRelation_mem ops oracle m m1 r true h1 x hx with rfl | hx
      · exact hr
      · exact hm x hx
    obtain ⟨m', h'⟩ := ih (fun x hx => hrs x (List.mem_cons_of_mem _ hx)) m1 hm1
      (addRelation_capacity ops oracle m m1 r true hcap h1)
    exact ⟨m', by simp only [addRelations, h1, h']⟩

theorem minimal_nil {R : Type} (ops : RelationOps R) : Minimal ops ([] : List R) := by
  intro i j hi
  simp at hi

theorem absorbList_implied {R : Type} (ops : RelationOps R) (r : R)
    (htrans : ∀ a b c, ops.contains a b = true → ops.contains b c = true →
      ops.contains a c = true)
    (xs : List R)
    (hmin : xs.Pairwise (fun a b => ops.contains a b = false ∧ ops.contains b a = false))
    (he : ∃ e ∈ xs, ops.contains e r = true) : absorbList ops r xs = (true, xs) := by
  induction xs with
  | nil => simp at he
  | cons x xs ih =>
    rw [List.pairwise_cons] at hmin
    simp only [absorbList]
    by_cases h1 : ops.contains x r = true
    · simp [h1]
    · have hes : ∃ e ∈ xs, ops.contains e r = true := by
        obtain ⟨e, hmem, hc⟩ := he
        rcases List.mem_cons.mp hmem with rfl | hmem
        · exact absurd hc h1
        · exact ⟨e, hmem, hc⟩
      by_cases h2 : ops.contains r x = true
      · obtain ⟨e, hmem, hc⟩ := hes
        have hex : ops.contains e x = true := htrans e r x hc h2
        rw [(hmin.1 e hmem).2] at hex
        exact absurd hex (by simp)
      · simp [h1, h2, ih hmin.2 hes]

/-- C1 (minimality invariant): inserting any sequence of non-state-based
relations into an empty model with `normalize = true` returns (for a positive
initial capacity) and any model it returns has no two distinct positions
`i`, `j` with `relations[i]` containing `relations[j]`. -/
theorem minimality_invariant {R T D : Type} (ops : RelationOps R) (oracle : SbOracle R T D)
    (n : Nat) (rs : List R) (hrs : ∀ r ∈ rs, ops.isStateBased r = false) :
    (0 < n → ∃ m, addRelations ops oracle true (Model.new n) rs = .ok m) ∧
      ∀ m, addRelations ops oracle true (Model.new n) rs = .ok m →
        ∀ (i j : Nat) (hi : i < m.relations.length) (hj : j < m.relations.length), i ≠ j →
          ops.contains m.relations[i] m.relations[j] = false := by
  constructor
  · intro hn
    exact addRelations_plain_returns ops oracle rs hrs (Model.new n)
      (by intro x hx; simp [Model.new] at hx) hn
  · intro m hm
    exact (addRelations_plain_invariant ops oracle rs hrs (Model.new n) m
      (by intro x hx; simp [Model.new] at hx) (minimal_nil ops) hm).1

theorem minimality_invariant_witness :
    (∀ r ∈ [1, 2, 3, 7, 4], bitsetOps.isStateBased r = false) ∧
      ((0 < 1 → ∃ m, addRelations bitsetOps (noOracle : SbOracle Nat Unit Unit) true
          (Model.new 1) [1, 2, 3, 7, 4] = .ok m) ∧
        ∀ m, addRelations bitsetOps (noOracle : SbOracle Nat Unit Unit) true
            (Model.new 1) [1, 2, 3, 7, 4] = .ok m →
          ∀ (i j : Nat) (hi : i < m.relations.length) (hj : j < m.relations.length), i ≠ j →
            bitsetOps.contains m.relations[i] m.relations[j] = false) :=
  ⟨fun _ _ => rfl, minimality_invariant bitsetOps noOracle 1 [1, 2, 3, 7, 4] (fun _ _ => rfl)⟩

/-- C2 (sortedness invariant): with a comparator that is a total order, a call
of `addRelation` on a sorted relation sequence (any relation or NULL, `normalize`
true or false, any regime) leaves the sequence sorted whenever it returns; it
returns when the capacity is positive and the containment oracle returns; and
the model made by the constructor is sorted. -/
theorem sortedness_invariant {R T D : Type} (ops : RelationOps R) (oracle : SbOracle R T D)
    (m : Model R T D) (newRelation : Option R) (normalize : Bool)
    (hanti : ∀ a b, ops.compare a b < 0 → 0 ≤ ops.compare b a)
    (htrans : ∀ a b c, 0 ≤ ops.compare a b → 0 ≤ ops.compare b c → 0 ≤ ops.compare a c)
    (hsorted : Sorted ops m.relations) :
    (∀ m', addRelation ops oracle m newRelation normalize = .ok m' →
        ∀ (i j : Nat) (_ : i < j) (hj : j < m'.relations.length),
          0 ≤ ops.compare m'.relations[j] m'.relations[i]) ∧
      (0 < m.maxRelationCount → (∀ r h, oracle m r ≠ .error h) →
        ∃ m', addRelation ops oracle m newRelation normalize = .ok m') ∧
      ∀ size : Nat, Sorted ops (Model.new size : Model R T D).relations := by
  refine ⟨?_, ?_, ?_⟩
  · intro m' h
    change Sorted ops m'.relations
    cases newRelation with
    | none =>
      simp only [addRelation, Except.ok.injEq] at h
      subst h
      exact hsorted
    | some r =>
      rw [sorted_iff_pairwise] at hsorted ⊢
      rcases addRelation_ok_cases ops oracle m m' r normalize h with hs | ⟨m1, hp, hi⟩
      · exact hsorted.sublist ((normalizePhase_relations ops oracle m r normalize).1 m' hs).1
      · rw [(insertPhase_ok ops m1 m' r hi).1]
        exact insert_sorted ops r hanti htrans _
          (hsorted.sublist ((normalizePhase_relations ops oracle m r normalize).2 m1 hp).1)
  · intro hcap ho
    exact addRelation_returns ops oracle m newRelation normalize hcap
      (fun r e _ => normalizePhase_not_halted ops oracle m r normalize (ho r) e)
  · intro size i j _ hj
    simp [Model.new] at hj

theorem sortedness_invariant_witness :
    (∀ a b, bitsetOps.compare a b < 0 → 0 ≤ bitsetOps.compare b a) ∧
      (∀ a b c, 0 ≤ bitsetOps.compare a b → 0 ≤ bitsetOps.compare b c →
        0 ≤ bitsetOps.compare a c) ∧
      Sorted bitsetOps ({ (Model.new 2 : Model Nat Unit Unit) with relations := [1, 7] }).relations ∧
      ((∀ m', addRelation bitsetOps noOracle
            { (Model.new 2 : Model Nat Unit Unit) with relations := [1, 7] } (some 3) true
              = .ok m' →
          ∀ (i j : Nat) (_ : i < j) (hj : j < m'.relations.length),
            0 ≤ bitsetOps.compare m'.relations[j] m'.relations[i]) ∧
        (0 < ({ (Model.new 2 : Model Nat Unit Unit) with relations := [1, 7] }).maxRelationCount →
          (∀ r h, (noOracle : SbOracle Nat Unit Unit)
            { (Model.new 2 : Model Nat Unit Unit) with relations := [1, 7] } r ≠ .error h) →
          ∃ m', addRelation bitsetOps noOracle
            { (Model.new 2 : Model Nat Unit Unit) with relations := [1, 7] } (some 3) true
              = .ok m') ∧
        ∀ size : Nat, Sorted bitsetOps (Model.new size : Model Nat Unit Unit).relations) :=
  have hanti : ∀ a b, bitsetOps.compare a b < 0 → 0 ≤ bitsetOps.compare b a := by
    intro a b h
    simp only [bitsetOps] at h ⊢
    omega
  have htrans : ∀ a b c, 0 ≤ bitsetOps.compare a b → 0 ≤ bitsetOps.compare b c →
      0 ≤ bitsetOps.compare a c := by
    intro a b c h1 h2
    simp only [bitsetOps] at h1 h2 ⊢
    omega
  have hs : Sorted bitsetOps
      ({ (Model.new 2 : Model Nat Unit Unit) with relations := [1, 7] }).relations := by
    rw [sorted_iff_pairwise]
    simp [bitsetOps]
  ⟨hanti, htrans, hs,
    sortedness_invariant bitsetOps noOracle
      { (Model.new 2 : Model Nat Unit Unit) with relations := [1, 7] } (some 3) true
      hanti htrans hs⟩

/-- C3 (absorption postcondition): for a model without state-based relations
(capacity positive, as for every non-empty model) and a non-state-based
relation `r` that no existing relation contains, `addRelation(r, true)` returns
a model whose relations are the existing relations that `r` does not contain,
in their previous order, with `r` inserted once at the comparator position;
every existing relation contained in `r` is gone. -/
theorem absorption_postcondition {R T D : Type} (ops : RelationOps R)
    (oracle : SbOracle R T D) (m : Model R T D) (r : R)
    (hm : m.isStateBased ops = false) (hr : ops.isStateBased r = false)
    (hnone : ∀ x ∈ m.relations, ops.contains x r = false)
    (hcap : 0 < m.maxRelationCount) :
    ∃ m', addRelation ops oracle m (some r) true = .ok m' ∧
      m'.relations =
        (m.relations.filter fun x => !ops.contains r x).take
            (findSpot ops r (m.relations.filter fun x => !ops.contains r x)) ++
          r :: (m.relations.filter fun x => !ops.contains r x).drop
            (findSpot ops r (m.relations.filter fun x => !ops.contains r x)) ∧
      findSpot ops r (m.relations.filter fun x => !ops.contains r x) ≤
        (m.relations.filter fun x => !ops.contains r x).length ∧
      ∀ x ∈ m.relations, ops.contains r x = true → x ∈ m'.relations → x = r := by
  have hb := absorbList_of_none_contains ops r m.relations hnone
  have hf := (absorbList_false ops r m.relations hb).1
  obtain ⟨m', hm'⟩ := insertPhase_returns ops
    { m with relations := (absorbList ops r m.relations).2 } r hcap
  have hrel := (insertPhase_ok ops _ m' r hm').1
  simp only [hf] at hrel
  refine ⟨m', ?_, hrel, findSpot_le ops r _, ?_⟩
  · rw [addRelation_plain ops oracle m r hm hr]
    simp only [hb, Bool.false_eq_true, if_false]
    exact hm'
  · intro x _ hc hx
    rw [hrel, mem_insertAt] at hx
    rcases hx with hx | hx
    · exact hx
    · simp [hc] at hx

theorem absorption_postcondition_witness :
    ∃ m', addRelation bitsetOps (noOracle : SbOracle Nat Unit Unit)
        { (Model.new 4 : Model Nat Unit Unit) with relations := [1, 2, 12] } (some 3) true
          = .ok m' ∧
      m'.relations =
        ([1, 2, 12].filter fun x => !bitsetOps.contains 3 x).take
            (findSpot bitsetOps 3 ([1, 2, 12].filter fun x => !bitsetOps.contains 3 x)) ++
          3 :: ([1, 2, 12].filter fun x => !bitsetOps.contains 3 x).drop
            (findSpot bitsetOps 3 ([1, 2, 12].filter fun x => !bitsetOps.contains 3 x)) ∧
      findSpot bitsetOps 3 ([1, 2, 12].filter fun x => !bitsetOps.contains 3 x) ≤
        ([1, 2, 12].filter fun x => !bitsetOps.contains 3 x).length ∧
      ∀ x ∈ [1, 2, 12], bitsetOps.contains 3 x = true →
        x ∈ m'.relations → x = 3 :=
  absorption_postcondition bitsetOps noOracle
    { (Model.new 4 : Model Nat Unit Unit) with relations := [1, 2, 12] } 3
    (by decide) (by decide) (by decide) (by decide)

/-- C4 (implied insertion is a no-op): with a transitive `contains`, on a model
built from the empty model by normalised insertions of non-state-based
relations, `addRelation(r, true)` for a non-state-based `r` contained in some
existing relation returns the model unchanged: same relation sequence, same
count, nothing removed. -/
theorem implied_insertion_noop {R T D : Type} (ops : RelationOps R)
    (oracle : SbOracle R T D) (n : Nat) (rs : List R) (m : Model R T D) (r : R)
    (htrans : ∀ a b c, ops.contains a b = true → ops.contains b c = true →
      ops.contains a c = true)
    (hrs : ∀ x ∈ rs, ops.isStateBased x = false)
    (hbuilt : addRelations ops oracle true (Model.new n) rs = .ok m)
    (hr : ops.isStateBased r = false)
    (he : ∃ e ∈ m.relations, ops.contains e r = true) :
    addRelation ops oracle m (some r) true = .ok m ∧
      ∀ m', addRelation ops oracle m (some r) true = .ok m' →
        m'.relations = m.relations ∧ m'.getRelationCount = m.getRelationCount := by
  obtain ⟨hmin, hsb⟩ := addRelations_plain_invariant ops oracle rs hrs (Model.new n) m
    (by intro x hx; simp [Model.new] at hx) (minimal_nil ops) hbuilt
  have hab := absorbList_implied ops r htrans m.relations
    ((minimal_iff_pairwise ops _).mp hmin) he
  have hres : addRelation ops oracle m (some r) true = .ok m := by
    rw [addRelation_plain ops oracle m r ((isStateBased_false_iff ops m).mpr hsb) hr, hab]
    rfl
  refine ⟨hres, ?_⟩
  intro m' h'
  rw [hres] at h'
  cases h'
  exact ⟨rfl, rfl⟩


theorem implied_insertion_noop_witness :
    (∀ a b c, bitsetOps.contains a b = true → bitsetOps.contains b c = true →
        bitsetOps.contains a c = true) ∧
      (∀ x ∈ [1, 6, 3], bitsetOps.isStateBased x = false) ∧
      addRelations bitsetOps (noOracle : SbOracle Nat Unit Unit) true (Model.new 1) [1, 6, 3] =
        .ok { (Model.new 2 : Model Nat Unit Unit) with relations := [3, 6] } ∧
      (addRelation bitsetOps (noOracle : SbOracle Nat Unit Unit)
          { (Model.new 2 : Model Nat Unit Unit) with relations := [3, 6] } (some 2) true =
            .ok { (Model.new 2 : Model Nat Unit Unit) with relations := [3, 6] } ∧
        ∀ m', addRelation bitsetOps (noOracle : SbOracle Nat Unit Unit)
            { (Model.new 2 : Model Nat Unit Unit) with relations := [3, 6] } (some 2) true =
              .ok m' →
          m'.relations = [3, 6] ∧
            m'.getRelationCount =
              ({ (Model.new 2 : Model Nat Unit Unit) with relations := [3, 6] }).getRelationCount) :=
  have htrans : ∀ a b c, bitsetOps.contains a b = true → bitsetOps.contains b c = true →
      bitsetOps.contains a c = true := by
    intro a b c h1 h2
    simp only [bitsetOps, beq_iff_eq] at h1 h2 ⊢
    rw [← h2, ← Nat.land_assoc, h1]
  ⟨htrans, fun _ _ => rfl, rfl,
    implied_insertion_noop bitsetOps noOracle 1 [1, 6, 3]
      { (Model.new 2 : Model Nat Unit Unit) with relations := [3, 6] } 2
      htrans (fun _ _ => rfl) rfl rfl ⟨6, by decide, by decide⟩⟩

/-- C5 (insertion invalidates derived state): when `addRelation` is called with
a non-null relation and the normalisation block does not skip it, every model
the call returns has both cached names, the structure matrix and the fit table
absent and an empty attribute store; the call returns when the capacity is
positive. -/
theorem insertion_clears_derived_state {R T D : Type} (ops : RelationOps R)
    (oracle : SbOracle R T D) (m m1 : Model R T D) (r : R) (normalize : Bool)
    (hproceed : normalizePhase ops oracle m r normalize = .proceed m1) :
    (∀ m', addRelation ops oracle m (some r) normalize = .ok m' →
        r ∈ m'.relations ∧ m'.printName = none ∧ m'.inverseName = none ∧
          m'.structMatrix = none ∧ m'.fitTable = none ∧ m'.attributeList = []) ∧
      (0 < m.maxRelationCount →
        ∃ m', addRelation ops oracle m (some r) normalize = .ok m') := by
  constructor
  · intro m' h
    rcases addRelation_ok_cases ops oracle m m' r normalize h with hs | ⟨m2, hp, hi⟩
    · rw [hproceed] at hs
      exact absurd hs (by simp)
    · obtain ⟨hrel, hclear, _⟩ := insertPhase_ok ops m2 m' r hi
      refine ⟨?_, hclear⟩
      rw [hrel, mem_insertAt]
      exact Or.inl rfl
  · intro hcap
    refine addRelation_returns ops oracle m (some r) normalize hcap ?_
    intro r' e hr'
    cases hr'
    rw [hproceed]
    simp

theorem insertion_clears_derived_state_witness :
    normalizePhase bitsetOps (noOracle : SbOracle Nat Unit Unit)
        { (Model.new 2 : Model Nat Unit Unit) with
          relations := [1, 2], printName := some "A:B", fitTable := some () } 4 true =
        .proceed { (Model.new 2 : Model Nat Unit Unit) with
          relations := [1, 2], printName := some "A:B", fitTable := some () } ∧
      ((∀ m', addRelation bitsetOps (noOracle : SbOracle Nat Unit Unit)
            { (Model.new 2 : Model Nat Unit Unit) with
              relations := [1, 2], printName := some "A:B", fitTable := some () } (some 4) true
              = .ok m' →
          4 ∈ m'.relations ∧ m'.printName = none ∧ m'.inverseName = none ∧
            m'.structMatrix = none ∧ m'.fitTable = none ∧ m'.attributeList = []) ∧
        (0 < 2 →
          ∃ m', addRelation bitsetOps (noOracle : SbOracle Nat Unit Unit)
            { (Model.new 2 : Model Nat Unit Unit) with
              relations := [1, 2], printName := some "A:B", fitTable := some () } (some 4) true
              = .ok m')) :=
  ⟨rfl, insertion_clears_derived_state bitsetOps noOracle _ _ 4 true rfl⟩

/-- C6 (evaluation at the failing input): the model holds the relations A and
ABC, added with `normalize = false`, and has a cached print name and a fit
table.  `addRelation(AB, true)` absorbs A, then meets ABC and returns: the
relation sequence has changed from [A, ABC] to [ABC] while the cached name and
the fit table are still there. -/
theorem absorb_then_skip_keeps_stale_state :
    addRelations bitsetOps (noOracle : SbOracle Nat Unit Unit) false (Model.new 2) [7, 1] =
        .ok { (Model.new 2 : Model Nat Unit Unit) with relations := [1, 7] } ∧
      addRelation bitsetOps (noOracle : SbOracle Nat Unit Unit)
        { (Model.new 2 : Model Nat Unit Unit) with
          relations := [1, 7], printName := some "A:ABC", fitTable := some () } (some 3) true =
        .ok { (Model.new 2 : Model Nat Unit Unit) with
          relations := [7], printName := some "A:ABC", fitTable := some () } := by
  constructor <;> rfl

/-! ## Theorems: state enumeration -/

/-- The body of the carry loop at position 0. -/
theorem rap_step_zero (statespace i : Nat) (hi : i + 1 ≠ statespace)
    (v : Variable) (vb : List Variable) (p : Int) (pb : List Int) (d : Int) (b : List Int) :
    rap (v :: vb) statespace i (p :: pb) 0 (d :: b) =
      if p = v.cardinality - 1 then .done (0 :: b) else .next ((d + 1) :: b) := by
  simp [rap, hi]

/-- The body of the carry loop at the last position of a non-empty list
segment. -/
theorem rap_step_succ (statespace i : Nat) (hi : i + 1 ≠ statespace)
    (va : List Variable) (v : Variable) (vb : List Variable)
    (pa : List Int) (p : Int) (pb : List Int)
    (a : List Int) (d : Int) (b : List Int) (l : Nat)
    (hva : va.length = l + 1) (hpa : pa.length = l + 1) (ha : a.length = l + 1) :
    rap (va ++ v :: vb) statespace i (pa ++ p :: pb) (l + 1) (a ++ d :: b) =
      if p = v.cardinality - 1 then
        rap (va ++ v :: vb) statespace i (pa ++ p :: pb) l (a ++ 0 :: b)
      else .next (a ++ (d + 1) :: b) := by
  have hv : (va ++ v :: vb)[l + 1]? = some v := by
    rw [List.getElem?_append_right (by omega)]; simp [hva]
  have hp : (pa ++ p :: pb).getD (l + 1) 0 = p := by
    rw [List.getD_append_right _ _ _ _ (by omega)]; simp [hpa]
  have hd : (a ++ d :: b).getD (l + 1) 0 = d := by
    rw [List.getD_append_right _ _ _ _ (by omega)]; simp [ha]
  have hset : ∀ x : Int, (a ++ d :: b).set (l + 1) x = a ++ x :: b := by
    intro x
    rw [List.set_append_right _ _ (by omega)]; simp [ha]
  simp only [rap, hi, if_false, hv, hp, hd, hset]

theorem succ_div_mod (c k : Nat) (hc : 0 < c) :
    (k % c + 1 = c ∧ (k + 1) % c = 0 ∧ (k + 1) / c = k / c + 1) ∨
      (k % c + 1 < c ∧ (k + 1) % c = k % c + 1 ∧ (k + 1) / c = k / c) := by
  have h1 := Nat.div_add_mod k c
  have h2 := Nat.mod_lt k hc
  rcases Nat.lt_or_ge (k % c + 1) c with hlt | hge
  · right
    have h3 : (k + 1) / c = k / c ∧ (k + 1) % c = k % c + 1 :=
      (Nat.div_mod_unique hc).mpr ⟨by omega, hlt⟩
    exact ⟨hlt, h3.2, h3.1⟩
  · left
    have heq : k % c + 1 = c := by omega
    have h3 : (k + 1) / c = k / c + 1 ∧ (k + 1) % c = 0 :=
      (Nat.div_mod_unique hc).mpr ⟨by rw [Nat.mul_add]; omega, hc⟩
    exact ⟨heq, h3.2, h3.1⟩

theorem cardProduct_cons (v : Variable) (vs : List Variable) :
    cardProduct (v :: vs) = v.cardinality.toNat * cardProduct vs := by
  simp [cardProduct]

theorem cardProduct_pos (vs : List Variable) (h : ∀ u ∈ vs, 1 ≤ u.cardinality) :
    0 < cardProduct vs := by
  induction vs with
  | nil => simp [cardProduct]
  | cons v vs ih =>
    rw [cardProduct_cons]
    have hv := h v (List.mem_cons_self _ _)
    have : 0 < v.cardinality.toNat := by omega
    exact Nat.mul_pos this (ih (fun u hu => h u (List.mem_cons_of_mem _ hu)))

theorem cardProduct_reverse (vs : List Variable) :
    cardProduct vs.reverse = cardProduct vs := by
  simp [cardProduct, List.map_reverse, List.prod_reverse]

theorem digitsOf_length (vs : List Variable) : ∀ k, (digitsOf vs k).length = vs.length := by
  induction vs with
  | nil => intro k; simp [digitsOf]
  | cons v vs ih => intro k; simp [digitsOf, ih]

theorem rap_digits (statespace i : Nat) (hi : i + 1 ≠ statespace) :
    ∀ (rvs : List Variable) (v : Variable) (k : Nat) (vb : List Variable) (pb b : List Int),
      (∀ u ∈ v :: rvs, 1 ≤ u.cardinality) →
      rap ((v :: rvs).reverse ++ vb) statespace i
          ((digitsOf (v :: rvs) k).reverse ++ pb) rvs.length
          ((digitsOf (v :: rvs) k).reverse ++ b) =
        (if cardProduct (v :: rvs) ∣ k + 1 then Advance.done else Advance.next)
          ((digitsOf (v :: rvs) (k + 1)).reverse ++ b) := by
  intro rvs
  induction rvs with
  | nil =>
    intro v k vb pb b hcard
    have hv := hcard v (List.mem_cons_self _ _)
    have hc : 0 < v.cardinality.toNat := by omega
    have hcast : ((v.cardinality.toNat : Nat) : Int) = v.cardinality := by omega
    have hstep := rap_step_zero statespace i hi v vb ((k % v.cardinality.toNat : Nat) : Int) pb
      ((k % v.cardinality.toNat : Nat) : Int) b
    have hP : cardProduct [v] = v.cardinality.toNat := by simp [cardProduct]
    simp only [digitsOf, List.reverse_cons, List.reverse_nil, List.nil_append,
      List.singleton_append, List.length_nil, hP]
    rw [hstep]
    rcases succ_div_mod v.cardinality.toNat k hc with ⟨h1, h2, _⟩ | ⟨h1, h2, _⟩
    · have hp : ((k % v.cardinality.toNat : Nat) : Int) = v.cardinality - 1 := by omega
      have hd : v.cardinality.toNat ∣ k + 1 := (Nat.dvd_iff_mod_eq_zero ..).mpr h2
      rw [if_pos hp, if_pos hd, h2]
      rfl
    · have hp : ¬ ((k % v.cardinality.toNat : Nat) : Int) = v.cardinality - 1 := by omega
      have hd : ¬ v.cardinality.toNat ∣ k + 1 := by
        rw [Nat.dvd_iff_mod_eq_zero, h2]; omega
      rw [if_neg hp, if_neg hd, h2, Nat.cast_add, Nat.cast_one]
  | cons w rvs ih =>
    intro v k vb pb b hcard
    have hv := hcard v (List.mem_cons_self _ _)
    have hc : 0 < v.cardinality.toNat := by omega
    have hcast : ((v.cardinality.toNat : Nat) : Int) = v.cardinality := by omega
    have hrest : ∀ u ∈ w :: rvs, 1 ≤ u.cardinality :=
      fun u hu => hcard u (List.mem_cons_of_mem _ hu)
    have hlen : ((digitsOf (w :: rvs) (k / v.cardinality.toNat)).reverse).length =
        rvs.length + 1 := by
      simp [digitsOf_length]
    have hstep := rap_step_succ statespace i hi (w :: rvs).reverse v vb
      (digitsOf (w :: rvs) (k / v.cardinality.toNat)).reverse
      ((k % v.cardinality.toNat : Nat) : Int) pb
      (digitsOf (w :: rvs) (k / v.cardinality.toNat)).reverse
      ((k % v.cardinality.toNat : Nat) : Int) b rvs.length (by simp) hlen hlen
    have e1 : (v :: w :: rvs).reverse ++ vb = (w :: rvs).reverse ++ v :: vb := by simp
    have e2 : ∀ (n : Nat) (t : List Int),
        (digitsOf (v :: w :: rvs) n).reverse ++ t =
          (digitsOf (w :: rvs) (n / v.cardinality.toNat)).reverse ++
            ((n % v.cardinality.toNat : Nat) : Int) :: t := by
      intro n t
      simp [digitsOf]
    have hlen2 : (w :: rvs).length = rvs.length + 1 := by simp
    rw [e1, e2 k pb, e2 k b, e2 (k + 1) b, hlen2, hstep]
    have hihh := ih w (k / v.cardinality.toNat) (v :: vb)
      (((k % v.cardinality.toNat : Nat) : Int) :: pb) (0 :: b) hrest
    rw [cardProduct_cons v (w :: rvs)]
    rcases succ_div_mod v.cardinality.toNat k hc with ⟨h1, h2, h3⟩ | ⟨h1, h2, h3⟩
    · have hp : ((k % v.cardinality.toNat : Nat) : Int) = v.cardinality - 1 := by omega
      have hk : k + 1 = v.cardinality.toNat * (k / v.cardinality.toNat + 1) := by
        have := Nat.div_add_mod (k + 1) v.cardinality.toNat
        rw [h2, h3] at this
        omega
      have hdvd : (v.cardinality.toNat * cardProduct (w :: rvs) ∣ k + 1) ↔
          (cardProduct (w :: rvs) ∣ k / v.cardinality.toNat + 1) := by
        rw [hk]
        exact Nat.mul_dvd_mul_iff_left hc
      rw [if_pos hp, hihh, h2, h3]
      simp only [hdvd, Nat.cast_zero]
    · have hp : ¬ ((k % v.cardinality.toNat : Nat) : Int) = v.cardinality - 1 := by omega
      have hnd : ¬ (v.cardinality.toNat * cardProduct (w :: rvs) ∣ k + 1) := by
        intro hd
        have h4 : v.cardinality.toNat ∣ k + 1 := dvd_of_mul_right_dvd hd
        rw [Nat.dvd_iff_mod_eq_zero, h2] at h4
        omega
      rw [if_neg hp, if_neg hnd, h2, h3, Nat.cast_add, Nat.cast_one]


theorem digitsOf_zero (vs : List Variable) : digitsOf vs 0 = List.replicate vs.length 0 := by
  induction vs with
  | nil => simp [digitsOf]
  | cons v vs ih => simp [digitsOf, ih, List.replicate_succ]

theorem stateRow_zero (vars : List Variable) :
    stateRow vars 0 = List.replicate vars.length 0 := by
  simp [stateRow, digitsOf_zero]

theorem stateRow_length (vars : List Variable) (k : Nat) :
    (stateRow vars k).length = vars.length := by
  simp [stateRow, digitsOf_length]

theorem fillRows_rows (vars : List Variable) (hcard : ∀ v ∈ vars, 1 ≤ v.cardinality)
    (statespace : Nat) (hle : statespace ≤ cardProduct vars) :
    ∀ (fuel i : Nat), i + fuel + 1 = statespace →
      fillRows vars statespace fuel i ((vars.length : Int) - 1) (stateRow vars i) =
        .ok ((List.range' (i + 1) fuel).map (stateRow vars)) := by
  intro fuel
  induction fuel with
  | zero => intro i _; simp [fillRows]
  | succ fuel ih =>
    intro i hi
    have hlt : i < statespace - 1 := by omega
    have hne : i + 1 ≠ statespace := by omega
    cases hrev : vars.reverse with
    | nil =>
      have hnil : vars = [] := by simpa using hrev
      rw [hnil] at hle
      simp [cardProduct] at hle
      omega
    | cons v rvs =>
      have hvars : vars = (v :: rvs).reverse := by rw [← hrev, List.reverse_reverse]
      have hlen : vars.length = rvs.length + 1 := by rw [hvars]; simp
      have hl0 : ¬ ((vars.length : Int) - 1 < 0) := by omega
      have hl1 : ((vars.length : Int) - 1).toNat = rvs.length := by omega
      have hcard2 : ∀ u ∈ v :: rvs, 1 ≤ u.cardinality := by
        intro u hu
        apply hcard u
        rw [hvars]
        exact List.mem_reverse.mpr hu
      have hrap := rap_digits statespace i hne rvs v i [] [] [] hcard2
      simp only [List.append_nil] at hrap
      have hrow : ∀ n, stateRow vars n = (digitsOf (v :: rvs) n).reverse := by
        intro n
        simp [stateRow, hrev]
      have hP : cardProduct (v :: rvs) = cardProduct vars := by
        rw [← hrev, cardProduct_reverse]
      have hnd : ¬ cardProduct (v :: rvs) ∣ i + 1 := by
        rw [hP]
        exact Nat.not_dvd_of_pos_of_lt (by omega) (by omega)
      rw [if_neg hnd, ← hrow, ← hrow, ← hvars] at hrap
      have hnext := ih (i + 1) (by omega)
      simp only [fillRows, hlt, if_true, hl0, if_false, hl1, hrap, hnext]
      simp [List.range'_succ]

theorem makeStateSpaceArray_eq (vars : List Variable) (hcard : ∀ v ∈ vars, 1 ≤ v.cardinality)
    (n : Nat) (hpos : 0 < n) (hle : n ≤ cardProduct vars) :
    makeStateSpaceArray vars (n : Int) = .ok ((List.range n).map (stateRow vars)) := by
  have h1 : ¬ ((n : Int) < 0) := by omega
  have h2 : ¬ ((n : Int) = 0) := by omega
  have hrows := fillRows_rows vars hcard n hle (n - 1) 0 (by omega)
  rw [stateRow_zero] at hrows
  simp only [makeStateSpaceArray, h1, h2, if_false, Int.toNat_ofNat, hrows]
  obtain ⟨p, rfl⟩ : ∃ p, n = p + 1 := ⟨n - 1, by omega⟩
  simp [List.range_eq_range', List.range'_succ, stateRow_zero]


theorem digitsOf_getElem? (vs : List Variable) :
    ∀ (k t : Nat) (ht : t < vs.length),
      (digitsOf vs k)[t]? =
        some (((k / cardProduct (vs.take t)) % vs[t].cardinality.toNat : Nat) : Int) := by
  induction vs with
  | nil => intro k t ht; simp at ht
  | cons v vs ih =>
    intro k t ht
    cases t with
    | zero => simp [digitsOf, cardProduct]
    | succ t =>
      have ht2 : t < vs.length := by simpa using ht
      simp only [digitsOf, List.getElem?_cons_succ, List.take_succ_cons, cardProduct_cons,
        List.getElem_cons_succ]
      rw [ih (k / v.cardinality.toNat) t ht2, Nat.div_div_eq_div_mul]

theorem cast_cardProduct (vs : List Variable) (h : ∀ u ∈ vs, 1 ≤ u.cardinality) :
    ((cardProduct vs : Nat) : Int) = (vs.map fun v => v.cardinality).prod := by
  induction vs with
  | nil => simp [cardProduct]
  | cons v vs ih =>
    have hv := h v (List.mem_cons_self _ _)
    have hcast : ((v.cardinality.toNat : Nat) : Int) = v.cardinality := by omega
    rw [cardProduct_cons, Nat.cast_mul, hcast, ih (fun u hu => h u (List.mem_cons_of_mem _ hu))]
    simp

theorem stateRow_getElem? (vars : List Variable) (hcard : ∀ v ∈ vars, 1 ≤ v.cardinality)
    (k j : Nat) (hj : j < vars.length) :
    (stateRow vars k)[j]? =
      some (((k : Int) / ((vars.drop (j + 1)).map fun v => v.cardinality).prod) %
        vars[j].cardinality) := by
  have hjr : vars.length - 1 - j < vars.reverse.length := by simp; omega
  have h1 : (stateRow vars k)[j]? = (digitsOf vars.reverse k)[vars.length - 1 - j]? := by
    unfold stateRow
    rw [List.getElem?_reverse (by simp [digitsOf_length]; omega)]
    simp [digitsOf_length]
  rw [h1, digitsOf_getElem? vars.reverse k (vars.length - 1 - j) hjr]
  have h2 : vars.reverse[vars.length - 1 - j] = vars[j] := by
    rw [List.getElem_reverse]
    congr 1
    omega
  have h3 : vars.reverse.take (vars.length - 1 - j) = (vars.drop (j + 1)).reverse := by
    rw [List.take_reverse]
    congr 2
    omega
  have hv : 1 ≤ vars[j].cardinality := hcard _ (List.getElem_mem hj)
  have hcast : ((vars[j].cardinality.toNat : Nat) : Int) = vars[j].cardinality := by omega
  have hdrop : ∀ u ∈ vars.drop (j + 1), 1 ≤ u.cardinality :=
    fun u hu => hcard u (List.mem_of_mem_drop hu)
  rw [h2, h3, cardProduct_reverse, Int.natCast_mod, Int.natCast_div, hcast,
    cast_cardProduct _ hdrop]

theorem valueOf_digitsOf (vs : List Variable) (hcard : ∀ v ∈ vs, 1 ≤ v.cardinality) :
    ∀ k, k < cardProduct vs → valueOf vs (digitsOf vs k) = k := by
  induction vs with
  | nil =>
    intro k hk
    simp [cardProduct] at hk
    simp [valueOf, digitsOf, hk]
  | cons v vs ih =>
    intro k hk
    rw [cardProduct_cons] at hk
    have hlt : k / v.cardinality.toNat < cardProduct vs := Nat.div_lt_of_lt_mul hk
    simp only [digitsOf, valueOf, Int.toNat_ofNat]
    rw [ih (fun u hu => hcard u (List.mem_cons_of_mem _ hu)) _ hlt]
    have := Nat.div_add_mod k v.cardinality.toNat
    omega

theorem digitsOf_valueOf (vs : List Variable) (ds : List Int)
    (h : List.Forall₂ (fun (d : Int) (v : Variable) => 0 ≤ d ∧ d < v.cardinality) ds vs) :
    digitsOf vs (valueOf vs ds) = ds ∧ valueOf vs ds < cardProduct vs := by
  induction h with
  | nil => simp [digitsOf, valueOf, cardProduct]
  | @cons d v ds vs hd _ ih =>
    obtain ⟨ih1, ih2⟩ := ih
    have hc : 0 < v.cardinality.toNat := by omega
    have hdlt : d.toNat < v.cardinality.toNat := by omega
    have hmod : (d.toNat + v.cardinality.toNat * valueOf vs ds) % v.cardinality.toNat =
        d.toNat := by
      rw [Nat.add_mul_mod_self_left, Nat.mod_eq_of_lt hdlt]
    have hdiv : (d.toNat + v.cardinality.toNat * valueOf vs ds) / v.cardinality.toNat =
        valueOf vs ds := by
      rw [Nat.add_mul_div_left _ _ hc, Nat.div_eq_of_lt hdlt, Nat.zero_add]
    have hdcast : ((d.toNat : Nat) : Int) = d := by omega
    constructor
    · simp only [valueOf, digitsOf, hmod, hdiv, ih1, hdcast]
    · simp only [valueOf, cardProduct_cons]
      have h1 : v.cardinality.toNat * (valueOf vs ds + 1) ≤
          v.cardinality.toNat * cardProduct vs := Nat.mul_le_mul_left _ ih2
      rw [Nat.mul_add, Nat.mul_one] at h1
      omega

theorem stateIndex_stateRow (vars : List Variable) (hcard : ∀ v ∈ vars, 1 ≤ v.cardinality)
    (k : Nat) (hk : k < cardProduct vars) : stateIndex vars (stateRow vars k) = k := by
  unfold stateIndex stateRow
  rw [List.reverse_reverse]
  exact valueOf_digitsOf vars.reverse (fun v hv => hcard v (List.mem_reverse.mp hv)) k
    (by rw [cardProduct_reverse]; exact hk)

theorem stateRow_stateIndex (vars : List Variable) (row : List Int)
    (hlen : row.length = vars.length)
    (hrow : ∀ (j : Nat) (h1 : j < row.length) (h2 : j < vars.length),
      0 ≤ row[j] ∧ row[j] < vars[j].cardinality) :
    stateRow vars (stateIndex vars row) = row ∧ stateIndex vars row < cardProduct vars := by
  have hf : List.Forall₂ (fun (d : Int) (v : Variable) => 0 ≤ d ∧ d < v.cardinality)
      row vars := by
    rw [List.forall₂_iff_get]
    refine ⟨hlen, ?_⟩
    intro i h1 h2
    simpa using hrow i h1 h2
  have hr := digitsOf_valueOf vars.reverse row.reverse (List.forall₂_reverse_iff.mpr hf)
  unfold stateIndex stateRow
  rw [hr.1, List.reverse_reverse]
  exact ⟨rfl, by rw [← cardProduct_reverse]; exact hr.2⟩


/-- C7 (state enumeration completeness): for a variable list whose
cardinalities are all at least 1 and `statespace` equal to their product,
`makeStateSpaceArray` returns exactly that many rows, the rows are pairwise
distinct, and every assignment `v` with `0 <= v[j] < c_j` for all `j` occurs as
exactly one row.  For cardinalities 2 and 3 these are the six rows (0,0)..(1,2)
in this order, and for no variables the table is one empty row. -/
theorem state_enumeration_complete (vars : List Variable)
    (hcard : ∀ v ∈ vars, 1 ≤ v.cardinality) :
    (∃ arr, makeStateSpaceArray vars (vars.map fun v => v.cardinality).prod = .ok arr ∧
        (arr.length : Int) = (vars.map fun v => v.cardinality).prod ∧
        arr.Nodup ∧
        ∀ row : List Int, row.length = vars.length →
          (∀ (j : Nat) (h1 : j < row.length) (h2 : j < vars.length),
            0 ≤ row[j] ∧ row[j] < vars[j].cardinality) →
          ∃! i : Nat, arr[i]? = some row) ∧
      (∀ v w : Variable, v.cardinality = 2 → w.cardinality = 3 →
        makeStateSpaceArray [v, w] 6 =
          .ok [[0, 0], [0, 1], [0, 2], [1, 0], [1, 1], [1, 2]]) ∧
      makeStateSpaceArray [] 1 = .ok [[]] := by
  refine ⟨?_, ?_, rfl⟩
  · have hpos := cardProduct_pos vars hcard
    refine ⟨(List.range (cardProduct vars)).map (stateRow vars), ?_, ?_, ?_, ?_⟩
    · rw [← cast_cardProduct vars hcard]
      exact makeStateSpaceArray_eq vars hcard (cardProduct vars) hpos (le_refl _)
    · rw [← cast_cardProduct vars hcard]
      simp
    · refine List.Nodup.map_on ?_ (List.nodup_range _)
      intro a ha b hb hab
      rw [List.mem_range] at ha hb
      rw [← stateIndex_stateRow vars hcard a ha, ← stateIndex_stateRow vars hcard b hb, hab]
    · intro row hlen hrow
      obtain ⟨h1, h2⟩ := stateRow_stateIndex vars row hlen hrow
      refine ⟨stateIndex vars row, ?_, ?_⟩
      · simp [List.getElem?_map, List.getElem?_range h2, h1]
      · intro i hi
        have hlt : i < cardProduct vars := by
          by_contra hge
          have : ((List.range (cardProduct vars)).map (stateRow vars))[i]? = none := by
            simp; omega
          rw [this] at hi
          exact absurd hi (by simp)
        simp only [List.getElem?_map, List.getElem?_range hlt, Option.map_some',
          Option.some.injEq] at hi
        rw [← hi, stateIndex_stateRow vars hcard i hlt]
  · intro v w hv hw
    obtain ⟨c1, s1, t1, m1⟩ := v
    obtain ⟨c2, s2, t2, m2⟩ := w
    simp only at hv hw
    subst hv hw
    rfl

theorem state_enumeration_complete_witness :
    (∀ v ∈ twoBinaryVars, 1 ≤ v.cardinality) ∧
      makeStateSpaceArray twoBinaryVars 4 = .ok [[0, 0], [0, 1], [1, 0], [1, 1]] ∧
      ((∃ arr,
          makeStateSpaceArray twoBinaryVars (twoBinaryVars.map fun v => v.cardinality).prod =
            .ok arr ∧
          (arr.length : Int) = (twoBinaryVars.map fun v => v.cardinality).prod ∧
          arr.Nodup ∧
          ∀ row : List Int, row.length = twoBinaryVars.length →
            (∀ (j : Nat) (h1 : j < row.length) (h2 : j < twoBinaryVars.length),
              0 ≤ row[j] ∧ row[j] < twoBinaryVars[j].cardinality) →
            ∃! i : Nat, arr[i]? = some row) ∧
        (∀ v w : Variable, v.cardinality = 2 → w.cardinality = 3 →
          makeStateSpaceArray [v, w] 6 =
            .ok [[0, 0], [0, 1], [0, 2], [1, 0], [1, 1], [1, 2]]) ∧
        makeStateSpaceArray [] 1 = .ok [[]]) :=
  ⟨by decide, rfl, state_enumeration_complete twoBinaryVars (by decide)⟩

/-- C8 (mixed-radix order): for a variable list whose cardinalities are all at
least 1 and a `statespace` not exceeding their product, `makeStateSpaceArray`
returns `statespace` rows, and row `k` (for `0 <= k < statespace`) has one entry
per variable, entry `j` being `(k div (c_{j+1} * ... * c_{n-1})) mod c_j`; row 0
is all zeros. -/
theorem mixed_radix_order (vars : List Variable) (statespace : Int) (k : Nat)
    (hcard : ∀ v ∈ vars, 1 ≤ v.cardinality)
    (hle : statespace ≤ (vars.map fun v => v.cardinality).prod)
    (hk : (k : Int) < statespace) :
    ∃ arr row, makeStateSpaceArray vars statespace = .ok arr ∧
      (arr.length : Int) = statespace ∧
      arr[k]? = some row ∧ row.length = vars.length ∧
      (∀ (j : Nat) (hj : j < vars.length),
        row[j]? = some (((k : Int) / ((vars.drop (j + 1)).map fun v => v.cardinality).prod) %
          vars[j].cardinality)) ∧
      arr[0]? = some (List.replicate vars.length 0) := by
  obtain ⟨n, rfl⟩ : ∃ n : Nat, statespace = (n : Int) := ⟨statespace.toNat, by omega⟩
  have hkn : k < n := by omega
  have hn : n ≤ cardProduct vars := by
    rw [← cast_cardProduct vars hcard] at hle
    omega
  refine ⟨(List.range n).map (stateRow vars), stateRow vars k,
    makeStateSpaceArray_eq vars hcard n (by omega) hn, by simp, ?_, stateRow_length vars k,
    fun j hj => stateRow_getElem? vars hcard k j hj, ?_⟩
  · simp [List.getElem?_map, List.getElem?_range hkn]
  · have h0 : 0 < n := by omega
    simp [List.getElem?_map, List.getElem?_range h0, stateRow_zero]

theorem mixed_radix_order_witness :
    (∀ v ∈ twoBinaryVars, 1 ≤ v.cardinality) ∧
      ((3 : Int) ≤ (twoBinaryVars.map fun v => v.cardinality).prod) ∧
      (((2 : Nat) : Int) < 3) ∧
      ∃ arr row, makeStateSpaceArray twoBinaryVars 3 = .ok arr ∧
        (arr.length : Int) = 3 ∧
        arr[2]? = some row ∧ row.length = twoBinaryVars.length ∧
        (∀ (j : Nat) (hj : j < twoBinaryVars.length),
          row[j]? =
            some ((((2 : Nat) : Int) /
                ((twoBinaryVars.drop (j + 1)).map fun v => v.cardinality).prod) %
              twoBinaryVars[j].cardinality)) ∧
        arr[0]? = some (List.replicate twoBinaryVars.length 0) :=
  ⟨by decide, by decide, by decide,
    mixed_radix_order twoBinaryVars 3 2 (by decide) (by decide) (by decide)⟩

/-! ## Theorems: structure matrix -/

theorem setOnes_length (indices : List Nat) :
    ∀ row : List Int, (indices.foldl (fun acc k => acc.set k 1) row).length = row.length := by
  induction indices with
  | nil => intro row; rfl
  | cons k ks ih => intro row; simp [List.foldl_cons, ih]

theorem setOnes_mem (indices : List Nat) :
    ∀ (row : List Int) (e : Int),
      e ∈ indices.foldl (fun acc k => acc.set k 1) row → e ∈ row ∨ e = 1 := by
  induction indices with
  | nil => intro row e h; exact Or.inl h
  | cons k ks ih =>
    intro row e h
    rw [List.foldl_cons] at h
    rcases ih _ e h with h1 | h1
    · rcases List.mem_or_eq_of_mem_set h1 with h2 | h2
      · exact Or.inl h2
      · exact Or.inr h2
    · exact Or.inr h1

theorem writeRow_shape (rows cols : Nat) (matrix matrix1 : List (List Int)) (r : Nat)
    (indices : List Nat) (hs : MatrixShape rows cols matrix)
    (h : writeRow matrix r indices = .ok matrix1) : MatrixShape rows cols matrix1 := by
  cases indices with
  | nil =>
    simp only [writeRow, Except.ok.injEq] at h
    subst h
    exact hs
  | cons k ks =>
    simp only [writeRow] at h
    cases hr : matrix[r]? with
    | none => simp [hr] at h
    | some row =>
      simp only [hr, Except.ok.injEq] at h
      subst h
      obtain ⟨hlen, hrows, last, hlast, hones⟩ := hs
      have hrow_mem : row ∈ matrix := List.getElem?_mem hr
      have hnew_len := setOnes_length (k :: ks) row
      have hnew_mem := setOnes_mem (k :: ks) row
      refine ⟨by simp [hlen], ?_, ?_⟩
      · intro x hx
        rcases List.mem_or_eq_of_mem_set hx with hx | hx
        · exact hrows x hx
        · subst hx
          refine ⟨by rw [hnew_len]; exact (hrows row hrow_mem).1, ?_⟩
          intro e he
          rcases hnew_mem e he with h1 | h1
          · exact (hrows row hrow_mem).2 e h1
          · exact Or.inr h1
      · by_cases hrl : r = rows - 1
        · subst hrl
          rw [hr] at hlast
          cases hlast
          refine ⟨List.foldl (fun acc k => acc.set k 1) row (k :: ks), ?_, ?_⟩
          · obtain ⟨hlt, _⟩ := List.getElem?_eq_some_iff.mp hr
            exact List.getElem?_set_self hlt
          · intro e he
            rcases hnew_mem e he with h1 | h1
            · exact hones e h1
            · exact h1
        · refine ⟨last, ?_, hones⟩
          rw [List.getElem?_set_ne hrl]
          exact hlast

theorem fillConstraints_shape (DONT_CARE : Int) (vars : List Variable) (statespace : Int)
    (stateSpaceArr : Nat → Nat → Int) (sc : StateConstraint) (tcc rows cols : Nat) :
    ∀ (fuel j : Nat) (matrix matrix1 : List (List Int)), MatrixShape rows cols matrix →
      fillConstraints DONT_CARE vars statespace stateSpaceArr sc tcc fuel j matrix =
        .ok matrix1 →
      MatrixShape rows cols matrix1 := by
  intro fuel
  induction fuel with
  | zero =>
    intro j matrix matrix1 hs h
    simp only [fillConstraints, Except.ok.injEq] at h
    subst h
    exact hs
  | succ fuel ih =>
    intro j matrix matrix1 hs h
    simp only [fillConstraints] at h
    cases hk : sc.getConstraint j with
    | none => simp [hk] at h
    | some key =>
      simp only [hk] at h
      cases hg : getIndicesFromKey DONT_CARE key vars statespace stateSpaceArr with
      | error e => simp [hg] at h
      | ok indices =>
        simp only [hg] at h
        cases hw : writeRow matrix (tcc + j) indices with
        | error e => simp [hw] at h
        | ok matrix2 =>
          simp only [hw] at h
          exact ih (j + 1) matrix2 matrix1
            (writeRow_shape rows cols matrix matrix2 (tcc + j) indices hs hw) h

theorem fillRelations_shape {R : Type} (ops : RelationOps R) (DONT_CARE : Int)
    (vars : List Variable) (statespace : Int) (stateSpaceArr : Nat → Nat → Int)
    (rows cols : Nat) :
    ∀ (rels : List R) (tcc : Nat) (matrix matrix1 : List (List Int)),
      MatrixShape rows cols matrix →
      fillRelations ops DONT_CARE vars statespace stateSpaceArr rels tcc matrix = .ok matrix1 →
      MatrixShape rows cols matrix1 ∧
        ∀ rel ∈ rels, ∃ sc, ops.getStateConstraints rel = some sc ∧
          0 < sc.getConstraintCount := by
  intro rels
  induction rels with
  | nil =>
    intro tcc matrix matrix1 hs h
    simp only [fillRelations, Except.ok.injEq] at h
    subst h
    exact ⟨hs, by simp⟩
  | cons rel rest ih =>
    intro tcc matrix matrix1 hs h
    simp only [fillRelations] at h
    cases hsc : ops.getStateConstraints rel with
    | none => simp [hsc] at h
    | some sc =>
      simp only [hsc] at h
      by_cases hc : sc.getConstraintCount ≤ 0
      · simp [hc] at h
      · simp only [hc, if_false] at h
        cases hf : fillConstraints DONT_CARE vars statespace stateSpaceArr sc tcc
            sc.getConstraintCount.toNat 0 matrix with
        | error e => simp [hf] at h
        | ok matrix2 =>
          simp only [hf] at h
          obtain ⟨h1, h2⟩ := ih _ matrix2 matrix1
            (fillConstraints_shape DONT_CARE vars statespace stateSpaceArr sc tcc rows cols
              _ 0 matrix matrix2 hs hf) h
          refine ⟨h1, ?_⟩
          intro x hx
          rcases List.mem_cons.mp hx with rfl | hx
          · exact ⟨sc, hsc, by omega⟩
          · exact h2 x hx

theorem fillRelations_counts {R : Type} (ops : RelationOps R) (DONT_CARE : Int)
    (vars : List Variable) (statespace : Int) (stateSpaceArr : Nat → Nat → Int) :
    ∀ (rels : List R) (tcc : Nat) (matrix matrix1 : List (List Int)),
      fillRelations ops DONT_CARE vars statespace stateSpaceArr rels tcc matrix = .ok matrix1 →
      ∀ rel ∈ rels, ∃ sc, ops.getStateConstraints rel = some sc ∧
        0 < sc.getConstraintCount := by
  intro rels
  induction rels with
  | nil => intro tcc matrix matrix1 _; simp
  | cons rel rest ih =>
    intro tcc matrix matrix1 h
    simp only [fillRelations] at h
    cases hsc : ops.getStateConstraints rel with
    | none => simp [hsc] at h
    | some sc =>
      simp only [hsc] at h
      by_cases hc : sc.getConstraintCount ≤ 0
      · simp [hc] at h
      · simp only [hc, if_false] at h
        cases hf : fillConstraints DONT_CARE vars statespace stateSpaceArr sc tcc
            sc.getConstraintCount.toNat 0 matrix with
        | error e => simp [hf] at h
        | ok matrix2 =>
          simp only [hf] at h
          intro x hx
          rcases List.mem_cons.mp hx with rfl | hx
          · exact ⟨sc, hsc, by omega⟩
          · exact ih _ matrix2 matrix1 h x hx

theorem constraintTotal_nonneg {R : Type} (ops : RelationOps R) (rels : List R)
    (h : ∀ rel ∈ rels, ∃ sc, ops.getStateConstraints rel = some sc ∧
      0 < sc.getConstraintCount) : 0 ≤ constraintTotal ops rels := by
  induction rels with
  | nil => simp [constraintTotal]
  | cons rel rest ih =>
    obtain ⟨sc, hsc, hpos⟩ := h rel (List.mem_cons_self _ _)
    have := ih (fun x hx => h x (List.mem_cons_of_mem _ hx))
    simp only [constraintTotal, List.map_cons, List.sum_cons, hsc] at this ⊢
    omega

theorem initialMatrix_shape (constraintCount statespace : Int) (hc : 0 ≤ constraintCount) :
    MatrixShape (constraintCount.toNat + 1) statespace.toNat
      (initialMatrix constraintCount statespace) := by
  unfold initialMatrix
  simp only [hc, if_true]
  refine ⟨by simp, ?_, ?_⟩
  · intro row hrow
    rw [List.mem_append] at hrow
    rcases hrow with hrow | hrow
    · rw [List.eq_of_mem_replicate hrow]
      refine ⟨by simp, ?_⟩
      intro e he
      exact Or.inl (List.eq_of_mem_replicate he)
    · rw [List.mem_singleton.mp hrow]
      refine ⟨by simp, ?_⟩
      intro e he
      exact Or.inr (List.eq_of_mem_replicate he)
  · refine ⟨List.replicate statespace.toNat 1, ?_, ?_⟩
    · rw [List.getElem?_append_right (by simp)]
      simp
    · intro e he
      exact List.eq_of_mem_replicate he


/-- C9 (structure matrix shape): when `makeStructMatrix(statespace, vars,
states)` returns on a model whose matrix was absent, every relation has state
constraints with a positive count, `totalConstraints` is the sum of the
constraint counts plus 1, `stateSpaceSize` is `statespace`, and the matrix has
exactly `totalConstraints` rows of `statespace` entries, each entry 0 or 1, the
final row being all ones. -/
theorem struct_matrix_shape {R T D : Type} (ops : RelationOps R) (DONT_CARE : Int)
    (m m' : Model R T D) (statespace : Int) (vars : List Variable)
    (stateSpaceArr : Nat → Nat → Int)
    (habsent : m.structMatrix = none)
    (hok : makeStructMatrix ops DONT_CARE m statespace vars stateSpaceArr = .ok m') :
    (∀ rel ∈ m.relations, ∃ sc, ops.getStateConstraints rel = some sc ∧
        0 < sc.getConstraintCount) ∧
      m'.totalConstraints = constraintTotal ops m.relations + 1 ∧
      m'.stateSpaceSize = statespace ∧
      ∃ matrix, m'.structMatrix = some matrix ∧
        (matrix.length : Int) = m'.totalConstraints ∧
        (∀ row ∈ matrix, (row.length : Int) = statespace ∧ ∀ e ∈ row, e = 0 ∨ e = 1) ∧
        ∃ last, matrix[matrix.length - 1]? = some last ∧ ∀ e ∈ last, e = 1 := by
  unfold makeStructMatrix at hok
  simp only [habsent, Option.isSome_none, Bool.false_eq_true, if_false] at hok
  by_cases h1 : constraintTotal ops m.relations + 1 < 0
  · simp [h1] at hok
  by_cases h2 : 0 ≤ constraintTotal ops m.relations ∧ statespace < 0
  · simp [h1, h2] at hok
  by_cases h3 : constraintTotal ops m.relations = -1 ∧ 0 < statespace
  · simp [h1, h2, h3] at hok
  simp only [h1, h2, h3, if_false] at hok
  cases hf : fillRelations ops DONT_CARE vars statespace stateSpaceArr m.relations 0
      (initialMatrix (constraintTotal ops m.relations) statespace) with
  | error e => simp [hf] at hok
  | ok matrix =>
    simp only [hf, Except.ok.injEq] at hok
    subst hok
    have hcounts := fillRelations_counts ops DONT_CARE vars statespace stateSpaceArr
      m.relations 0 _ matrix hf
    have hcc := constraintTotal_nonneg ops m.relations hcounts
    have hss : 0 ≤ statespace := by
      by_contra hneg
      exact h2 ⟨hcc, by omega⟩
    obtain ⟨⟨hlen, hrows, last, hlast, hones⟩, _⟩ :=
      fillRelations_shape ops DONT_CARE vars statespace stateSpaceArr _ _ m.relations 0 _
        matrix (initialMatrix_shape _ statespace hcc) hf
    refine ⟨hcounts, rfl, rfl, matrix, rfl, ?_, ?_, last, ?_, hones⟩
    · simp only [hlen]
      omega
    · intro row hrow
      refine ⟨?_, (hrows row hrow).2⟩
      rw [(hrows row hrow).1]
      omega
    · rw [hlen]
      exact hlast

theorem struct_matrix_shape_witness :
    ({ (Model.new 2 : Model (List Nat) Unit Unit) with
        relations := [[15, 7], [4]] }).structMatrix = none ∧
      makeStructMatrix keyListOps (-1)
          { (Model.new 2 : Model (List Nat) Unit Unit) with relations := [[15, 7], [4]] }
          4 twoBinaryVars (tableOf [[0, 0], [0, 1], [1, 0], [1, 1]]) =
        .ok { (Model.new 2 : Model (List Nat) Unit Unit) with
              relations := [[15, 7], [4]]
              totalConstraints := 4
              stateSpaceSize := 4
              structMatrix := some [[0, 0, 0, 0], [0, 0, 1, 1], [0, 0, 1, 0], [1, 1, 1, 1]] } ∧
      ((∀ rel ∈ [[15, 7], [4]], ∃ sc, keyListOps.getStateConstraints rel = some sc ∧
          0 < sc.getConstraintCount) ∧
        (4 : Int) = constraintTotal keyListOps [[15, 7], [4]] + 1 ∧
        (4 : Int) = 4 ∧
        ∃ matrix,
          some [[0, 0, 0, 0], [0, 0, 1, 1], [0, 0, 1, 0], [1, 1, 1, (1 : Int)]] = some matrix ∧
          (matrix.length : Int) = 4 ∧
          (∀ row ∈ matrix, (row.length : Int) = 4 ∧ ∀ e ∈ row, e = 0 ∨ e = 1) ∧
          ∃ last, matrix[matrix.length - 1]? = some last ∧ ∀ e ∈ last, e = 1) :=
  ⟨rfl, rfl,
    struct_matrix_shape keyListOps (-1)
      { (Model.new 2 : Model (List Nat) Unit Unit) with relations := [[15, 7], [4]] }
      { (Model.new 2 : Model (List Nat) Unit Unit) with
        relations := [[15, 7], [4]]
        totalConstraints := 4
        stateSpaceSize := 4
        structMatrix := some [[0, 0, 0, 0], [0, 0, 1, 1], [0, 0, 1, 0], [1, 1, 1, 1]] }
      4 twoBinaryVars (tableOf [[0, 0], [0, 1], [1, 0], [1, 1]]) rfl (by rfl)⟩

theorem matchState_all_wild (DONT_CARE : Int) (row : Nat → Int) :
    ∀ (vals : List Int) (j : Nat) (not_a_match : Int), (∀ v ∈ vals, v = DONT_CARE) →
      matchState DONT_CARE row vals j not_a_match = not_a_match := by
  intro vals
  induction vals with
  | nil => intro j n _; rfl
  | cons v vs ih =>
    intro j n h
    have hv : v = DONT_CARE := h v (List.mem_cons_self _ _)
    simp only [matchState, hv, if_true]
    exact ih (j + 1) n (fun x hx => h x (List.mem_cons_of_mem _ hx))

/-- C10 (counterexample): two binary variables, a key whose bits are all set in
both variables' masks, and the four-state table.  The claim asks for all four
state indices and a row of ones; the code returns no index and the constraint's
row stays all zero. -/
theorem all_wildcard_counterexample :
    (∀ v ∈ twoBinaryVars, v.mask &&& (fun _ => 15) v.segment = v.mask) ∧
      getIndicesFromKey (-1) (fun _ => 15) twoBinaryVars 4
          (tableOf [[0, 0], [0, 1], [1, 0], [1, 1]]) = .ok [] ∧
      getIndicesFromKey (-1) (fun _ => 15) twoBinaryVars 4
          (tableOf [[0, 0], [0, 1], [1, 0], [1, 1]]) ≠ .ok [0, 1, 2, 3] ∧
      makeStructMatrix keyListOps (-1)
          { (Model.new 1 : Model (List Nat) Unit Unit) with relations := [[15]] }
          4 twoBinaryVars (tableOf [[0, 0], [0, 1], [1, 0], [1, 1]]) =
        .ok { (Model.new 1 : Model (List Nat) Unit Unit) with
              relations := [[15]]
              totalConstraints := 2
              stateSpaceSize := 4
              structMatrix := some [[0, 0, 0, 0], [1, 1, 1, 1]] } := by
  refine ⟨by decide, rfl, ?_, rfl⟩
  intro h
  have h2 : getIndicesFromKey (-1) (fun _ => 15) twoBinaryVars 4
      (tableOf [[0, 0], [0, 1], [1, 0], [1, 1]]) = .ok [] := rfl
  rw [h2] at h
  cases h

/-- For a key in which the segment bits of every variable are entirely set,
`getIndicesFromKey` returns no state index (the counter is 0) whatever the
state table. -/
theorem getIndicesFromKey_all_wild (DONT_CARE : Int) (key : Nat → Nat)
    (vars : List Variable) (statespace : Int) (stateSpaceArr : Nat → Nat → Int)
    (hss : 0 ≤ statespace)
    (hwild : ∀ v ∈ vars, v.mask &&& key v.segment = v.mask) :
    getIndicesFromKey DONT_CARE key vars statespace stateSpaceArr = .ok [] := by
  have hvals : ∀ v ∈ keyValues DONT_CARE key vars, v = DONT_CARE := by
    intro v hv
    simp only [keyValues, List.mem_map] at hv
    obtain ⟨var, hvar, rfl⟩ := hv
    simp [hwild var hvar]
  have hneg : ¬ statespace < 0 := by omega
  simp only [getIndicesFromKey, hneg, if_false]
  congr 1
  rw [List.filter_eq_nil_iff]
  intro i _
  rw [matchState_all_wild DONT_CARE _ _ 0 (-1) hvals]
  decide

/-! ## Theorems: lookup and containment -/

theorem getRelation_in_range {R T D : Type} (m : Model R T D) (i : Nat)
    (h : i < m.relations.length) : m.getRelation (i : Int) = .ok (some m.relations[i]) := by
  have h1 : ((i : Int) < (m.relations.length : Int)) := by omega
  simp only [Model.getRelation, h1, if_true]
  rw [List.getElem?_eq_getElem h]

theorem getRelation_above {R T D : Type} (m : Model R T D) (index : Int)
    (h : (m.relations.length : Int) ≤ index) : m.getRelation index = .ok none := by
  have h1 : ¬ (index < (m.relations.length : Int)) := by omega
  simp [Model.getRelation, h1]

theorem getRelation_negative {R T D : Type} (m : Model R T D) (index : Int)
    (h : index < 0) : m.getRelation index = .error .fault := by
  have h1 : index < (m.relations.length : Int) := by omega
  cases index with
  | ofNat i => exact absurd h (by simp)
  | negSucc i => simp [Model.getRelation, h1]

/-- C19 (evaluation at the failing input): on a model holding two relations,
`getRelation` returns the stored relation for the indices 0 and 1 and NULL for
the indices 2 and 5, but the index -1 passes the guard `index < relationCount`
and reads the array below its first slot instead of returning NULL. -/
theorem getRelation_negative_index_reads_outside :
    ({ (Model.new 2 : Model Nat Unit Unit) with relations := [1, 7] }).getRelation 0 =
        .ok (some 1) ∧
      ({ (Model.new 2 : Model Nat Unit Unit) with relations := [1, 7] }).getRelation 1 =
        .ok (some 7) ∧
      ({ (Model.new 2 : Model Nat Unit Unit) with relations := [1, 7] }).getRelation 2 =
        .ok none ∧
      ({ (Model.new 2 : Model Nat Unit Unit) with relations := [1, 7] }).getRelation 5 =
        .ok none ∧
      ({ (Model.new 2 : Model Nat Unit Unit) with relations := [1, 7] }).getRelation (-1) =
        .error .fault := by
  refine ⟨rfl, rfl, rfl, rfl, rfl⟩

theorem withEffects_effects {R T D : Type} (m : Model R T D) : m.withEffects m.effects = m := by
  cases m
  rfl

theorem containsRelation_member {R T D : Type} [DecidableEq R] (ops : RelationOps R)
    (dfCompare : SbOracle R T D) (m : Model R T D) (r : R) (hr : r ∈ m.relations)
    (hrefl : m.isStateBased ops = false → ops.contains r r = true) :
    containsRelation ops dfCompare m r = .ok (true, m.effects) := by
  unfold containsRelation
  by_cases hreg : (m.isStateBased ops || ops.isStateBased r) = true
  · have hmem : m.relations.any (fun x => decide (x = r)) = true := by
      rw [List.any_eq_true]
      exact ⟨r, hr, by simp⟩
    simp only [hreg, if_true, hmem]
  · have hm : m.isStateBased ops = false := by
      cases h : m.isStateBased ops
      · rfl
      · simp [h] at hreg
    have hany : m.relations.any (fun x => ops.contains x r) = true := by
      rw [List.any_eq_true]
      exact ⟨r, hr, hrefl hm⟩
    simp only [hreg, if_false, hany]
    rfl

theorem containsModelLoop_self {R T D : Type} [DecidableEq R] (ops : RelationOps R)
    (dfCompare : SbOracle R T D) (m : Model R T D)
    (hrefl : m.isStateBased ops = false → ∀ r ∈ m.relations, ops.contains r r = true) :
    ∀ rs : List R, (∀ r ∈ rs, r ∈ m.relations) →
      containsModelLoop ops dfCompare m rs = .ok (true, m) := by
  intro rs
  induction rs with
  | nil => intro _; rfl
  | cons r rs ih =>
    intro hsub
    have hr : r ∈ m.relations := hsub r (List.mem_cons_self _ _)
    have hc := containsRelation_member ops dfCompare m r hr (fun hm => hrefl hm r hr)
    simp only [containsModelLoop, hc, withEffects_effects]
    exact ih (fun x hx => hsub x (List.mem_cons_of_mem _ hx))

/-- C14 (self-containment): for every model `a`, `a.containsModel(a)` returns
true and leaves `a` as it was.  In the state-based case every relation is found
as a member reference, whatever the degrees-of-freedom comparison would do (it
is never run); in the non-state-based case the hypothesis is that `contains` is
reflexive on the relations of `a`; the empty model needs neither. -/
theorem self_containment {R T D : Type} [DecidableEq R] (ops : RelationOps R)
    (dfCompare : SbOracle R T D) (a : Model R T D)
    (hrefl : a.isStateBased ops = false → ∀ r ∈ a.relations, ops.contains r r = true) :
    containsModel ops dfCompare a a = .ok (true, a) := by
  unfold containsModel
  exact containsModelLoop_self ops dfCompare a hrefl a.relations (fun _ h => h)

theorem self_containment_witness :
    (({ (Model.new 2 : Model Nat Unit Unit) with relations := [1, 7] }).isStateBased bitsetOps
        = false →
      ∀ r ∈ ({ (Model.new 2 : Model Nat Unit Unit) with relations := [1, 7] }).relations,
        bitsetOps.contains r r = true) ∧
      containsModel bitsetOps noOracle
          { (Model.new 2 : Model Nat Unit Unit) with relations := [1, 7] }
          { (Model.new 2 : Model Nat Unit Unit) with relations := [1, 7] } =
        .ok (true, { (Model.new 2 : Model Nat Unit Unit) with relations := [1, 7] }) ∧
      containsModel keyListOps noOracle
          { (Model.new 2 : Model (List Nat) Unit Unit) with relations := [[15, 7], [4]] }
          { (Model.new 2 : Model (List Nat) Unit Unit) with relations := [[15, 7], [4]] } =
        .ok (true, { (Model.new 2 : Model (List Nat) Unit Unit) with
                     relations := [[15, 7], [4]] }) :=
  have hrefl : ({ (Model.new 2 : Model Nat Unit Unit) with relations := [1, 7] }).isStateBased
      bitsetOps = false →
      ∀ r ∈ ({ (Model.new 2 : Model Nat Unit Unit) with relations := [1, 7] }).relations,
        bitsetOps.contains r r = true := by
    intro _ r _
    simp [bitsetOps]
  ⟨hrefl,
    self_containment bitsetOps noOracle
      { (Model.new 2 : Model Nat Unit Unit) with relations := [1, 7] } hrefl,
    self_containment keyListOps noOracle
      { (Model.new 2 : Model (List Nat) Unit Unit) with relations := [[15, 7], [4]] }
      (fun h => absurd h (by decide))⟩

/-- C13 (normalised insertion in the state-based regime): for a non-empty model
(held within its capacity) and a relation `r` where the model or `r` is
state-based, `addRelation(r, true, cache)` returns the model with its relation
sequence unchanged when `containsRelation(r, cache)` answers true; when it
answers false, `r` is not yet a member, and the call returns the previous
sequence with `r` inserted once at the comparator position, nothing removed,
the count grown by exactly 1. -/
theorem sb_normalized_insertion {R T D : Type} [DecidableEq R] (ops : RelationOps R)
    (dfCompare : SbOracle R T D) (m : Model R T D) (r : R)
    (hne : m.relations ≠ [])
    (hinv : m.relations.length ≤ m.maxRelationCount)
    (hreg : (m.isStateBased ops || ops.isStateBased r) = true) :
    (∀ eff, containsRelation ops dfCompare m r = .ok (true, eff) →
        ∃ m', addRelation ops (containsRelation ops dfCompare) m (some r) true = .ok m' ∧
          m'.relations = m.relations ∧ m'.getRelationCount = m.getRelationCount) ∧
      (∀ eff, containsRelation ops dfCompare m r = .ok (false, eff) →
        ∃ m', addRelation ops (containsRelation ops dfCompare) m (some r) true = .ok m' ∧
          r ∉ m.relations ∧
          m'.relations =
            m.relations.take (findSpot ops r m.relations) ++
              r :: m.relations.drop (findSpot ops r m.relations) ∧
          m.relations.Sublist m'.relations ∧
          m'.getRelationCount = m.getRelationCount + 1) := by
  have hpos : 0 < m.relations.length := List.length_pos.mpr hne
  have hcount : decide (m.getRelationCount > 0) = true := by
    simp [Model.getRelationCount, hpos]
  constructor
  · intro eff he
    refine ⟨m.withEffects eff, ?_, rfl, rfl⟩
    simp only [addRelation, normalizePhase, hcount, Bool.and_self, if_true, hreg, he]
    rfl
  · intro eff he
    have hnp : normalizePhase ops (containsRelation ops dfCompare) m r true =
        .proceed (m.withEffects eff) := by
      simp only [normalizePhase, hcount, Bool.and_self, if_true, hreg, he]
      rfl
    have hcap : 0 < (m.withEffects eff).maxRelationCount := by
      show 0 < m.maxRelationCount
      omega
    obtain ⟨m', hm'⟩ := insertPhase_returns ops (m.withEffects eff) r hcap
    have hrel := (insertPhase_ok ops _ m' r hm').1
    have hrel2 : m'.relations = insertAt r (findSpot ops r m.relations) m.relations := hrel
    refine ⟨m', ?_, ?_, hrel2, ?_, ?_⟩
    · simp only [addRelation, hnp]
      exact hm'
    · intro hmem
      have hmemb : m.relations.any (fun x => decide (x = r)) = true := by
        rw [List.any_eq_true]
        exact ⟨r, hmem, by simp⟩
      simp only [containsRelation, hreg, if_true, hmemb] at he
      cases he
    · rw [hrel2]
      unfold insertAt
      have h1 : (m.relations.take (findSpot ops r m.relations) ++
          m.relations.drop (findSpot ops r m.relations)).Sublist
          (m.relations.take (findSpot ops r m.relations) ++
            r :: m.relations.drop (findSpot ops r m.relations)) :=
        List.Sublist.append (List.Sublist.refl _) (List.sublist_cons_self _ _)
      rwa [List.take_append_drop] at h1
    · have hl : m'.relations.length = m.relations.length + 1 := by
        rw [hrel2, (insertAt_perm r _ m.relations).length_eq]
        simp
      simpa [Model.getRelationCount] using hl

theorem sb_normalized_insertion_witness :
    ({ (Model.new 2 : Model Nat Unit Unit) with relations := [1, 2] }).relations ≠ [] ∧
      (({ (Model.new 2 : Model Nat Unit Unit) with relations := [1, 2] }).isStateBased
          scenarioOps || scenarioOps.isStateBased 103) = true ∧
      containsRelation scenarioOps neverImplied
          { (Model.new 2 : Model Nat Unit Unit) with relations := [1, 2] } 103 =
        .ok (false, ({ (Model.new 2 : Model Nat Unit Unit) with relations := [1, 2] }).effects) ∧
      addRelation scenarioOps (containsRelation scenarioOps neverImplied)
          { (Model.new 2 : Model Nat Unit Unit) with relations := [1, 2] } (some 103) true =
        .ok { (Model.new 4 : Model Nat Unit Unit) with relations := [1, 2, 103] } ∧
      ((∀ eff, containsRelation scenarioOps neverImplied
            { (Model.new 2 : Model Nat Unit Unit) with relations := [1, 2] } 103 =
              .ok (true, eff) →
          ∃ m', addRelation scenarioOps (containsRelation scenarioOps neverImplied)
              { (Model.new 2 : Model Nat Unit Unit) with relations := [1, 2] } (some 103) true =
                .ok m' ∧
            m'.relations = [1, 2] ∧
            m'.getRelationCount =
              ({ (Model.new 2 : Model Nat Unit Unit) with relations := [1, 2] }).getRelationCount) ∧
        (∀ eff, containsRelation scenarioOps neverImplied
            { (Model.new 2 : Model Nat Unit Unit) with relations := [1, 2] } 103 =
              .ok (false, eff) →
          ∃ m', addRelation scenarioOps (containsRelation scenarioOps neverImplied)
              { (Model.new 2 : Model Nat Unit Unit) with relations := [1, 2] } (some 103) true =
                .ok m' ∧
            103 ∉ [1, 2] ∧
            m'.relations =
              [1, 2].take (findSpot scenarioOps 103 [1, 2]) ++
                103 :: [1, 2].drop (findSpot scenarioOps 103 [1, 2]) ∧
            [1, 2].Sublist m'.relations ∧
            m'.getRelationCount =
              ({ (Model.new 2 : Model Nat Unit Unit) with relations := [1, 2] }).getRelationCount
                + 1)) :=
  ⟨by decide, by decide, rfl, rfl,
    sb_normalized_insertion scenarioOps neverImplied
      { (Model.new 2 : Model Nat Unit Unit) with relations := [1, 2] } 103
      (by decide) (by decide) (by decide)⟩

/-! ## Theorems: print name -/

theorem string_length_ne_zero (s : String) (h : s ≠ "") : s.length ≠ 0 := by
  intro h0
  apply h
  cases s with
  | mk data =>
    have : data = [] := List.length_eq_zero.mp h0
    subst this
    rfl

theorem writeNames_after {names : List String} :
    ∀ out : String, out.length ≠ 0 → writeNames names out = out ++ colonEach names := by
  induction names with
  | nil => intro out _; simp [writeNames, colonEach]
  | cons n ns ih =>
    intro out h
    have h2 : (out ++ ":" ++ n).length ≠ 0 := by
      simp only [String.length_append]
      omega
    simp only [writeNames, h, ne_eq, not_false_eq_true, if_true, colonEach]
    rw [ih _ h2]
    simp only [String.append_assoc]

theorem joinNames_cons (a : String) (rest : List String) :
    joinNames (a :: rest) = a ++ colonEach rest := by
  induction rest generalizing a with
  | nil => simp [joinNames, colonEach]
  | cons b rest ih =>
    simp only [joinNames, colonEach]
    rw [ih b]
    simp only [String.append_assoc]

theorem writeNames_fresh (names : List String) (h : ∀ n ∈ names, n ≠ "") :
    writeNames names "" = joinNames names := by
  cases names with
  | nil => rfl
  | cons n ns =>
    have hn : n.length ≠ 0 := string_length_ne_zero n (h n (List.mem_cons_self _ _))
    have h0 : ("" : String).length = 0 := rfl
    simp only [writeNames, h0, ne_eq, not_true_eq_false, if_false, String.empty_append]
    rw [writeNames_after n hn, joinNames_cons]

theorem writeNames_length (names : List String) :
    ∀ out : String, (writeNames names out).length ≤ out.length + nameCost names := by
  induction names with
  | nil => intro out; simp [writeNames, nameCost]
  | cons n ns ih =>
    intro out
    simp only [writeNames]
    refine le_trans (ih _) ?_
    simp only [nameCost, List.map_cons, List.sum_cons]
    have hc : (":" : String).length = 1 := rfl
    split_ifs
    · simp only [String.length_append]
      omega
    · simp only [String.length_append]
      omega


theorem nameCost_cons (n : String) (ns : List String) :
    nameCost (n :: ns) = n.length + 1 + nameCost ns := by
  simp [nameCost]

theorem nameCost_split {R : Type} (name : R → String) (p : R → Bool) (rs : List R) :
    nameCost (rs.map name) =
      nameCost ((rs.filter p).map name) + nameCost ((rs.filter fun r => !p r).map name) := by
  induction rs with
  | nil => simp [nameCost]
  | cons r rs ih =>
    cases hp : p r
    · simp only [List.filter_cons, hp, Bool.not_false, if_true, List.map_cons, nameCost_cons,
        Bool.false_eq_true, if_false]
      omega
    · simp only [List.filter_cons, hp, Bool.not_true, if_true, List.map_cons, nameCost_cons,
        Bool.false_eq_true, if_false]
      omega

/-- The first loop on an undirected system. -/
theorem lengthPass_undirected {R : Type} (ops : RelationOps R) (view : RelationView R)
    (u : Int) :
    ∀ (rs : List R) (i : Nat) (s : NameScan),
      (lengthPass ops view false u rs i s).indOnlyRel = s.indOnlyRel ∧
      (lengthPass ops view false u rs i s).useIVI = s.useIVI +
        (rs.filter fun r => decide (view.getVariableCount r = 1) && !ops.isStateBased r).length ∧
      (lengthPass ops view false u rs i s).len = s.len +
        nameCost ((rs.filter fun r =>
          !(decide (view.getVariableCount r = 1) && !ops.isStateBased r)).map
            fun r => view.getPrintName r u) ∧
      (∀ r0, (rs.filter fun r =>
            decide (view.getVariableCount r = 1) && !ops.isStateBased r) = [r0] →
        (lengthPass ops view false u rs i s).notUsingIVI = (view.getPrintName r0 u).length + 1) ∧
      ((rs.filter fun r => decide (view.getVariableCount r = 1) && !ops.isStateBased r) = [] →
        (lengthPass ops view false u rs i s).notUsingIVI = s.notUsingIVI) := by
  intro rs
  induction rs with
  | nil => intro i s; simp [lengthPass, nameCost]
  | cons r rs ih =>
    intro i s
    cases hS : (decide (view.getVariableCount r = 1) && !ops.isStateBased r)
    · have hstep : lengthPass ops view false u (r :: rs) i s =
          lengthPass ops view false u rs (i + 1)
            { s with len := s.len + ((view.getPrintName r u).length + 1) } := by
        simp only [lengthPass, Bool.false_and, Bool.false_eq_true, if_false, Bool.not_false,
          Bool.true_and, hS]
      rw [hstep]
      obtain ⟨h1, h2, h3, h4, h5⟩ := ih (i + 1)
        { s with len := s.len + ((view.getPrintName r u).length + 1) }
      dsimp only at h1 h2 h3 h4 h5
      simp only [List.filter_cons, hS, Bool.false_eq_true, if_false, Bool.not_false, if_true,
        List.map_cons, nameCost_cons]
      refine ⟨h1, h2, ?_, h4, h5⟩
      rw [h3]
      omega
    · have hstep : lengthPass ops view false u (r :: rs) i s =
          lengthPass ops view false u rs (i + 1)
            { s with useIVI := s.useIVI + 1
                     notUsingIVI := (view.getPrintName r u).length + 1 } := by
        simp only [lengthPass, Bool.false_and, Bool.false_eq_true, if_false, Bool.not_false,
          Bool.true_and, hS, if_true]
      rw [hstep]
      obtain ⟨h1, h2, h3, h4, h5⟩ := ih (i + 1)
        { s with useIVI := s.useIVI + 1
                 notUsingIVI := (view.getPrintName r u).length + 1 }
      dsimp only at h1 h2 h3 h4 h5
      simp only [List.filter_cons, hS, if_true, Bool.not_true, Bool.false_eq_true, if_false,
        List.length_cons]
      refine ⟨h1, ?_, h3, ?_, ?_⟩
      · rw [h2]
        omega
      · intro r0 hr0
        have hr : r = r0 := (List.cons.inj hr0).1
        have hnil := (List.cons.inj hr0).2
        rw [h5 hnil, ← hr]
      · intro hnil
        exact absurd hnil (by simp)

/-- The second loop when no index is the independent-only one. -/
theorem writePass_no_index {R : Type} (ops : RelationOps R) (view : RelationView R)
    (u : Int) (idx : Int) (useIVI : Nat) :
    ∀ (rs : List R) (i : Nat) (out : String), idx < (i : Int) →
      writePass ops view u idx useIVI rs i out =
        writeNames ((rs.filter fun r =>
          !(decide (useIVI > 1) && decide (view.getVariableCount r = 1) &&
            !ops.isStateBased r)).map fun r => view.getPrintName r u) out := by
  intro rs
  induction rs with
  | nil => intro i out _; simp [writePass, writeNames]
  | cons r rs ih =>
    intro i out hi
    have hne : ¬ ((i : Int) = idx) := by omega
    have hi2 : idx < ((i + 1 : Nat) : Int) := by omega
    cases hS : (decide (useIVI > 1) && decide (view.getVariableCount r = 1) &&
        !ops.isStateBased r)
    · simp only [writePass, hne, if_false, hS, Bool.false_eq_true, List.filter_cons,
        Bool.not_false, if_true, List.map_cons, writeNames]
      exact ih (i + 1) _ hi2
    · simp only [writePass, hne, if_false, hS, if_true, List.filter_cons, Bool.not_true,
        Bool.false_eq_true]
      exact ih (i + 1) _ hi2


/-- A call of `getPrintName` that has to format the name: the result of the two
loops, provided the text fits the buffer. -/
theorem getPrintName_compute {R T D : Type} (ops : RelationOps R) (view : RelationView R)
    (m : Model R T D) (first : R) (rest : List R) (u : Int)
    (hrel : m.relations = first :: rest) (huse : u = 0 ∨ u = 1)
    (hc0 : u = 0 → m.printName = none) (hc1 : u = 1 → m.inverseName = none)
    (s : NameScan)
    (hs : s = lengthPass ops view (view.isDirected first) u (first :: rest) 0
      { len := 0, indOnlyRel := -1, useIVI := 0, notUsingIVI := 0 })
    (out : String)
    (hout : out = writePass ops view u s.indOnlyRel s.useIVI (first :: rest) 0
      (if 0 ≤ s.indOnlyRel then "IV" else if s.useIVI > 1 then "IVI" else ""))
    (hfit : out.length ≤
      (if s.useIVI > 1 then s.len + (3 + 1)
       else if s.useIVI = 1 then s.len + s.notUsingIVI else s.len)) :
    getPrintName ops view m u = .ok (some out, storeName m u out) := by
  have hcond : ((m.printName.isNone && decide (u ≠ 1)) ||
      (m.inverseName.isNone && decide (u = 1))) = true := by
    rcases huse with h | h
    · subst h
      simp [hc0 rfl]
    · subst h
      simp [hc1 rfl]
  have hnot : ¬ (out.length >
      (if s.useIVI > 1 then s.len + (3 + 1)
       else if s.useIVI = 1 then s.len + s.notUsingIVI else s.len)) := by omega
  unfold getPrintName
  rw [hrel]
  simp only [hcond, if_true]
  rw [← hs, ← hout]
  simp only [hnot, if_false]
  rcases huse with h | h
  · subst h
    simp [storeName]
  · subst h
    simp [storeName]

/-- C16 (print name of an undirected model): for a non-empty model over an
undirected variable list whose name for the flag `useInverse` (0 or 1) is not
cached, let S be the relations with exactly one variable that are not
state-based.  If S has more than one member, `getPrintName` returns `IVI`
followed by `:` and the print name for each relation outside S, in relation
order (just `IVI` when there is none); if S has at most one member it returns
the print names of all relations joined with `:` (relation names are
non-empty).  The name is stored in the cache the flag selects. -/
theorem print_name_undirected {R T D : Type} (ops : RelationOps R) (view : RelationView R)
    (m : Model R T D) (first : R) (rest : List R) (useInverse : Int)
    (hrel : m.relations = first :: rest)
    (hund : view.isDirected first = false)
    (huse : useInverse = 0 ∨ useInverse = 1)
    (hc0 : useInverse = 0 → m.printName = none)
    (hc1 : useInverse = 1 → m.inverseName = none) :
    ((m.relations.filter fun r =>
          decide (view.getVariableCount r = 1) && !ops.isStateBased r).length > 1 →
        getPrintName ops view m useInverse =
          .ok (some ("IVI" ++ colonEach ((m.relations.filter fun r =>
                  !(decide (view.getVariableCount r = 1) && !ops.isStateBased r)).map
                fun r => view.getPrintName r useInverse)),
               storeName m useInverse ("IVI" ++ colonEach ((m.relations.filter fun r =>
                  !(decide (view.getVariableCount r = 1) && !ops.isStateBased r)).map
                fun r => view.getPrintName r useInverse)))) ∧
      ((m.relations.filter fun r =>
            decide (view.getVariableCount r = 1) && !ops.isStateBased r).length ≤ 1 →
        (∀ r ∈ m.relations, view.getPrintName r useInverse ≠ "") →
        getPrintName ops view m useInverse =
          .ok (some (joinNames (m.relations.map fun r => view.getPrintName r useInverse)),
               storeName m useInverse
                 (joinNames (m.relations.map fun r => view.getPrintName r useInverse)))) := by
  obtain ⟨h1, h2, h3, h4, h5⟩ := lengthPass_undirected ops view useInverse (first :: rest) 0
    { len := 0, indOnlyRel := -1, useIVI := 0, notUsingIVI := 0 }
  dsimp only at h1 h2 h3 h4 h5
  rw [Nat.zero_add] at h2 h3
  have hidx : ¬ (0 ≤ (lengthPass ops view false useInverse (first :: rest) 0
      { len := 0, indOnlyRel := -1, useIVI := 0, notUsingIVI := 0 }).indOnlyRel) := by
    rw [h1]; decide
  have hlt : (lengthPass ops view false useInverse (first :: rest) 0
      { len := 0, indOnlyRel := -1, useIVI := 0, notUsingIVI := 0 }).indOnlyRel <
        ((0 : Nat) : Int) := by
    rw [h1]; decide
  constructor
  · intro hmany
    rw [hrel] at hmany ⊢
    have hu : (lengthPass ops view false useInverse (first :: rest) 0
        { len := 0, indOnlyRel := -1, useIVI := 0, notUsingIVI := 0 }).useIVI > 1 := by
      rw [h2]; exact hmany
    have hdec : ∀ r : R, (!(decide ((lengthPass ops view false useInverse (first :: rest) 0
        { len := 0, indOnlyRel := -1, useIVI := 0, notUsingIVI := 0 }).useIVI > 1) &&
        decide (view.getVariableCount r = 1) && !ops.isStateBased r)) =
        !(decide (view.getVariableCount r = 1) && !ops.isStateBased r) := by
      intro r
      simp [hu]
    have hw := writePass_no_index ops view useInverse _ (lengthPass ops view false useInverse
      (first :: rest) 0 { len := 0, indOnlyRel := -1, useIVI := 0, notUsingIVI := 0 }).useIVI
      (first :: rest) 0 "IVI" hlt
    simp only [hdec] at hw
    rw [writeNames_after "IVI" (by decide)] at hw
    refine getPrintName_compute ops view m first rest useInverse hrel huse hc0 hc1 _
      (by rw [hund]) _ ?_ ?_
    · simp only [hidx, if_false, hu, if_true]
      exact hw.symm
    · simp only [hu, if_true, h3]
      have hl := writeNames_length ((List.filter (fun r =>
        !(decide (view.getVariableCount r = 1) && !ops.isStateBased r)) (first :: rest)).map
          fun r => view.getPrintName r useInverse) "IVI"
      rw [writeNames_after "IVI" (by decide)] at hl
      have h3len : ("IVI" : String).length = 3 := rfl
      omega
  · intro hfew hnames
    rw [hrel] at hfew hnames ⊢
    have hu : ¬ ((lengthPass ops view false useInverse (first :: rest) 0
        { len := 0, indOnlyRel := -1, useIVI := 0, notUsingIVI := 0 }).useIVI > 1) := by
      rw [h2]; omega
    have hdec : ∀ r : R, (!(decide ((lengthPass ops view false useInverse (first :: rest) 0
        { len := 0, indOnlyRel := -1, useIVI := 0, notUsingIVI := 0 }).useIVI > 1) &&
        decide (view.getVariableCount r = 1) && !ops.isStateBased r)) = true := by
      intro r
      simp [hu]
    have hw := writePass_no_index ops view useInverse _ (lengthPass ops view false useInverse
      (first :: rest) 0 { len := 0, indOnlyRel := -1, useIVI := 0, notUsingIVI := 0 }).useIVI
      (first :: rest) 0 "" hlt
    simp only [hdec, List.filter_true] at hw
    have hnm : ∀ n ∈ (first :: rest).map (fun r => view.getPrintName r useInverse), n ≠ "" := by
      intro n hn
      obtain ⟨r, hr, rfl⟩ := List.mem_map.mp hn
      exact hnames r hr
    have hjoin := writeNames_fresh _ hnm
    refine getPrintName_compute ops view m first rest useInverse hrel huse hc0 hc1 _
      (by rw [hund]) _ ?_ ?_
    · simp only [hidx, if_false, hu]
      rw [hw, hjoin]
    · have hl := writeNames_length ((first :: rest).map
        fun r => view.getPrintName r useInverse) ""
      rw [hjoin] at hl
      have h0 : ("" : String).length = 0 := rfl
      have hsplit := nameCost_split (fun r => view.getPrintName r useInverse)
        (fun r => decide (view.getVariableCount r = 1) && !ops.isStateBased r) (first :: rest)
      simp only [hu, if_false, h3]
      rcases Nat.lt_or_ge 0 ((List.filter (fun r =>
          decide (view.getVariableCount r = 1) && !ops.isStateBased r)
          (first :: rest)).length) with hpos | hzero
      · have hone : (List.filter (fun r =>
            decide (view.getVariableCount r = 1) && !ops.isStateBased r)
            (first :: rest)).length = 1 := by omega
        obtain ⟨r0, hr0⟩ := List.length_eq_one.mp hone
        have hu1 : (lengthPass ops view false useInverse (first :: rest) 0
            { len := 0, indOnlyRel := -1, useIVI := 0, notUsingIVI := 0 }).useIVI = 1 := by
          rw [h2]; exact hone
        simp only [hu1, if_true, h4 r0 hr0]
        rw [hr0] at hsplit
        have hr0c : nameCost ([r0].map fun r => view.getPrintName r useInverse) =
            (view.getPrintName r0 useInverse).length + 1 := by
          simp [nameCost]
        omega
      · have hnil : List.filter (fun r =>
            decide (view.getVariableCount r = 1) && !ops.isStateBased r)
            (first :: rest) = [] := List.length_eq_zero.mp (by omega)
        have hu0 : ¬ ((lengthPass ops view false useInverse (first :: rest) 0
            { len := 0, indOnlyRel := -1, useIVI := 0, notUsingIVI := 0 }).useIVI = 1) := by
          rw [h2, hnil]; simp
        simp only [hu0, if_false]
        rw [hnil] at hsplit
        have hr0c : nameCost (([] : List R).map fun r => view.getPrintName r useInverse) = 0 := by
          simp [nameCost]
        omega


theorem print_name_undirected_witness :
    getPrintName bitsetOps letterView (sampleModel [1, 2, 6]) 0 =
        .ok (some "IVI:BC", storeName (sampleModel [1, 2, 6]) 0 "IVI:BC") ∧
      getPrintName bitsetOps letterView (sampleModel [1, 6]) 1 =
        .ok (some "A:BC", storeName (sampleModel [1, 6]) 1 "A:BC") :=
  ⟨(print_name_undirected bitsetOps letterView (sampleModel [1, 2, 6]) 1 [2, 6] 0 rfl rfl
      (Or.inl rfl) (fun _ => rfl) (fun h => absurd h (by decide))).1 (by decide),
    (print_name_undirected bitsetOps letterView (sampleModel [1, 6]) 1 [6] 1 rfl rfl
      (Or.inr rfl) (fun h => absurd h (by decide)) (fun _ => rfl)).2 (by decide)
      (by decide)⟩

/-- The second loop when every index lies above the independent-only one and
no group collapses: every relation is written. -/
theorem writePass_all {R : Type} (ops : RelationOps R) (view : RelationView R)
    (u : Int) (idx : Int) (rs : List R) (i : Nat) (out : String) (h : idx < (i : Int)) :
    writePass ops view u idx 0 rs i out =
      writeNames (rs.map fun r => view.getPrintName r u) out := by
  have hw := writePass_no_index ops view u idx 0 rs i out h
  have hdec : ∀ r : R, (!(decide (0 > 1) && decide (view.getVariableCount r = 1) &&
      !ops.isStateBased r)) = true := by
    intro r; simp
  simp only [hdec, List.filter_true] at hw
  exact hw

/-- The first loop on a directed system. -/
theorem lengthPass_directed {R : Type} (ops : RelationOps R) (view : RelationView R)
    (u : Int) :
    ∀ (rs : List R) (i : Nat) (s : NameScan),
      (lengthPass ops view true u rs i s).useIVI = s.useIVI ∧
      (lengthPass ops view true u rs i s).len = s.len +
        3 * (rs.filter view.isIndependentOnly).length +
        nameCost ((rs.filter fun r => !view.isIndependentOnly r).map
          fun r => view.getPrintName r u) ∧
      (rs.filter view.isIndependentOnly = [] →
        (lengthPass ops view true u rs i s).indOnlyRel = s.indOnlyRel) := by
  intro rs
  induction rs with
  | nil => intro i s; simp [lengthPass, nameCost]
  | cons r rs ih =>
    intro i s
    cases hF : view.isIndependentOnly r
    · have hstep : lengthPass ops view true u (r :: rs) i s =
          lengthPass ops view true u rs (i + 1)
            { s with len := s.len + ((view.getPrintName r u).length + 1) } := by
        simp [lengthPass, hF]
      rw [hstep]
      obtain ⟨h1, h2, h3⟩ := ih (i + 1)
        { s with len := s.len + ((view.getPrintName r u).length + 1) }
      dsimp only at h1 h2 h3
      simp only [List.filter_cons, hF, Bool.false_eq_true, if_false, Bool.not_false, if_true,
        List.map_cons, nameCost_cons]
      refine ⟨h1, ?_, h3⟩
      rw [h2]
      omega
    · have hstep : lengthPass ops view true u (r :: rs) i s =
          lengthPass ops view true u rs (i + 1)
            { s with indOnlyRel := i, len := s.len + ("IV".length + 1) } := by
        simp [lengthPass, hF]
      rw [hstep]
      obtain ⟨h1, h2, h3⟩ := ih (i + 1)
        { s with indOnlyRel := i, len := s.len + ("IV".length + 1) }
      dsimp only at h1 h2 h3
      simp only [List.filter_cons, hF, if_true, Bool.not_true, Bool.false_eq_true, if_false,
        List.length_cons]
      refine ⟨h1, ?_, ?_⟩
      · rw [h2]
        have : ("IV" : String).length = 2 := rfl
        omega
      · intro hnil
        exact absurd hnil (by simp)

/-- Both loops on a directed system with at most one independent-only
relation: the index found by the first loop is the one position the second
loop leaves out. -/
theorem directed_single {R : Type} (ops : RelationOps R) (view : RelationView R) (u : Int) :
    ∀ (rs : List R) (i : Nat) (s : NameScan),
      (rs.filter view.isIndependentOnly).length ≤ 1 → s.indOnlyRel < (i : Int) →
      s.useIVI = 0 →
      (rs.filter view.isIndependentOnly ≠ [] →
        (i : Int) ≤ (lengthPass ops view true u rs i s).indOnlyRel) ∧
      ∀ out : String,
        writePass ops view u (lengthPass ops view true u rs i s).indOnlyRel 0 rs i out =
          writeNames ((rs.filter fun r => !view.isIndependentOnly r).map
            fun r => view.getPrintName r u) out := by
  intro rs
  induction rs with
  | nil => intro i s _ _ _; simp [lengthPass, writePass, writeNames]
  | cons r rs ih =>
    intro i s hle hidx hu
    cases hF : view.isIndependentOnly r
    · have hstep : lengthPass ops view true u (r :: rs) i s =
          lengthPass ops view true u rs (i + 1)
            { s with len := s.len + ((view.getPrintName r u).length + 1) } := by
        simp [lengthPass, hF]
      have hle2 : (rs.filter view.isIndependentOnly).length ≤ 1 := by
        simpa [List.filter_cons, hF] using hle
      obtain ⟨h1, h2⟩ := ih (i + 1)
        { s with len := s.len + ((view.getPrintName r u).length + 1) } hle2
        (by dsimp only; omega) hu
      have h3 := (lengthPass_directed ops view u rs (i + 1)
        { s with len := s.len + ((view.getPrintName r u).length + 1) }).2.2
      dsimp only at h3
      rw [hstep]
      have hne : ¬ ((i : Int) = (lengthPass ops view true u rs (i + 1)
          { s with len := s.len + ((view.getPrintName r u).length + 1) }).indOnlyRel) := by
        by_cases hnil : rs.filter view.isIndependentOnly = []
        · rw [h3 hnil]; omega
        · have := h1 hnil
          push_cast at this
          omega
      constructor
      · intro hnn
        have hnn2 : rs.filter view.isIndependentOnly ≠ [] := by
          simpa [List.filter_cons, hF] using hnn
        have := h1 hnn2
        push_cast at this
        omega
      · intro out
        simp only [writePass, hne, if_false, List.filter_cons, hF, Bool.not_false, if_true,
          List.map_cons, writeNames]
        have hdec : (decide (0 > 1) && decide (view.getVariableCount r = 1) &&
            !ops.isStateBased r) = false := by simp
        simp only [hdec, Bool.false_eq_true, if_false]
        exact h2 _
    · have hstep : lengthPass ops view true u (r :: rs) i s =
          lengthPass ops view true u rs (i + 1)
            { s with indOnlyRel := i, len := s.len + ("IV".length + 1) } := by
        simp [lengthPass, hF]
      have hnil : rs.filter view.isIndependentOnly = [] := by
        have : (rs.filter view.isIndependentOnly).length = 0 := by
          simp only [List.filter_cons, hF, if_true, List.length_cons] at hle
          omega
        exact List.length_eq_zero.mp this
      have h3 := (lengthPass_directed ops view u rs (i + 1)
        { s with indOnlyRel := i, len := s.len + ("IV".length + 1) }).2.2 hnil
      dsimp only at h3
      rw [hstep, h3]
      constructor
      · intro _; exact le_refl _
      · intro out
        have hall : rs.filter (fun r => !view.isIndependentOnly r) = rs := by
          rw [List.filter_eq_self]
          intro a ha
          have : a ∉ rs.filter view.isIndependentOnly := by rw [hnil]; simp
          simp only [List.mem_filter, ha, true_and] at this
          simpa using this
        simp only [writePass, if_true, List.filter_cons, hF, Bool.not_true, Bool.false_eq_true,
          if_false, hall]
        exact writePass_all ops view u i rs (i + 1) out (by push_cast; omega)


/-- C17 (failing input): a directed model holding A, B and C, where C is the
dependent variable, so that A and B are both independent-only; it is the model
that normalised insertion builds from the three relations.  The claim, like
the comment of lines 488-489 ("skip the independent-only relation"), asks for
`IV:C`.  The first loop counts both A and B as `IV`, but keeps one index, and
the second loop leaves out only B, the last flagged relation: the name is
`IV:A:C`.  With BC in place of C the name is `IV:A:BC` where `IV:BC` is asked
for. -/
theorem directed_name_keeps_flagged_relation :
    addRelations bitsetOps noOracle true (Model.new 4) [1, 2, 4] =
        .ok (sampleModel [1, 2, 4]) ∧
      directedLetterView.isDirected 1 = true ∧
      [1, 2, 4].filter directedLetterView.isIndependentOnly = [1, 2] ∧
      lengthPass bitsetOps directedLetterView true 0 [1, 2, 4] 0
          { len := 0, indOnlyRel := -1, useIVI := 0, notUsingIVI := 0 } =
        { len := 8, indOnlyRel := 1, useIVI := 0, notUsingIVI := 0 } ∧
      getPrintName bitsetOps directedLetterView (sampleModel [1, 2, 4]) 0 =
        .ok (some "IV:A:C", storeName (sampleModel [1, 2, 4]) 0 "IV:A:C") ∧
      "IV" ++ colonEach (([1, 2, 4].filter fun r =>
          !directedLetterView.isIndependentOnly r).map
            fun r => directedLetterView.getPrintName r 0) = "IV:C" ∧
      ("IV:A:C" : String) ≠ "IV:C" ∧
      [1, 2, 6].filter directedLetterView.isIndependentOnly = [1, 2] ∧
      getPrintName bitsetOps directedLetterView (sampleModel [1, 2, 6]) 0 =
        .ok (some "IV:A:BC", storeName (sampleModel [1, 2, 6]) 0 "IV:A:BC") ∧
      "IV" ++ colonEach (([1, 2, 6].filter fun r =>
          !directedLetterView.isIndependentOnly r).map
            fun r => directedLetterView.getPrintName r 0) = "IV:BC" ∧
      ("IV:A:BC" : String) ≠ "IV:BC" := by
  refine ⟨by rfl, rfl, rfl, by rfl, by rfl, by rfl, by decide, rfl, by rfl, by rfl, by decide⟩

/-- Where the directed name is as section 5 describes: for a non-empty model
over a directed variable list with at
most one relation flagged independent-only, whose name for the flag
`useInverse` (0 or 1) is not cached: when one relation is flagged,
`getPrintName` returns `IV` followed by `:` and the print name for each
non-flagged relation, in relation order; when none is flagged it returns the
print names of all relations joined with `:` (relation names are non-empty).
The name is stored in the cache the flag selects. -/
theorem print_name_directed_single {R T D : Type} (ops : RelationOps R)
    (view : RelationView R) (m : Model R T D) (first : R) (rest : List R) (useInverse : Int)
    (hrel : m.relations = first :: rest)
    (hdir : view.isDirected first = true)
    (huse : useInverse = 0 ∨ useInverse = 1)
    (hc0 : useInverse = 0 → m.printName = none)
    (hc1 : useInverse = 1 → m.inverseName = none) :
    ((m.relations.filter view.isIndependentOnly).length = 1 →
        getPrintName ops view m useInverse =
          .ok (some ("IV" ++ colonEach ((m.relations.filter fun r =>
                  !view.isIndependentOnly r).map fun r => view.getPrintName r useInverse)),
               storeName m useInverse ("IV" ++ colonEach ((m.relations.filter fun r =>
                  !view.isIndependentOnly r).map fun r => view.getPrintName r useInverse)))) ∧
      (m.relations.filter view.isIndependentOnly = [] →
        (∀ r ∈ m.relations, view.getPrintName r useInverse ≠ "") →
        getPrintName ops view m useInverse =
          .ok (some (joinNames (m.relations.map fun r => view.getPrintName r useInverse)),
               storeName m useInverse
                 (joinNames (m.relations.map fun r => view.getPrintName r useInverse)))) := by
  obtain ⟨h1, h2, h3⟩ := lengthPass_directed ops view useInverse (first :: rest) 0
    { len := 0, indOnlyRel := -1, useIVI := 0, notUsingIVI := 0 }
  dsimp only at h1 h2 h3
  have hu : ¬ ((lengthPass ops view true useInverse (first :: rest) 0
      { len := 0, indOnlyRel := -1, useIVI := 0, notUsingIVI := 0 }).useIVI > 1) := by
    rw [h1]; decide
  have hu1 : ¬ ((lengthPass ops view true useInverse (first :: rest) 0
      { len := 0, indOnlyRel := -1, useIVI := 0, notUsingIVI := 0 }).useIVI = 1) := by
    rw [h1]; decide
  constructor
  · intro hone
    rw [hrel] at hone ⊢
    obtain ⟨h4, h5⟩ := directed_single ops view useInverse (first :: rest) 0
      { len := 0, indOnlyRel := -1, useIVI := 0, notUsingIVI := 0 } (by omega) (by decide) rfl
    have hnn : (first :: rest).filter view.isIndependentOnly ≠ [] := by
      intro h
      rw [h] at hone
      simp at hone
    have hidx := h4 hnn
    have hidx0 : 0 ≤ (lengthPass ops view true useInverse (first :: rest) 0
        { len := 0, indOnlyRel := -1, useIVI := 0, notUsingIVI := 0 }).indOnlyRel := by
      simpa using hidx
    have hw := h5 "IV"
    rw [writeNames_after "IV" (by decide)] at hw
    refine getPrintName_compute ops view m first rest useInverse hrel huse hc0 hc1 _
      (by rw [hdir]) _ ?_ ?_
    · simp only [hidx0, if_true]
      rw [h1]
      exact hw.symm
    · simp only [hu, hu1, if_false, h2, hone]
      have hl := writeNames_length (((first :: rest).filter fun r =>
        !view.isIndependentOnly r).map fun r => view.getPrintName r useInverse) "IV"
      rw [writeNames_after "IV" (by decide)] at hl
      have h2len : ("IV" : String).length = 2 := rfl
      omega
  · intro hnil hnames
    rw [hrel] at hnil hnames ⊢
    have hidx : (lengthPass ops view true useInverse (first :: rest) 0
        { len := 0, indOnlyRel := -1, useIVI := 0, notUsingIVI := 0 }).indOnlyRel = -1 :=
      h3 hnil
    have hidx0 : ¬ (0 ≤ (lengthPass ops view true useInverse (first :: rest) 0
        { len := 0, indOnlyRel := -1, useIVI := 0, notUsingIVI := 0 }).indOnlyRel) := by
      rw [hidx]; decide
    have hw := writePass_all ops view useInverse (-1) (first :: rest) 0 "" (by decide)
    have hnm : ∀ n ∈ (first :: rest).map (fun r => view.getPrintName r useInverse), n ≠ "" := by
      intro n hn
      obtain ⟨r, hr, rfl⟩ := List.mem_map.mp hn
      exact hnames r hr
    have hjoin := writeNames_fresh _ hnm
    have hall : (first :: rest).filter (fun r => !view.isIndependentOnly r) = first :: rest := by
      rw [List.filter_eq_self]
      intro a ha
      have : a ∉ (first :: rest).filter view.isIndependentOnly := by rw [hnil]; simp
      simp only [List.mem_filter, ha, true_and] at this
      simpa using this
    refine getPrintName_compute ops view m first rest useInverse hrel huse hc0 hc1 _
      (by rw [hdir]) _ ?_ ?_
    · simp only [hidx0, if_false, hu]
      rw [hidx, h1, hw, hjoin]
    · simp only [hu, hu1, if_false, h2, hnil, hall]
      have hl := writeNames_length ((first :: rest).map
        fun r => view.getPrintName r useInverse) ""
      rw [hjoin] at hl
      have h0 : ("" : String).length = 0 := rfl
      simp only [List.length_nil]
      omega

theorem print_name_directed_single_witness :
    getPrintName bitsetOps directedLetterView (sampleModel [3, 5, 6]) 0 =
        .ok (some "IV:AC:BC", storeName (sampleModel [3, 5, 6]) 0 "IV:AC:BC") ∧
      getPrintName bitsetOps directedLetterView (sampleModel [5, 6]) 1 =
        .ok (some "AC:BC", storeName (sampleModel [5, 6]) 1 "AC:BC") :=
  ⟨(print_name_directed_single bitsetOps directedLetterView (sampleModel [3, 5, 6]) 3 [5, 6] 0
      rfl rfl (Or.inl rfl) (fun _ => rfl) (fun h => absurd h (by decide))).1 (by decide),
    (print_name_directed_single bitsetOps directedLetterView (sampleModel [5, 6]) 5 [6] 1
      rfl rfl (Or.inr rfl) (fun h => absurd h (by decide)) (fun _ => rfl)).2 (by decide)
      (by decide)⟩


/-- A call of `getPrintName` whose name is already cached returns it and
changes nothing, whatever the relations would print. -/
theorem getPrintName_cached {R T D : Type} (ops : RelationOps R) (view : RelationView R)
    (m : Model R T D) (u : Int) (name : String) (hne : m.relations ≠ [])
    (huse : u = 0 ∨ u = 1)
    (h0 : u = 0 → m.printName = some name) (h1 : u = 1 → m.inverseName = some name) :
    getPrintName ops view m u = .ok (some name, m) := by
  unfold getPrintName
  cases hrel : m.relations with
  | nil => exact absurd hrel hne
  | cons first rest =>
    rcases huse with h | h
    · subst h
      simp [h0 rfl]
    · subst h
      simp [h1 rfl]

theorem ite_fault_ok {α : Type} (c : Prop) [Decidable c] (x y : α)
    (h : (if c then (Except.error Halt.fault : Except Halt α) else .ok x) = .ok y) : x = y := by
  by_cases hc : c
  · simp [hc] at h
  · simpa [hc] using h

/-- What a returning call of `getPrintName` leaves behind. -/
theorem getPrintName_ok {R T D : Type} (ops : RelationOps R) (view : RelationView R)
    (m m1 : Model R T D) (u : Int) (name : Option String) (huse : u = 0 ∨ u = 1)
    (h : getPrintName ops view m u = .ok (name, m1)) :
    m1.relations = m.relations ∧ m.relations ≠ [] ∧
      (u = 0 → ∃ s, name = some s ∧ m1.printName = some s ∧ m1.inverseName = m.inverseName) ∧
      (u = 1 → ∃ s, name = some s ∧ m1.inverseName = some s ∧ m1.printName = m.printName) := by
  unfold getPrintName at h
  cases hrel : m.relations with
  | nil => simp [hrel] at h
  | cons first rest =>
    simp only [hrel] at h
    split at h
    · exact absurd h (by simp)
    · rename_i mm heq
      simp only [Except.ok.injEq, Prod.mk.injEq] at h
      obtain ⟨hname, hm1⟩ := h
      subst hm1
      by_cases hcond : ((m.printName.isNone && decide (u ≠ 1)) ||
          (m.inverseName.isNone && decide (u = 1))) = true
      · simp only [hcond, if_true] at heq
        have heq2 := ite_fault_ok _ _ _ heq
        subst heq2
        refine ⟨?_, by simp, ?_, ?_⟩
        · unfold storeName
          split_ifs <;> exact hrel
        · intro hu
          subst hu
          simp only [if_true] at hname
          exact ⟨_, hname.symm, by simp [storeName], by simp [storeName]⟩
        · intro hu
          subst hu
          have h10 : ¬ ((1 : Int) = 0) := by decide
          simp only [h10, if_false] at hname
          exact ⟨_, hname.symm, by simp [storeName], by simp [storeName]⟩
      · simp only [hcond, Bool.false_eq_true, if_false, Except.ok.injEq] at heq
        subst heq
        refine ⟨hrel, by simp, ?_, ?_⟩
        · intro hu
          subst hu
          simp only [if_true] at hname
          cases hp : m.printName with
          | none => simp [hp] at hcond
          | some s => exact ⟨s, by rw [← hname, hp], rfl, rfl⟩
        · intro hu
          subst hu
          have h10 : ¬ ((1 : Int) = 0) := by decide
          simp only [h10, if_false] at hname
          cases hp : m.inverseName with
          | none => simp [hp] at hcond
          | some s => exact ⟨s, by rw [← hname, hp], rfl, rfl⟩

/-- C18 (print name memoization): when `getPrintName(useInverse)` with
`useInverse` 0 or 1 returns on a model, it returns a string, and the next call
with the same flag returns the same string and leaves the model as it is
without formatting anything (the result does not depend on what the relations
would print now); the call writes only the cache of its own flag, and a call
with the other flag in between does not disturb it. -/
theorem print_name_memoized {R T D : Type} (ops : RelationOps R) (view : RelationView R)
    (m m1 : Model R T D) (useInverse : Int) (name : Option String)
    (huse : useInverse = 0 ∨ useInverse = 1)
    (hfirst : getPrintName ops view m useInverse = .ok (name, m1)) :
    (∃ s, name = some s) ∧
      (∀ (ops2 : RelationOps R) (view2 : RelationView R),
        getPrintName ops2 view2 m1 useInverse = .ok (name, m1)) ∧
      (useInverse = 0 → m1.inverseName = m.inverseName) ∧
      (useInverse = 1 → m1.printName = m.printName) ∧
      (∀ (other : Int) (name2 : Option String) (m2 : Model R T D),
        (other = 0 ∨ other = 1) → other ≠ useInverse →
        getPrintName ops view m1 other = .ok (name2, m2) →
        getPrintName ops view m2 useInverse = .ok (name, m2)) := by
  obtain ⟨hrel, hne, hz, ho⟩ := getPrintName_ok ops view m m1 useInverse name huse hfirst
  have hne1 : m1.relations ≠ [] := by rw [hrel]; exact hne
  rcases huse with hu | hu
  · subst hu
    obtain ⟨s, hs, hp, hi⟩ := hz rfl
    subst hs
    refine ⟨⟨s, rfl⟩, ?_, fun _ => hi, fun h => absurd h (by decide), ?_⟩
    · intro ops2 view2
      exact getPrintName_cached ops2 view2 m1 0 s hne1 (Or.inl rfl) (fun _ => hp)
        (fun h => absurd h (by decide))
    · intro other name2 m2 hother hneq h2
      have ho1 : other = 1 := by
        rcases hother with h | h
        · exact absurd h hneq
        · exact h
      subst ho1
      obtain ⟨hrel2, _, _, ho2⟩ := getPrintName_ok ops view m1 m2 1 name2 (Or.inr rfl) h2
      obtain ⟨_, _, _, hp2⟩ := ho2 rfl
      exact getPrintName_cached ops view m2 0 s (by rw [hrel2]; exact hne1) (Or.inl rfl)
        (fun _ => by rw [hp2, hp]) (fun h => absurd h (by decide))
  · subst hu
    obtain ⟨s, hs, hi, hp⟩ := ho rfl
    subst hs
    refine ⟨⟨s, rfl⟩, ?_, fun h => absurd h (by decide), fun _ => hp, ?_⟩
    · intro ops2 view2
      exact getPrintName_cached ops2 view2 m1 1 s hne1 (Or.inr rfl)
        (fun h => absurd h (by decide)) (fun _ => hi)
    · intro other name2 m2 hother hneq h2
      have ho0 : other = 0 := by
        rcases hother with h | h
        · exact h
        · exact absurd h hneq
      subst ho0
      obtain ⟨hrel2, _, hz2, _⟩ := getPrintName_ok ops view m1 m2 0 name2 (Or.inl rfl) h2
      obtain ⟨_, _, _, hi2⟩ := hz2 rfl
      exact getPrintName_cached ops view m2 1 s (by rw [hrel2]; exact hne1) (Or.inr rfl)
        (fun h => absurd h (by decide)) (fun _ => by rw [hi2, hi])

theorem print_name_memoized_witness :
    ((0 : Int) = 0 ∨ (0 : Int) = 1) ∧
      getPrintName bitsetOps letterView (sampleModel [1, 2, 6]) 0 =
        .ok (some "IVI:BC", storeName (sampleModel [1, 2, 6]) 0 "IVI:BC") ∧
      ((∃ s, some "IVI:BC" = some s) ∧
        (∀ (ops2 : RelationOps Nat) (view2 : RelationView Nat),
          getPrintName ops2 view2 (storeName (sampleModel [1, 2, 6]) 0 "IVI:BC") 0 =
            .ok (some "IVI:BC", storeName (sampleModel [1, 2, 6]) 0 "IVI:BC")) ∧
        ((0 : Int) = 0 → (storeName (sampleModel [1, 2, 6]) 0 "IVI:BC").inverseName =
          (sampleModel [1, 2, 6] : Model Nat Unit Unit).inverseName) ∧
        ((0 : Int) = 1 → (storeName (sampleModel [1, 2, 6]) 0 "IVI:BC").printName =
          (sampleModel [1, 2, 6] : Model Nat Unit Unit).printName) ∧
        (∀ (other : Int) (name2 : Option String) (m2 : Model Nat Unit Unit),
          (other = 0 ∨ other = 1) → other ≠ 0 →
          getPrintName bitsetOps letterView (storeName (sampleModel [1, 2, 6]) 0 "IVI:BC")
            other = .ok (name2, m2) →
          getPrintName bitsetOps letterView m2 0 = .ok (some "IVI:BC", m2))) :=
  ⟨Or.inl rfl, rfl,
    print_name_memoized bitsetOps letterView (sampleModel [1, 2, 6])
      (storeName (sampleModel [1, 2, 6]) 0 "IVI:BC") 0 (some "IVI:BC") (Or.inl rfl) (by rfl)⟩

/-! ## Theorems: equivalence -/

/-- C15 (equivalence definition): `a.isEquivalentTo(b)` for objects at the
addresses `p` and `q`.  When neither model is state-based the result is exactly
`p = q`, and both models are left alone; so two distinct objects holding the
same relations are reported not equivalent.  When one of them is state-based
the result is true for `p = q`; for distinct objects it is true when the two
print names are equal, and otherwise it is the conjunction of
`a.containsModel(b)` and `b.containsModel(a)`, the second being evaluated only
when the first is true.  In one formula: the result is
`p = q or name(a) = name(b) or (a contains b and b contains a)`. -/
theorem equivalence_definition {R T D : Type} [DecidableEq R] (ops : RelationOps R)
    (view : RelationView R) (dfCompare : SbOracle R T D) (p q : Nat) (a b : Model R T D) :
    ((a.isStateBased ops || b.isStateBased ops) = false →
        isEquivalentTo ops view dfCompare p q a b = .ok (decide (p = q), a, b)) ∧
      ((a.isStateBased ops || b.isStateBased ops) = true → p = q →
        isEquivalentTo ops view dfCompare p q a b = .ok (true, a, b)) ∧
      ((a.isStateBased ops || b.isStateBased ops) = true → p ≠ q →
        ∀ (n1 n2 : Option String) (a1 b1 : Model R T D),
          getPrintName ops view a 0 = .ok (n1, a1) →
          getPrintName ops view b 0 = .ok (n2, b1) →
          (n1 = n2 → isEquivalentTo ops view dfCompare p q a b = .ok (true, a1, b1)) ∧
          (n1 ≠ n2 → ∀ (c1 : Bool) (a2 : Model R T D),
            containsModel ops dfCompare a1 b1 = .ok (c1, a2) →
            (c1 = false →
              isEquivalentTo ops view dfCompare p q a b = .ok (false, a2, b1)) ∧
            (c1 = true → ∀ (c2 : Bool) (b2 : Model R T D),
              containsModel ops dfCompare b1 a2 = .ok (c2, b2) →
              isEquivalentTo ops view dfCompare p q a b = .ok (c2, a2, b2)))) ∧
      ((a.isStateBased ops || b.isStateBased ops) = true →
        ∀ (n1 n2 : Option String) (a1 b1 a2 b2 : Model R T D) (c1 c2 : Bool),
          getPrintName ops view a 0 = .ok (n1, a1) →
          getPrintName ops view b 0 = .ok (n2, b1) →
          containsModel ops dfCompare a1 b1 = .ok (c1, a2) →
          containsModel ops dfCompare b1 a2 = .ok (c2, b2) →
          ∃ a3 b3, isEquivalentTo ops view dfCompare p q a b =
            .ok (decide (p = q) || decide (n1 = n2) || (c1 && c2), a3, b3)) := by
  have hthird : (a.isStateBased ops || b.isStateBased ops) = true → p ≠ q →
      ∀ (n1 n2 : Option String) (a1 b1 : Model R T D),
        getPrintName ops view a 0 = .ok (n1, a1) →
        getPrintName ops view b 0 = .ok (n2, b1) →
        (n1 = n2 → isEquivalentTo ops view dfCompare p q a b = .ok (true, a1, b1)) ∧
        (n1 ≠ n2 → ∀ (c1 : Bool) (a2 : Model R T D),
          containsModel ops dfCompare a1 b1 = .ok (c1, a2) →
          (c1 = false →
            isEquivalentTo ops view dfCompare p q a b = .ok (false, a2, b1)) ∧
          (c1 = true → ∀ (c2 : Bool) (b2 : Model R T D),
            containsModel ops dfCompare b1 a2 = .ok (c2, b2) →
            isEquivalentTo ops view dfCompare p q a b = .ok (c2, a2, b2))) := by
    intro hreg hpq n1 n2 a1 b1 hn1 hn2
    constructor
    · intro hn
      simp only [isEquivalentTo, hreg, if_true, hpq, if_false, hn1, hn2, hn]
    · intro hn c1 a2 hc1
      constructor
      · intro hf
        subst hf
        simp only [isEquivalentTo, hreg, if_true, hpq, if_false, hn1, hn2, hn, hc1]
      · intro ht c2 b2 hc2
        subst ht
        simp only [isEquivalentTo, hreg, if_true, hpq, if_false, hn1, hn2, hn, hc1, hc2]
  refine ⟨?_, ?_, hthird, ?_⟩
  · intro hreg
    simp only [isEquivalentTo, hreg, Bool.false_eq_true, if_false]
  · intro hreg hpq
    simp only [isEquivalentTo, hreg, if_true, hpq]
  · intro hreg n1 n2 a1 b1 a2 b2 c1 c2 hn1 hn2 hc1 hc2
    by_cases hpq : p = q
    · exact ⟨a, b, by simp only [isEquivalentTo, hreg, if_true, hpq, decide_True, Bool.true_or]⟩
    · obtain ⟨h1, h2⟩ := hthird hreg hpq n1 n2 a1 b1 hn1 hn2
      by_cases hn : n1 = n2
      · exact ⟨a1, b1, by rw [h1 hn]; simp [hn]⟩
      · obtain ⟨h3, h4⟩ := h2 hn c1 a2 hc1
        cases c1
        · exact ⟨a2, b1, by rw [h3 rfl]; simp [hpq, hn]⟩
        · exact ⟨a2, b2, by rw [h4 rfl c2 b2 hc2]; simp [hpq, hn]⟩

theorem equivalence_definition_witness :
    isEquivalentTo bitsetOps letterView noOracle 1 2 (sampleModel [1, 6]) (sampleModel [1, 6]) =
        .ok (false, sampleModel [1, 6], sampleModel [1, 6]) ∧
      isEquivalentTo bitsetOps letterView noOracle 1 1 (sampleModel [1, 6])
          (sampleModel [1, 6]) =
        .ok (true, sampleModel [1, 6], sampleModel [1, 6]) ∧
      isEquivalentTo keyListOps keyListView noOracle 1 2
          (sampleModel [[15, 7], [4]]) (sampleModel [[3, 7], [4]]) =
        .ok (true, storeName (sampleModel [[15, 7], [4]]) 0 "kk:k",
          storeName (sampleModel [[3, 7], [4]]) 0 "kk:k") :=
  ⟨(equivalence_definition bitsetOps letterView noOracle 1 2 (sampleModel [1, 6])
      (sampleModel [1, 6])).1 (by decide),
    (equivalence_definition bitsetOps letterView noOracle 1 1 (sampleModel [1, 6])
      (sampleModel [1, 6])).1 (by decide),
    ((equivalence_definition keyListOps keyListView
      noOracle 1 2 (sampleModel [[15, 7], [4]]) (sampleModel [[3, 7], [4]])).2.2.1
      (by decide) (by decide) (some "kk:k") (some "kk:k")
      (storeName (sampleModel [[15, 7], [4]]) 0 "kk:k")
      (storeName (sampleModel [[3, 7], [4]]) 0 "kk:k") (by rfl) (by rfl)).1 rfl⟩

/-! ## Theorems: the finished structure matrix -/

theorem setOnes_getElem? (indices : List Nat) :
    ∀ (row : List Int) (c : Nat),
      (indices.foldl (fun acc k => acc.set k 1) row)[c]? =
        if c ∈ indices then (if c < row.length then some 1 else none) else row[c]? := by
  induction indices with
  | nil => intro row c; simp
  | cons k ks ih =>
    intro row c
    rw [List.foldl_cons, ih (row.set k 1) c]
    by_cases hc : c ∈ ks
    · simp [hc]
    · by_cases hk : k = c
      · subst hk
        simp [hc, List.getElem?_set]
      · have hne : ¬ c = k := fun h => hk h.symm
        simp [hc, hne, List.getElem?_set, hk]

theorem setOnes_filter_range (n : Nat) (p : Nat → Bool) :
    ((List.range n).filter p).foldl (fun acc k => acc.set k 1) (List.replicate n (0 : Int)) =
      (List.range n).map fun c => if p c then 1 else 0 := by
  apply List.ext_getElem?
  intro c
  rw [setOnes_getElem?]
  by_cases hc : c < n
  · cases hp : p c
    · simp [List.mem_filter, hc, hp, List.getElem?_range hc]
    · simp [List.mem_filter, hc, hp, List.getElem?_range hc]
  · have h1 : c ∉ (List.range n).filter p := by
      simp [List.mem_filter, hc]
    have h2 : (List.range n)[c]? = none := by
      simp; omega
    simp [h1, h2, hc]
    omega

/-- Lines 208-211 on a row that still holds the zeros of the initialisation:
the row becomes the finished row of the constraint. -/
theorem write_constraint_row (DONT_CARE : Int) (vars : List Variable) (statespace : Int)
    (stateSpaceArr : Nat → Nat → Int) (key : Nat → Nat) (hss : 0 ≤ statespace)
    (before after : List (List Int)) :
    ∃ indices, getIndicesFromKey DONT_CARE key vars statespace stateSpaceArr = .ok indices ∧
      writeRow (before ++ List.replicate statespace.toNat 0 :: after) before.length indices =
        .ok (before ++ constraintRow DONT_CARE vars statespace stateSpaceArr key :: after) := by
  have hneg : ¬ statespace < 0 := by omega
  refine ⟨(List.range statespace.toNat).filter fun i =>
      decide (matchState DONT_CARE (stateSpaceArr i)
        (keyValues DONT_CARE key vars) 0 (-1) = 0),
    by simp only [getIndicesFromKey, hneg, if_false], ?_⟩
  have hrow := setOnes_filter_range statespace.toNat
    (fun i => decide (matchState DONT_CARE (stateSpaceArr i)
      (keyValues DONT_CARE key vars) 0 (-1) = 0))
  have hrow2 : ((List.range statespace.toNat).filter fun i =>
      decide (matchState DONT_CARE (stateSpaceArr i)
        (keyValues DONT_CARE key vars) 0 (-1) = 0)).foldl (fun acc k => acc.set k 1)
        (List.replicate statespace.toNat (0 : Int)) =
      constraintRow DONT_CARE vars statespace stateSpaceArr key := by
    rw [hrow]
    unfold constraintRow
    apply List.map_congr_left
    intro c _
    simp
  have hget : (before ++ List.replicate statespace.toNat (0 : Int) :: after)[before.length]? =
      some (List.replicate statespace.toNat 0) := by
    rw [List.getElem?_append_right (le_refl _)]; simp
  cases hidx : (List.range statespace.toNat).filter fun i =>
      decide (matchState DONT_CARE (stateSpaceArr i)
        (keyValues DONT_CARE key vars) 0 (-1) = 0) with
  | nil =>
    rw [hidx] at hrow2
    simp only [List.foldl_nil] at hrow2
    simp only [writeRow, ← hrow2]
  | cons k ks =>
    rw [hidx] at hrow2
    simp only [writeRow, hget, hrow2]
    rw [List.set_append_right _ _ (le_refl _)]
    simp

theorem constraintRows_length (DONT_CARE : Int) (vars : List Variable) (statespace : Int)
    (stateSpaceArr : Nat → Nat → Int) (sc : StateConstraint) :
    ∀ (fuel j : Nat) (rows : List (List Int)),
      constraintRows DONT_CARE vars statespace stateSpaceArr sc fuel j = .ok rows →
      rows.length = fuel := by
  intro fuel
  induction fuel with
  | zero =>
    intro j rows h
    simp only [constraintRows, Except.ok.injEq] at h
    subst h
    rfl
  | succ fuel ih =>
    intro j rows h
    simp only [constraintRows] at h
    cases hk : sc.getConstraint j with
    | none => simp [hk] at h
    | some key =>
      simp only [hk] at h
      cases hr : constraintRows DONT_CARE vars statespace stateSpaceArr sc fuel (j + 1) with
      | error e => simp [hr] at h
      | ok more =>
        simp only [hr, Except.ok.injEq] at h
        subst h
        simp [ih (j + 1) more hr]

/-- The loop over the constraints of one relation, run on rows that still hold
the zeros of the initialisation, produces the finished rows or stops at the
first absent key. -/
theorem fillConstraints_eq (DONT_CARE : Int) (vars : List Variable) (statespace : Int)
    (stateSpaceArr : Nat → Nat → Int) (sc : StateConstraint) (tcc : Nat)
    (hss : 0 ≤ statespace) :
    ∀ (fuel j : Nat) (before after : List (List Int)), before.length = tcc + j →
      fillConstraints DONT_CARE vars statespace stateSpaceArr sc tcc fuel j
          (before ++ List.replicate fuel (List.replicate statespace.toNat 0) ++ after) =
        match constraintRows DONT_CARE vars statespace stateSpaceArr sc fuel j with
        | .error h => .error h
        | .ok rows => .ok (before ++ rows ++ after) := by
  intro fuel
  induction fuel with
  | zero =>
    intro j before after _
    simp [fillConstraints, constraintRows]
  | succ fuel ih =>
    intro j before after hlen
    simp only [fillConstraints, constraintRows]
    cases hk : sc.getConstraint j with
    | none => simp
    | some key =>
      obtain ⟨indices, hidx, hwrite⟩ := write_constraint_row DONT_CARE vars statespace
        stateSpaceArr key hss before
        (List.replicate fuel (List.replicate statespace.toNat 0) ++ after)
      have hshape : before ++ List.replicate (fuel + 1) (List.replicate statespace.toNat 0) ++
          after = before ++ List.replicate statespace.toNat (0 : Int) ::
            (List.replicate fuel (List.replicate statespace.toNat 0) ++ after) := by
        simp [List.replicate_succ]
      rw [hshape]
      simp only [hidx]
      rw [← hlen, hwrite]
      simp only []
      have hnext := ih (j + 1)
        (before ++ [constraintRow DONT_CARE vars statespace stateSpaceArr key]) after
        (by simp [hlen]; omega)
      have hshape2 : before ++ [constraintRow DONT_CARE vars statespace stateSpaceArr key] ++
          List.replicate fuel (List.replicate statespace.toNat 0) ++ after =
          before ++ constraintRow DONT_CARE vars statespace stateSpaceArr key ::
            (List.replicate fuel (List.replicate statespace.toNat 0) ++ after) := by
        simp
      rw [hshape2] at hnext
      rw [hnext]
      cases constraintRows DONT_CARE vars statespace stateSpaceArr sc fuel (j + 1) with
      | error e => rfl
      | ok rows => simp


theorem rowsNeeded_cons_good {R : Type} (ops : RelationOps R) (rel : R) (rest : List R)
    (sc : StateConstraint) (hsc : ops.getStateConstraints rel = some sc) :
    rowsNeeded ops (rel :: rest) = sc.getConstraintCount.toNat + rowsNeeded ops rest := by
  simp [rowsNeeded, hsc]

/-- The loop over the relations, run on rows that still hold the zeros of the
initialisation, produces the finished rows or stops at the first relation
whose constraint data is not usable. -/
theorem fillRelations_eq {R : Type} (ops : RelationOps R) (DONT_CARE : Int)
    (vars : List Variable) (statespace : Int) (stateSpaceArr : Nat → Nat → Int)
    (hss : 0 ≤ statespace) :
    ∀ (rels : List R) (tcc : Nat) (before after : List (List Int)), before.length = tcc →
      fillRelations ops DONT_CARE vars statespace stateSpaceArr rels tcc
          (before ++ List.replicate (rowsNeeded ops rels) (List.replicate statespace.toNat 0) ++
            after) =
        match relationRows ops DONT_CARE vars statespace stateSpaceArr rels with
        | .error h => .error h
        | .ok rows => .ok (before ++ rows ++ after) := by
  intro rels
  induction rels with
  | nil =>
    intro tcc before after _
    simp [fillRelations, relationRows, rowsNeeded]
  | cons rel rest ih =>
    intro tcc before after hlen
    simp only [fillRelations, relationRows]
    cases hsc : ops.getStateConstraints rel with
    | none => simp
    | some sc =>
      simp only []
      by_cases hc : sc.getConstraintCount ≤ 0
      · simp [hc]
      · simp only [hc, if_false]
        rw [rowsNeeded_cons_good ops rel rest sc hsc, List.replicate_add]
        have hshape : before ++ (List.replicate sc.getConstraintCount.toNat
              (List.replicate statespace.toNat (0 : Int)) ++
            List.replicate (rowsNeeded ops rest) (List.replicate statespace.toNat 0)) ++ after =
            before ++ List.replicate sc.getConstraintCount.toNat
              (List.replicate statespace.toNat (0 : Int)) ++
            (List.replicate (rowsNeeded ops rest) (List.replicate statespace.toNat 0) ++
              after) := by
          simp only [List.append_assoc]
        rw [hshape, fillConstraints_eq DONT_CARE vars statespace stateSpaceArr sc tcc hss
          sc.getConstraintCount.toNat 0 before _ (by omega)]
        cases hr : constraintRows DONT_CARE vars statespace stateSpaceArr sc
            sc.getConstraintCount.toNat 0 with
        | error e => rfl
        | ok rows =>
          simp only []
          have hrl := constraintRows_length DONT_CARE vars statespace stateSpaceArr sc _ 0 rows hr
          have hnext := ih (tcc + sc.getConstraintCount.toNat) (before ++ rows) after
            (by simp [hlen, hrl])
          have hshape2 : before ++ rows ++
              (List.replicate (rowsNeeded ops rest) (List.replicate statespace.toNat (0 : Int)) ++
                after) =
              before ++ rows ++
                List.replicate (rowsNeeded ops rest) (List.replicate statespace.toNat 0) ++
                after := by
            simp only [List.append_assoc]
          rw [hshape2, hnext]
          cases relationRows ops DONT_CARE vars statespace stateSpaceArr rest with
          | error e => rfl
          | ok more => simp

theorem constraintTotal_eq_rowsNeeded {R : Type} (ops : RelationOps R) (rels : List R)
    (hnonneg : ∀ rel ∈ rels, ∀ sc, ops.getStateConstraints rel = some sc →
      0 ≤ sc.getConstraintCount) :
    constraintTotal ops rels = (rowsNeeded ops rels : Int) := by
  induction rels with
  | nil => simp [constraintTotal, rowsNeeded]
  | cons rel rest ih =>
    have hrest := ih (fun x hx => hnonneg x (List.mem_cons_of_mem _ hx))
    simp only [constraintTotal, rowsNeeded, List.map_cons, List.sum_cons] at hrest ⊢
    cases hsc : ops.getStateConstraints rel with
    | none =>
      simp only [Nat.cast_add, Nat.cast_zero, zero_add]
      exact hrest
    | some sc =>
      have hpos := hnonneg rel (List.mem_cons_self _ _) sc hsc
      have hnat := Int.toNat_of_nonneg hpos
      simp only [Nat.cast_add]
      rw [hrest, hnat]

/-- The build of the structure matrix on a model without a matrix, when no
constraint count is negative: it fails exactly where the row description
fails, and otherwise returns the finished rows followed by the default row. -/
theorem makeStructMatrix_eq {R T D : Type} (ops : RelationOps R) (DONT_CARE : Int)
    (m : Model R T D) (statespace : Int) (vars : List Variable)
    (stateSpaceArr : Nat → Nat → Int) (habsent : m.structMatrix = none)
    (hss : 0 ≤ statespace)
    (hnonneg : ∀ rel ∈ m.relations, ∀ sc, ops.getStateConstraints rel = some sc →
      0 ≤ sc.getConstraintCount) :
    makeStructMatrix ops DONT_CARE m statespace vars stateSpaceArr =
      match relationRows ops DONT_CARE vars statespace stateSpaceArr m.relations with
      | .error h => .error h
      | .ok rows =>
        .ok { m with
              totalConstraints := constraintTotal ops m.relations + 1
              stateSpaceSize := statespace
              structMatrix := some (rows ++ [List.replicate statespace.toNat 1]) } := by
  have hcc := constraintTotal_eq_rowsNeeded ops m.relations hnonneg
  have h1 : ¬ (constraintTotal ops m.relations + 1 < 0) := by omega
  have h2 : ¬ (0 ≤ constraintTotal ops m.relations ∧ statespace < 0) := by omega
  have h3 : ¬ (constraintTotal ops m.relations = -1 ∧ 0 < statespace) := by omega
  have hinit : initialMatrix (constraintTotal ops m.relations) statespace =
      [] ++ List.replicate (rowsNeeded ops m.relations) (List.replicate statespace.toNat 0) ++
        [List.replicate statespace.toNat 1] := by
    have hpos : 0 ≤ constraintTotal ops m.relations := by omega
    have hnat : (constraintTotal ops m.relations).toNat = rowsNeeded ops m.relations := by omega
    simp [initialMatrix, hpos, hnat]
  unfold makeStructMatrix
  simp only [habsent, Option.isSome_none, Bool.false_eq_true, if_false, h1, h2, h3]
  rw [hinit, fillRelations_eq ops DONT_CARE vars statespace stateSpaceArr hss m.relations 0 []
    _ rfl]
  cases relationRows ops DONT_CARE vars statespace stateSpaceArr m.relations with
  | error e => rfl
  | ok rows => simp


theorem fillConstraints_keys (DONT_CARE : Int) (vars : List Variable) (statespace : Int)
    (stateSpaceArr : Nat → Nat → Int) (sc : StateConstraint) (tcc : Nat) :
    ∀ (fuel j : Nat) (matrix matrix1 : List (List Int)),
      fillConstraints DONT_CARE vars statespace stateSpaceArr sc tcc fuel j matrix =
        .ok matrix1 →
      ∀ t, t < fuel → sc.getConstraint (j + t) ≠ none := by
  intro fuel
  induction fuel with
  | zero => intro j matrix matrix1 _ t ht; omega
  | succ fuel ih =>
    intro j matrix matrix1 h t ht
    simp only [fillConstraints] at h
    cases hk : sc.getConstraint j with
    | none => simp [hk] at h
    | some key =>
      simp only [hk] at h
      cases hi : getIndicesFromKey DONT_CARE key vars statespace stateSpaceArr with
      | error e => simp [hi] at h
      | ok indices =>
        simp only [hi] at h
        cases hw : writeRow matrix (tcc + j) indices with
        | error e => simp [hw] at h
        | ok matrix2 =>
          simp only [hw] at h
          cases t with
          | zero => simp [hk]
          | succ t =>
            have := ih (j + 1) matrix2 matrix1 h t (by omega)
            rwa [show j + (t + 1) = j + 1 + t by omega]

/-- A relation with usable constraint data: constraints present, a positive
count, and every key below the count present. -/
theorem not_bad_iff {R : Type} (ops : RelationOps R) (rel : R) :
    ¬ BadConstraints ops rel ↔
      ∃ sc, ops.getStateConstraints rel = some sc ∧ 0 < sc.getConstraintCount ∧
        ∀ t : Nat, t < sc.getConstraintCount.toNat → sc.getConstraint t ≠ none := by
  unfold BadConstraints
  cases hsc : ops.getStateConstraints rel with
  | none => simp
  | some sc =>
    simp only [not_or, not_exists, not_and, not_le, Option.some.injEq, exists_eq_left']
    constructor
    · rintro ⟨h1, h2⟩
      exact ⟨h1, fun t ht => h2 t (by omega)⟩
    · rintro ⟨h1, h2⟩
      exact ⟨h1, fun t ht => h2 t (by omega)⟩

theorem fillRelations_good {R : Type} (ops : RelationOps R) (DONT_CARE : Int)
    (vars : List Variable) (statespace : Int) (stateSpaceArr : Nat → Nat → Int) :
    ∀ (rels : List R) (tcc : Nat) (matrix matrix1 : List (List Int)),
      fillRelations ops DONT_CARE vars statespace stateSpaceArr rels tcc matrix = .ok matrix1 →
      ∀ rel ∈ rels, ¬ BadConstraints ops rel := by
  intro rels
  induction rels with
  | nil => intro tcc matrix matrix1 _; simp
  | cons rel rest ih =>
    intro tcc matrix matrix1 h
    simp only [fillRelations] at h
    cases hsc : ops.getStateConstraints rel with
    | none => simp [hsc] at h
    | some sc =>
      simp only [hsc] at h
      by_cases hc : sc.getConstraintCount ≤ 0
      · simp [hc] at h
      · simp only [hc, if_false] at h
        cases hf : fillConstraints DONT_CARE vars statespace stateSpaceArr sc tcc
            sc.getConstraintCount.toNat 0 matrix with
        | error e => simp [hf] at h
        | ok matrix2 =>
          simp only [hf] at h
          intro x hx
          rcases List.mem_cons.mp hx with rfl | hx
          · rw [not_bad_iff]
            refine ⟨sc, hsc, by omega, fun t ht => ?_⟩
            have := fillConstraints_keys DONT_CARE vars statespace stateSpaceArr sc tcc _ 0
              matrix matrix2 hf t ht
            rwa [Nat.zero_add] at this
          · exact ih _ matrix2 matrix1 h x hx

theorem constraintRows_error (DONT_CARE : Int) (vars : List Variable) (statespace : Int)
    (stateSpaceArr : Nat → Nat → Int) (sc : StateConstraint) :
    ∀ (fuel j : Nat) (e : Halt),
      constraintRows DONT_CARE vars statespace stateSpaceArr sc fuel j = .error e →
      e = .exit := by
  intro fuel
  induction fuel with
  | zero => intro j e h; simp [constraintRows] at h
  | succ fuel ih =>
    intro j e h
    simp only [constraintRows] at h
    cases hk : sc.getConstraint j with
    | none =>
      simp only [hk] at h
      cases h
      rfl
    | some key =>
      simp only [hk] at h
      cases hr : constraintRows DONT_CARE vars statespace stateSpaceArr sc fuel (j + 1) with
      | error e1 =>
        simp only [hr] at h
        cases h
        exact ih (j + 1) _ hr
      | ok rows => simp [hr] at h

theorem constraintRows_ok_iff (DONT_CARE : Int) (vars : List Variable) (statespace : Int)
    (stateSpaceArr : Nat → Nat → Int) (sc : StateConstraint) :
    ∀ (fuel j : Nat),
      (∃ rows, constraintRows DONT_CARE vars statespace stateSpaceArr sc fuel j = .ok rows) ↔
        ∀ t, t < fuel → sc.getConstraint (j + t) ≠ none := by
  intro fuel
  induction fuel with
  | zero =>
    intro j
    simp [constraintRows]
  | succ fuel ih =>
    intro j
    simp only [constraintRows]
    cases hk : sc.getConstraint j with
    | none =>
      simp only [false_iff, not_forall, reduceCtorEq, exists_false]
      exact ⟨0, by omega, by simp [hk]⟩
    | some key =>
      simp only []
      constructor
      · rintro ⟨rows, hrows⟩ t ht
        cases hr : constraintRows DONT_CARE vars statespace stateSpaceArr sc fuel (j + 1) with
        | error e => simp [hr] at hrows
        | ok more =>
          cases t with
          | zero => simp [hk]
          | succ t =>
            have := (ih (j + 1)).mp ⟨more, hr⟩ t (by omega)
            rwa [show j + (t + 1) = j + 1 + t by omega]
      · intro hkeys
        obtain ⟨more, hmore⟩ := (ih (j + 1)).mpr (fun t ht => by
          have := hkeys (t + 1) (by omega)
          rwa [show j + (t + 1) = j + 1 + t by omega] at this)
        exact ⟨_, by rw [hmore]⟩

theorem relationRows_error {R : Type} (ops : RelationOps R) (DONT_CARE : Int)
    (vars : List Variable) (statespace : Int) (stateSpaceArr : Nat → Nat → Int) :
    ∀ (rels : List R) (e : Halt),
      relationRows ops DONT_CARE vars statespace stateSpaceArr rels = .error e → e = .exit := by
  intro rels
  induction rels with
  | nil => intro e h; simp [relationRows] at h
  | cons rel rest ih =>
    intro e h
    simp only [relationRows] at h
    cases hsc : ops.getStateConstraints rel with
    | none =>
      simp only [hsc] at h
      cases h
      rfl
    | some sc =>
      simp only [hsc] at h
      by_cases hc : sc.getConstraintCount ≤ 0
      · simp only [hc, if_true] at h
        cases h
        rfl
      · simp only [hc, if_false] at h
        cases hr : constraintRows DONT_CARE vars statespace stateSpaceArr sc
            sc.getConstraintCount.toNat 0 with
        | error e1 =>
          simp only [hr] at h
          cases h
          exact constraintRows_error DONT_CARE vars statespace stateSpaceArr sc _ 0 _ hr
        | ok rows =>
          simp only [hr] at h
          cases hm : relationRows ops DONT_CARE vars statespace stateSpaceArr rest with
          | error e2 =>
            simp only [hm] at h
            cases h
            exact ih _ hm
          | ok more => simp [hm] at h

/-- The row description exists exactly when every relation has usable
constraint data. -/
theorem relationRows_ok_iff {R : Type} (ops : RelationOps R) (DONT_CARE : Int)
    (vars : List Variable) (statespace : Int) (stateSpaceArr : Nat → Nat → Int) :
    ∀ (rels : List R),
      (∃ rows, relationRows ops DONT_CARE vars statespace stateSpaceArr rels = .ok rows) ↔
        ∀ rel ∈ rels, ¬ BadConstraints ops rel := by
  intro rels
  induction rels with
  | nil => simp [relationRows]
  | cons rel rest ih =>
    rw [List.forall_mem_cons, not_bad_iff, ← ih]
    simp only [relationRows]
    cases hsc : ops.getStateConstraints rel with
    | none => simp
    | some sc =>
      simp only [Option.some.injEq, exists_eq_left']
      by_cases hc : sc.getConstraintCount ≤ 0
      · simp only [hc, if_true, reduceCtorEq, exists_false, false_iff, not_and]
        intro h
        omega
      · simp only [hc, if_false]
        have hkeys := constraintRows_ok_iff DONT_CARE vars statespace stateSpaceArr sc
          sc.getConstraintCount.toNat 0
        simp only [Nat.zero_add] at hkeys
        rw [← hkeys]
        cases hr : constraintRows DONT_CARE vars statespace stateSpaceArr sc
            sc.getConstraintCount.toNat 0 with
        | error e => simp
        | ok rows =>
          cases hm : relationRows ops DONT_CARE vars statespace stateSpaceArr rest with
          | error e => simp
          | ok more =>
            simp only [Except.ok.injEq, exists_eq', and_true, true_and]
            exact ⟨fun _ => by omega, fun _ => trivial⟩

/-! ## Theorems: completing a state-based model -/

/-- The state space size of line 226 is the product of the cardinalities when
these are at least 1 and the product fits in an `int`. -/
theorem stateSpaceOf_eq (vars : List Variable) (hcard : ∀ v ∈ vars, 1 ≤ v.cardinality)
    (hfit : cardProduct vars < 2 ^ 31) :
    stateSpaceOf vars = (cardProduct vars : Int) := by
  have hprod := cast_cardProduct vars hcard
  have hpos := cardProduct_pos vars hcard
  have hin : -2 ^ 31 ≤ ((cardProduct vars : Nat) : Int) - 1 ∧
      ((cardProduct vars : Nat) : Int) - 1 < 2 ^ 31 := by
    constructor <;> omega
  unfold stateSpaceOf
  rw [← hprod]
  simp only [hin, and_self, if_true]
  omega

/-- With cardinalities of at least 1 whose product fits in an `int` the
enumeration called by `completeSbModel` returns the full table. -/
theorem makeStateSpaceArray_full (vars : List Variable)
    (hcard : ∀ v ∈ vars, 1 ≤ v.cardinality) (hfit : cardProduct vars < 2 ^ 31) :
    makeStateSpaceArray vars (stateSpaceOf vars) =
      .ok ((List.range (cardProduct vars)).map (stateRow vars)) := by
  rw [stateSpaceOf_eq vars hcard hfit]
  exact makeStateSpaceArray_eq vars hcard _ (cardProduct_pos vars hcard) (le_refl _)

theorem relationRows_length {R : Type} (ops : RelationOps R) (DONT_CARE : Int)
    (vars : List Variable) (statespace : Int) (stateSpaceArr : Nat → Nat → Int) :
    ∀ (rels : List R) (rows : List (List Int)),
      relationRows ops DONT_CARE vars statespace stateSpaceArr rels = .ok rows →
      rows.length = rowsNeeded ops rels := by
  intro rels
  induction rels with
  | nil =>
    intro rows h
    simp only [relationRows, Except.ok.injEq] at h
    subst h
    simp [rowsNeeded]
  | cons rel rest ih =>
    intro rows h
    simp only [relationRows] at h
    cases hsc : ops.getStateConstraints rel with
    | none => simp [hsc] at h
    | some sc =>
      simp only [hsc] at h
      by_cases hc : sc.getConstraintCount ≤ 0
      · simp [hc] at h
      · simp only [hc, if_false] at h
        cases hr : constraintRows DONT_CARE vars statespace stateSpaceArr sc
            sc.getConstraintCount.toNat 0 with
        | error e => simp [hr] at h
        | ok first =>
          simp only [hr] at h
          cases hm : relationRows ops DONT_CARE vars statespace stateSpaceArr rest with
          | error e => simp [hm] at h
          | ok more =>
            simp only [hm, Except.ok.injEq] at h
            subst h
            rw [rowsNeeded_cons_good ops rel rest sc hsc, List.length_append, ih more hm,
              constraintRows_length DONT_CARE vars statespace stateSpaceArr sc _ 0 first hr]

/-- A call of `completeSbModel` that returns has met no relation with unusable
constraint data, whatever the variables and counts are. -/
theorem completeSbModel_ok_good {R T D : Type} (ops : RelationOps R) (view : RelationView R)
    (DONT_CARE : Int) (m m1 : Model R T D) (habsent : m.structMatrix = none)
    (h : completeSbModel ops view DONT_CARE m = .ok m1) :
    m.relations ≠ [] ∧ ∀ rel ∈ m.relations, ¬ BadConstraints ops rel := by
  unfold completeSbModel at h
  cases hrel : m.relations with
  | nil => simp [hrel] at h
  | cons first rest =>
    refine ⟨by simp, ?_⟩
    rw [← hrel]
    simp only [hrel, habsent, Option.isSome_none, Bool.false_eq_true, if_false] at h
    cases harr : makeStateSpaceArray (view.getVariableList first)
        (stateSpaceOf (view.getVariableList first)) with
    | error e => simp [harr] at h
    | ok arr =>
      simp only [harr] at h
      unfold makeStructMatrix at h
      simp only [habsent, Option.isSome_none, Bool.false_eq_true, if_false] at h
      split_ifs at h
      cases hfill : fillRelations ops DONT_CARE (view.getVariableList first)
          (stateSpaceOf (view.getVariableList first)) (tableOf arr) m.relations 0
          (initialMatrix (constraintTotal ops m.relations)
            (stateSpaceOf (view.getVariableList first))) with
      | error e => simp [hfill] at h
      | ok matrix =>
        exact fillRelations_good ops DONT_CARE _ _ _ m.relations 0 _ matrix hfill

/-- The call of `completeSbModel` on a model without a matrix whose first
relation has variables of cardinality at least 1 with a product that fits in
an `int`, and whose constraint counts are not negative. -/
theorem completeSbModel_eq {R T D : Type} (ops : RelationOps R) (view : RelationView R)
    (DONT_CARE : Int) (m : Model R T D) (first : R) (rest : List R)
    (hrel : m.relations = first :: rest) (habsent : m.structMatrix = none)
    (hcard : ∀ v ∈ view.getVariableList first, 1 ≤ v.cardinality)
    (hfit : cardProduct (view.getVariableList first) < 2 ^ 31)
    (hnonneg : ∀ rel ∈ m.relations, ∀ sc, ops.getStateConstraints rel = some sc →
      0 ≤ sc.getConstraintCount) :
    completeSbModel ops view DONT_CARE m =
      match relationRows ops DONT_CARE (view.getVariableList first)
          (stateSpaceOf (view.getVariableList first))
          (tableOf ((List.range (cardProduct (view.getVariableList first))).map
            (stateRow (view.getVariableList first)))) m.relations with
      | .error h => .error h
      | .ok rows =>
        .ok { m with
              totalConstraints := constraintTotal ops m.relations + 1
              stateSpaceSize := stateSpaceOf (view.getVariableList first)
              structMatrix := some (rows ++
                [List.replicate (stateSpaceOf (view.getVariableList first)).toNat 1]) } := by
  have hss : 0 ≤ stateSpaceOf (view.getVariableList first) := by
    rw [stateSpaceOf_eq _ hcard hfit]
    exact Int.ofNat_nonneg _
  have hbuild := makeStructMatrix_eq ops DONT_CARE m (stateSpaceOf (view.getVariableList first))
    (view.getVariableList first)
    (tableOf ((List.range (cardProduct (view.getVariableList first))).map
      (stateRow (view.getVariableList first)))) habsent hss hnonneg
  rw [← hbuild]
  unfold completeSbModel
  rw [hrel]
  simp only [habsent, Option.isSome_none, Bool.false_eq_true, if_false,
    makeStateSpaceArray_full _ hcard hfit]

theorem getStructMatrix_absent {R T D : Type} (ops : RelationOps R) (view : RelationView R)
    (DONT_CARE : Int) (m : Model R T D) (habsent : m.structMatrix = none) :
    getStructMatrix ops view DONT_CARE m =
      match completeSbModel ops view DONT_CARE m with
      | .error h => .error h
      | .ok m1 => .ok ((m1.structMatrix, m1.stateSpaceSize, m1.totalConstraints), m1) := by
  simp [getStructMatrix, habsent]

/-- Where the build behaves as section 4.4 describes.  For a model whose
matrix is absent, whose first relation, if there is one, has variables of
cardinality at least 1 with a product of cardinalities within the range of
`int`, and whose constraint counts are not negative: `completeSbModel` takes
one of the `exit(1)` calls exactly when the model has no relations or some
relation has absent state constraints, the constraint count 0, or an absent
constraint key; otherwise it returns, having built the finished row of every
constraint of every relation over the full state table, followed by the
default row, and recorded the two sizes; and `getStructMatrix` halts or
returns exactly as `completeSbModel` does. -/
theorem completeSbModel_outcome {R T D : Type} (ops : RelationOps R)
    (view : RelationView R) (DONT_CARE : Int) (m : Model R T D)
    (habsent : m.structMatrix = none)
    (hcard : ∀ first ∈ m.relations.head?,
      (∀ v ∈ view.getVariableList first, 1 ≤ v.cardinality) ∧
        cardProduct (view.getVariableList first) < 2 ^ 31)
    (hnonneg : ∀ rel ∈ m.relations, ∀ sc, ops.getStateConstraints rel = some sc →
      0 ≤ sc.getConstraintCount) :
    (completeSbModel ops view DONT_CARE m = .error .exit ↔
        (m.relations = [] ∨ ∃ rel ∈ m.relations, BadConstraints ops rel)) ∧
      (∀ h, completeSbModel ops view DONT_CARE m = .error h → h = .exit) ∧
      (¬ (m.relations = [] ∨ ∃ rel ∈ m.relations, BadConstraints ops rel) →
        ∃ first arr rows, m.relations.head? = some first ∧
          makeStateSpaceArray (view.getVariableList first)
            (stateSpaceOf (view.getVariableList first)) = .ok arr ∧
          arr = (List.range (cardProduct (view.getVariableList first))).map
            (stateRow (view.getVariableList first)) ∧
          relationRows ops DONT_CARE (view.getVariableList first)
            (stateSpaceOf (view.getVariableList first)) (tableOf arr) m.relations = .ok rows ∧
          rows.length = rowsNeeded ops m.relations ∧
          completeSbModel ops view DONT_CARE m = .ok { m with
                 totalConstraints := (rowsNeeded ops m.relations : Int) + 1
                 stateSpaceSize := stateSpaceOf (view.getVariableList first)
                 structMatrix := some (rows ++
                   [List.replicate (stateSpaceOf (view.getVariableList first)).toNat 1]) }) ∧
      getStructMatrix ops view DONT_CARE m =
        (match completeSbModel ops view DONT_CARE m with
         | .error h => .error h
         | .ok m1 => .ok ((m1.structMatrix, m1.stateSpaceSize, m1.totalConstraints), m1)) := by
  have hexit : (m.relations = [] ∨ ∃ rel ∈ m.relations, BadConstraints ops rel) →
      completeSbModel ops view DONT_CARE m = .error .exit := by
    intro hfail
    cases hrel : m.relations with
    | nil => simp [completeSbModel, hrel]
    | cons first rest =>
      obtain ⟨hc, hf⟩ := hcard first (by simp [hrel])
      rw [completeSbModel_eq ops view DONT_CARE m first rest hrel habsent hc hf hnonneg]
      rcases hfail with hnil | hbad
      · simp [hrel] at hnil
      · cases hrows : relationRows ops DONT_CARE (view.getVariableList first)
            (stateSpaceOf (view.getVariableList first))
            (tableOf ((List.range (cardProduct (view.getVariableList first))).map
              (stateRow (view.getVariableList first)))) m.relations with
        | error e =>
          have := relationRows_error ops DONT_CARE _ _ _ m.relations e hrows
          subst this
          rfl
        | ok rows =>
          exfalso
          obtain ⟨rel, hmem, hb⟩ := hbad
          exact (relationRows_ok_iff ops DONT_CARE _ _ _ m.relations).mp ⟨rows, hrows⟩ rel
            hmem hb
  have hgood : ¬ (m.relations = [] ∨ ∃ rel ∈ m.relations, BadConstraints ops rel) →
      ∃ first arr rows, m.relations.head? = some first ∧
          makeStateSpaceArray (view.getVariableList first)
            (stateSpaceOf (view.getVariableList first)) = .ok arr ∧
          arr = (List.range (cardProduct (view.getVariableList first))).map
            (stateRow (view.getVariableList first)) ∧
          relationRows ops DONT_CARE (view.getVariableList first)
            (stateSpaceOf (view.getVariableList first)) (tableOf arr) m.relations = .ok rows ∧
          rows.length = rowsNeeded ops m.relations ∧
          completeSbModel ops view DONT_CARE m = .ok { m with
                 totalConstraints := (rowsNeeded ops m.relations : Int) + 1
                 stateSpaceSize := stateSpaceOf (view.getVariableList first)
                 structMatrix := some (rows ++
                   [List.replicate (stateSpaceOf (view.getVariableList first)).toNat 1]) } := by
    intro hfail
    simp only [not_or, not_exists, not_and] at hfail
    obtain ⟨hne, hall⟩ := hfail
    cases hrel : m.relations with
    | nil => exact absurd hrel hne
    | cons first rest =>
      obtain ⟨hc, hf⟩ := hcard first (by simp [hrel])
      obtain ⟨rows, hrows⟩ := (relationRows_ok_iff ops DONT_CARE (view.getVariableList first)
        (stateSpaceOf (view.getVariableList first))
        (tableOf ((List.range (cardProduct (view.getVariableList first))).map
          (stateRow (view.getVariableList first)))) m.relations).mpr hall
      have heq := completeSbModel_eq ops view DONT_CARE m first rest hrel habsent hc hf hnonneg
      rw [hrows, constraintTotal_eq_rowsNeeded ops m.relations hnonneg] at heq
      rw [← hrel]
      exact ⟨first, _, rows, by simp [hrel], makeStateSpaceArray_full _ hc hf, rfl, hrows,
        relationRows_length ops DONT_CARE _ _ _ m.relations rows hrows, heq⟩
  refine ⟨⟨?_, hexit⟩, ?_, hgood, getStructMatrix_absent ops view DONT_CARE m habsent⟩
  · intro he
    by_contra hfail
    obtain ⟨_, _, _, _, _, _, _, _, hok⟩ := hgood hfail
    rw [he] at hok
    cases hok
  · intro h he
    by_cases hfail : m.relations = [] ∨ ∃ rel ∈ m.relations, BadConstraints ops rel
    · rw [hexit hfail] at he
      cases he
      rfl
    · obtain ⟨_, _, _, _, _, _, _, _, hok⟩ := hgood hfail
      rw [he] at hok
      cases hok

/-- The build on the model holding the key lists [15, 7] and [4] over two
binary variables, and on the same model with an empty key list. -/
theorem completeSbModel_outcome_sample :
    completeSbModel keyListOps keyListView (-1) (sampleModel [[15, 7], [4]]) =
        .ok { sampleModel [[15, 7], [4]] with
              totalConstraints := 4
              stateSpaceSize := 4
              structMatrix := some [[0, 0, 0, 0], [0, 0, 1, 1], [0, 0, 1, 0], [1, 1, 1, 1]] } ∧
      completeSbModel keyListOps keyListView (-1) (sampleModel [[15, 7], []]) = .error .exit ∧
      (completeSbModel keyListOps keyListView (-1) (sampleModel [[15, 7], [4]]) =
          .error .exit ↔
        ((sampleModel [[15, 7], [4]]).relations = [] ∨
          ∃ rel ∈ (sampleModel [[15, 7], [4]]).relations, BadConstraints keyListOps rel)) :=
  ⟨by rfl, by rfl,
    (completeSbModel_outcome keyListOps keyListView (-1) (sampleModel [[15, 7], [4]])
      rfl (by decide) (by
        intro rel _ sc hsc
        simp only [keyListOps, Option.some.injEq] at hsc
        rw [← hsc]
        exact Int.ofNat_nonneg _)).1⟩

/-- C20 (failing input): a model whose single relation reports the constraint
count -1, over two binary variables.  The claim asks for the fatal error (a
count <= 0); but the first loop of `makeStructMatrix` has already summed the
count to -1, line 177 has allocated 0 rows, and line 185 stores the default
row through `structMatrix[-1]` before the check of line 197 is reached: the
call ends in that store, not in the diagnostic `exit(1)`.  Second input: two
variables of cardinality 65536 and usable constraint data.  The claim asks for
a built matrix; the product 2^32 does not fit the `int` of line 226, the
state space size comes out negative and the allocation of line 236 throws. -/
theorem build_faults_before_the_checks :
    BadConstraints negativeCountOps [4] ∧
      constraintTotal negativeCountOps [[4]] = -1 ∧
      stateSpaceOf twoBinaryVars = 4 ∧
      completeSbModel negativeCountOps keyListView (-1) (sampleModel [[4]]) =
        .error .fault ∧
      getStructMatrix negativeCountOps keyListView (-1) (sampleModel [[4]]) =
        .error .fault ∧
      completeSbModel negativeCountOps keyListView (-1) (sampleModel [[4]]) ≠
        .error .exit ∧
      ¬ BadConstraints keyListOps [4] ∧
      (∀ v ∈ wideDomainVars, 1 ≤ v.cardinality) ∧
      cardProduct wideDomainVars = 2 ^ 32 ∧
      stateSpaceOf wideDomainVars = -2147483647 ∧
      completeSbModel keyListOps wideDomainView (-1) (sampleModel [[4]]) = .error .fault ∧
      getStructMatrix keyListOps wideDomainView (-1) (sampleModel [[4]]) = .error .fault := by
  refine ⟨Or.inl (by decide), by rfl, by rfl, by rfl, by rfl, ?_, ?_, by decide, by rfl,
    by rfl, by rfl, by rfl⟩
  · intro h
    have h2 : completeSbModel negativeCountOps keyListView (-1) (sampleModel [[4]]) =
        .error .fault := by rfl
    rw [h2] at h
    cases h
  · rw [not_bad_iff]
    refine ⟨_, rfl, by decide, ?_⟩
    intro t ht
    have ht0 : t = 0 := by
      have hone : (t < 1) := ht
      omega
    subst ht0
    simp

/-! ## Theorems: a fully pinned constraint -/

/-- A state accepted by the matcher agrees with the key at every position
whose entry of `value_l` is not the wildcard value, whatever the flag was on
entry. -/
theorem matchState_sound (DONT_CARE : Int) (row : Nat → Int) :
    ∀ (vals : List Int) (j : Nat) (not_a_match : Int),
      matchState DONT_CARE row vals j not_a_match = 0 →
      ∀ (t : Nat) (h : t < vals.length), vals[t] ≠ DONT_CARE → vals[t] = row (j + t) := by
  intro vals
  induction vals with
  | nil => intro j n _ t ht; simp at ht
  | cons v vs ih =>
    intro j n h t ht hne
    by_cases hv : v = DONT_CARE
    · simp only [matchState, hv, if_true] at h
      cases t with
      | zero => simp [hv] at hne
      | succ t =>
        have := ih (j + 1) n h t (by simpa using ht) (by simpa using hne)
        simpa [show j + (t + 1) = j + 1 + t by omega] using this
    · simp only [matchState, hv, if_false] at h
      by_cases hrow : v = row j
      · simp only [hrow, ne_eq, not_true_eq_false, if_false] at h
        cases t with
        | zero => simpa using hrow
        | succ t =>
          have := ih (j + 1) 0 h t (by simpa using ht) (by simpa using hne)
          simpa [show j + (t + 1) = j + 1 + t by omega] using this
      · simp only [ne_eq, hrow, not_false_eq_true, if_true] at h
        exact absurd h (by decide)

theorem keyValues_getElem (DONT_CARE : Int) (key : Nat → Nat) (vars : List Variable)
    (j : Nat) (h1 : j < (keyValues DONT_CARE key vars).length) (h2 : j < vars.length) :
    (keyValues DONT_CARE key vars)[j] =
      if vars[j].mask &&& key vars[j].segment = vars[j].mask then DONT_CARE
      else keyToInt ((key vars[j].segment &&& vars[j].mask) >>> vars[j].shift) := by
  simp only [keyValues, List.getElem_map]

/-- C25 (matcher soundness and bounds).  For a state table of `statespace`
rows (`statespace` not negative) `getIndicesFromKey` returns; the counter is
at most `statespace`; the returned indices are strictly increasing and each
lies below `statespace`; at every returned index the state agrees with the
key at each position whose entry of `value_l` is not `DONT_CARE` (line 143),
which for a variable that line 131 does not make a wildcard is the extracted
value; and the position of every write into the buffer `indices` lies below
`statespace`. -/
theorem matcher_sound_and_bounded (DONT_CARE : Int) (key : Nat → Nat) (vars : List Variable)
    (statespace : Int) (stateSpaceArr : Nat → Nat → Int) (hss : 0 ≤ statespace) :
    ∃ indices, getIndicesFromKey DONT_CARE key vars statespace stateSpaceArr = .ok indices ∧
      (indices.length : Int) ≤ statespace ∧
      indices.Pairwise (fun a b => a < b) ∧
      (∀ k ∈ indices, (k : Int) < statespace) ∧
      (∀ k ∈ indices, ∀ (j : Nat) (h : j < (keyValues DONT_CARE key vars).length),
        (keyValues DONT_CARE key vars)[j] ≠ DONT_CARE →
        stateSpaceArr k j = (keyValues DONT_CARE key vars)[j]) ∧
      (∀ k ∈ indices, ∀ (j : Nat) (h : j < vars.length),
        vars[j].mask &&& key vars[j].segment ≠ vars[j].mask →
        keyToInt ((key vars[j].segment &&& vars[j].mask) >>> vars[j].shift) ≠ DONT_CARE →
        stateSpaceArr k j =
          keyToInt ((key vars[j].segment &&& vars[j].mask) >>> vars[j].shift)) ∧
      (∀ p : Nat, p < indices.length → (p : Int) < statespace) := by
  have hneg : ¬ statespace < 0 := by omega
  have hnat : ((statespace.toNat : Nat) : Int) = statespace := Int.toNat_of_nonneg hss
  have hlen : ((List.range statespace.toNat).filter fun i =>
      decide (matchState DONT_CARE (stateSpaceArr i)
        (keyValues DONT_CARE key vars) 0 (-1) = 0)).length ≤ statespace.toNat := by
    refine le_trans (List.length_filter_le _ _) ?_
    simp
  have hsound : ∀ k ∈ (List.range statespace.toNat).filter (fun i =>
      decide (matchState DONT_CARE (stateSpaceArr i)
        (keyValues DONT_CARE key vars) 0 (-1) = 0)),
      ∀ (j : Nat) (h : j < (keyValues DONT_CARE key vars).length),
        (keyValues DONT_CARE key vars)[j] ≠ DONT_CARE →
        stateSpaceArr k j = (keyValues DONT_CARE key vars)[j] := by
    intro k hk j hj hne
    have hm := (List.mem_filter.mp hk).2
    have hm2 : matchState DONT_CARE (stateSpaceArr k)
        (keyValues DONT_CARE key vars) 0 (-1) = 0 := by simpa using hm
    have := matchState_sound DONT_CARE (stateSpaceArr k) _ 0 (-1) hm2 j hj hne
    simpa using this.symm
  refine ⟨_, by simp only [getIndicesFromKey, hneg, if_false], ?_, ?_, ?_, hsound, ?_, ?_⟩
  · omega
  · exact List.Pairwise.sublist (List.filter_sublist _) (List.pairwise_lt_range _)
  · intro k hk
    have := List.mem_range.mp (List.mem_filter.mp hk).1
    omega
  · intro k hk j hj hmask hdc
    have hj2 : j < (keyValues DONT_CARE key vars).length := by simpa [keyValues] using hj
    have hval := keyValues_getElem DONT_CARE key vars j hj2 hj
    rw [if_neg hmask] at hval
    rw [← hval]
    exact hsound k hk j hj2 (by rw [hval]; exact hdc)
  · intro p hp
    omega

theorem matcher_sound_and_bounded_witness :
    ((0 : Int) ≤ 4) ∧
      getIndicesFromKey (-1) (fun _ => 7) twoBinaryVars 4
        (tableOf [[0, 0], [0, 1], [1, 0], [1, 1]]) = .ok [2, 3] ∧
      keyValues (-1) (fun _ => 7) twoBinaryVars = [1, -1] ∧
      ∃ indices, getIndicesFromKey (-1) (fun _ => 7) twoBinaryVars 4
          (tableOf [[0, 0], [0, 1], [1, 0], [1, 1]]) = .ok indices ∧
        (indices.length : Int) ≤ 4 ∧
        indices.Pairwise (fun a b => a < b) ∧
        (∀ k ∈ indices, (k : Int) < 4) ∧
        (∀ k ∈ indices, ∀ (j : Nat) (h : j < (keyValues (-1) (fun _ => 7) twoBinaryVars).length),
          (keyValues (-1) (fun _ => 7) twoBinaryVars)[j] ≠ -1 →
          tableOf [[0, 0], [0, 1], [1, 0], [1, 1]] k j =
            (keyValues (-1) (fun _ => 7) twoBinaryVars)[j]) ∧
        (∀ k ∈ indices, ∀ (j : Nat) (h : j < twoBinaryVars.length),
          twoBinaryVars[j].mask &&& (fun _ => 7) twoBinaryVars[j].segment ≠
            twoBinaryVars[j].mask →
          keyToInt (((fun _ => 7) twoBinaryVars[j].segment &&& twoBinaryVars[j].mask) >>>
            twoBinaryVars[j].shift) ≠ -1 →
          tableOf [[0, 0], [0, 1], [1, 0], [1, 1]] k j =
            keyToInt (((fun _ => 7) twoBinaryVars[j].segment &&& twoBinaryVars[j].mask) >>>
              twoBinaryVars[j].shift)) ∧
        (∀ p : Nat, p < indices.length → (p : Int) < 4) :=
  ⟨by decide, by rfl, by rfl,
    matcher_sound_and_bounded (-1) (fun _ => 7) twoBinaryVars 4
      (tableOf [[0, 0], [0, 1], [1, 0], [1, 1]]) (by decide)⟩

/-! ## Theorems: a matrix that is already there -/

/-- A call of `completeSbModel` that builds the matrix leaves a matrix
behind. -/
theorem completeSbModel_ok_present {R T D : Type} (ops : RelationOps R)
    (view : RelationView R) (DONT_CARE : Int) (m m1 : Model R T D)
    (h : completeSbModel ops view DONT_CARE m = .ok m1) : m1.structMatrix.isSome = true := by
  unfold completeSbModel at h
  cases hrel : m.relations with
  | nil => simp [hrel] at h
  | cons first rest =>
    simp only [hrel] at h
    by_cases hp : m.structMatrix.isSome = true
    · simp only [hp, if_true, Except.ok.injEq] at h
      rw [← h]
      exact hp
    · simp only [hp, Bool.false_eq_true, if_false] at h
      cases harr : makeStateSpaceArray (view.getVariableList first)
          (stateSpaceOf (view.getVariableList first)) with
      | error e => simp [harr] at h
      | ok arr =>
        simp only [harr] at h
        unfold makeStructMatrix at h
        simp only [hp, Bool.false_eq_true, if_false] at h
        split_ifs at h
        split at h
        · exact absurd h (by simp)
        · simp only [Except.ok.injEq] at h
          rw [← h]
          rfl

/-- A second call of `getStructMatrix`, made on the model the first call left
behind, returns what the first call returned and changes nothing. -/
theorem getStructMatrix_twice {R T D : Type} (ops : RelationOps R) (view : RelationView R)
    (DONT_CARE : Int) (m0 m1 : Model R T D) (r1 : Option (List (List Int)) × Int × Int)
    (h : getStructMatrix ops view DONT_CARE m0 = .ok (r1, m1)) :
    getStructMatrix ops view DONT_CARE m1 = .ok (r1, m1) := by
  have hpresent : m1.structMatrix.isSome = true ∧
      r1 = (m1.structMatrix, m1.stateSpaceSize, m1.totalConstraints) := by
    unfold getStructMatrix at h
    by_cases hn : m0.structMatrix.isNone = true
    · simp only [hn, if_true] at h
      cases hc : completeSbModel ops view DONT_CARE m0 with
      | error e => simp [hc] at h
      | ok m2 =>
        simp only [hc, Except.ok.injEq, Prod.mk.injEq] at h
        obtain ⟨h1, h2⟩ := h
        subst h2
        exact ⟨completeSbModel_ok_present ops view DONT_CARE m0 m2 hc, h1.symm⟩
    · simp only [hn, Bool.false_eq_true, if_false, Except.ok.injEq, Prod.mk.injEq] at h
      obtain ⟨h1, h2⟩ := h
      subst h2
      refine ⟨?_, h1.symm⟩
      cases hs : m0.structMatrix with
      | none => simp [hs] at hn
      | some x => rfl
  obtain ⟨hp, hr⟩ := hpresent
  have hnone : m1.structMatrix.isNone = false := by
    cases hs : m1.structMatrix with
    | none => simp [hs] at hp
    | some x => rfl
  simp only [getStructMatrix, hnone, Bool.false_eq_true, if_false, hr]

/-- C22 (structure-matrix build is idempotent).  For a model whose structure
matrix is present: `makeStructMatrix` returns at line 165 with the model as it
was, for every argument; `completeSbModel` returns with the model as it was
when the model holds a relation, and on a model without relations it takes the
`exit(1)` of line 222 before it looks at the matrix, so in no case does it
write a field; `getStructMatrix` returns the stored matrix and the two stored
sizes and leaves the model as it was.  And for every model, a call of
`getStructMatrix` that returns is followed by a second call that returns the
same matrix and sizes and the same model. -/
theorem struct_matrix_idempotent {R T D : Type} (ops : RelationOps R)
    (view : RelationView R) (DONT_CARE : Int) (m m0 : Model R T D)
    (matrix : List (List Int)) (hpresent : m.structMatrix = some matrix) :
    (∀ (statespace : Int) (vars : List Variable) (stateSpaceArr : Nat → Nat → Int),
        makeStructMatrix ops DONT_CARE m statespace vars stateSpaceArr = .ok m) ∧
      (m.relations ≠ [] → completeSbModel ops view DONT_CARE m = .ok m) ∧
      (m.relations = [] → completeSbModel ops view DONT_CARE m = .error .exit) ∧
      (∀ m1, completeSbModel ops view DONT_CARE m = .ok m1 → m1 = m) ∧
      getStructMatrix ops view DONT_CARE m =
        .ok ((some matrix, m.stateSpaceSize, m.totalConstraints), m) ∧
      (∀ (r1 : Option (List (List Int)) × Int × Int) (m1 : Model R T D),
        getStructMatrix ops view DONT_CARE m0 = .ok (r1, m1) →
        getStructMatrix ops view DONT_CARE m1 = .ok (r1, m1)) := by
  have hsome : m.structMatrix.isSome = true := by rw [hpresent]; rfl
  have hnone : m.structMatrix.isNone = false := by rw [hpresent]; rfl
  have hcomplete : m.relations ≠ [] → completeSbModel ops view DONT_CARE m = .ok m := by
    intro hne
    unfold completeSbModel
    cases hrel : m.relations with
    | nil => exact absurd hrel hne
    | cons first rest => simp only [hsome, if_true]
  have hexit : m.relations = [] → completeSbModel ops view DONT_CARE m = .error .exit := by
    intro hnil
    unfold completeSbModel
    rw [hnil]
  refine ⟨?_, hcomplete, hexit, ?_, ?_, ?_⟩
  · intro statespace vars stateSpaceArr
    simp only [makeStructMatrix, hsome, if_true]
  · intro m1 h
    by_cases hnil : m.relations = []
    · rw [hexit hnil] at h
      cases h
    · rw [hcomplete hnil] at h
      cases h
      rfl
  · simp only [getStructMatrix, hnone, Bool.false_eq_true, if_false]
    rw [hpresent]
  · intro r1 m1 h
    exact getStructMatrix_twice ops view DONT_CARE m0 m1 r1 h

theorem struct_matrix_idempotent_witness :
    ({ sampleModel [[15, 7], [4]] with
        totalConstraints := 4
        stateSpaceSize := 4
        structMatrix := some [[0, 0, 0, 0], [0, 0, 1, 1], [0, 0, 1, 0], [1, 1, 1, 1]] } :
          Model (List Nat) Unit Unit).structMatrix =
        some [[0, 0, 0, 0], [0, 0, 1, 1], [0, 0, 1, 0], [1, 1, 1, 1]] ∧
      getStructMatrix keyListOps keyListView (-1) (sampleModel [[15, 7], [4]]) =
        .ok ((some [[0, 0, 0, 0], [0, 0, 1, 1], [0, 0, 1, 0], [1, 1, 1, 1]], 4, 4),
          { sampleModel [[15, 7], [4]] with
            totalConstraints := 4
            stateSpaceSize := 4
            structMatrix :=
              some [[0, 0, 0, 0], [0, 0, 1, 1], [0, 0, 1, 0], [1, 1, 1, 1]] }) ∧
      getStructMatrix keyListOps keyListView (-1)
          { sampleModel [[15, 7], [4]] with
            totalConstraints := 4
            stateSpaceSize := 4
            structMatrix := some [[0, 0, 0, 0], [0, 0, 1, 1], [0, 0, 1, 0], [1, 1, 1, 1]] } =
        .ok ((some [[0, 0, 0, 0], [0, 0, 1, 1], [0, 0, 1, 0], [1, 1, 1, 1]], 4, 4),
          { sampleModel [[15, 7], [4]] with
            totalConstraints := 4
            stateSpaceSize := 4
            structMatrix :=
              some [[0, 0, 0, 0], [0, 0, 1, 1], [0, 0, 1, 0], [1, 1, 1, 1]] }) :=
  ⟨rfl, by rfl,
    (struct_matrix_idempotent keyListOps keyListView (-1)
      { sampleModel [[15, 7], [4]] with
        totalConstraints := 4
        stateSpaceSize := 4
        structMatrix := some [[0, 0, 0, 0], [0, 0, 1, 1], [0, 0, 1, 0], [1, 1, 1, 1]] }
      (sampleModel [[15, 7], [4]])
      [[0, 0, 0, 0], [0, 0, 1, 1], [0, 0, 1, 0], [1, 1, 1, 1]] rfl).2.2.2.2.1⟩

/-! ## Theorems: insertion position and storage growth -/

/-- The position found by the search of lines 307-310: no element before it
compares above the new relation, and the element at it, if there is one,
does. -/
theorem findSpot_spec {R : Type} (ops : RelationOps R) (r : R) :
    ∀ xs : List R,
      (∀ (j : Nat) (x : R), j < findSpot ops r xs → xs[j]? = some x →
        ¬ ops.compare r x < 0) ∧
      (∀ x : R, xs[findSpot ops r xs]? = some x → ops.compare r x < 0) := by
  intro xs
  induction xs with
  | nil => simp [findSpot]
  | cons y ys ih =>
    by_cases hc : ops.compare r y < 0
    · simp only [findSpot, hc, if_true]
      refine ⟨fun j x hj => absurd hj (by omega), ?_⟩
      intro x hx
      simp only [List.getElem?_cons_zero, Option.some.injEq] at hx
      rw [← hx]
      exact hc
    · simp only [findSpot, hc, if_false]
      refine ⟨?_, ?_⟩
      · intro j x hj hx
        cases j with
        | zero =>
          simp only [List.getElem?_cons_zero, Option.some.injEq] at hx
          rw [← hx]
          exact hc
        | succ j =>
          simp only [List.getElem?_cons_succ] at hx
          exact ih.1 j x (by omega) hx
      · intro x hx
        simp only [List.getElem?_cons_succ] at hx
        exact ih.2 x hx

theorem insertAt_length {R : Type} (r : R) (i : Nat) (rels : List R) (hi : i ≤ rels.length) :
    (insertAt r i rels).length = rels.length + 1 := by
  simp only [insertAt, List.length_append, List.length_take, List.length_cons,
    List.length_drop]
  omega

theorem insertAt_getElem? {R : Type} (r : R) (i : Nat) (rels : List R)
    (hi : i ≤ rels.length) : (insertAt r i rels)[i]? = some r := by
  have hlen : (rels.take i).length = i := by
    rw [List.length_take]
    omega
  unfold insertAt
  rw [List.getElem?_append_right (by omega), hlen]
  simp

theorem insertAt_eraseIdx {R : Type} (r : R) (i : Nat) (rels : List R)
    (hi : i ≤ rels.length) : (insertAt r i rels).eraseIdx i = rels := by
  have hlen : (rels.take i).length = i := by
    rw [List.length_take]
    omega
  unfold insertAt
  rw [List.eraseIdx_append_of_length_le (by omega), hlen]
  simp

theorem insertAt_sublist {R : Type} (r : R) (i : Nat) (rels : List R) :
    rels.Sublist (insertAt r i rels) := by
  have h : (rels.take i ++ rels.drop i).Sublist (rels.take i ++ r :: rels.drop i) :=
    List.Sublist.append (List.Sublist.refl _) (List.sublist_cons_self r _)
  rwa [List.take_append_drop] at h

/-- The capacity the growth loop ends with is the old one doubled `k` times,
`k` being the least number of doublings that makes room. -/
theorem growCapacity_pow (count : Nat) :
    ∀ (fuel cap0 cap : Nat), growCapacity count fuel cap0 = some cap →
      ∃ k, cap = cap0 * 2 ^ k ∧ count < cap ∧ ∀ j, j < k → cap0 * 2 ^ j ≤ count := by
  intro fuel
  induction fuel with
  | zero =>
    intro cap0 cap h
    simp only [growCapacity] at h
    by_cases hc : count ≥ cap0
    · simp [hc] at h
    · simp only [hc, if_false, Option.some.injEq] at h
      subst h
      exact ⟨0, by simp, by omega, fun j hj => absurd hj (by omega)⟩
  | succ fuel ih =>
    intro cap0 cap h
    simp only [growCapacity] at h
    by_cases hc : count ≥ cap0
    · simp only [hc, if_true] at h
      obtain ⟨k, h1, h2, h3⟩ := ih (cap0 * 2) cap h
      refine ⟨k + 1, by rw [h1, pow_succ]; ring, h2, ?_⟩
      intro j hj
      cases j with
      | zero => simpa using hc
      | succ j =>
        have := h3 j (by omega)
        rw [pow_succ]
        calc cap0 * (2 ^ j * 2) = cap0 * 2 * 2 ^ j := by ring
          _ ≤ count := this
    · simp only [hc, if_false, Option.some.injEq] at h
      subst h
      exact ⟨0, by simp, by omega, fun j hj => absurd hj (by omega)⟩

/-- C23 (insertion keeps every element).  For a model of positive capacity and
a non-null relation `r`, `addRelation(r, false)` returns; the new sequence is
the old one with `r` put in at the first position `i` whose element `x` has
`r.compare(x) < 0`, the end when there is none; the count grows by one, `r` is
at position `i`, taking it out gives back the old sequence, so every previous
relation is still there in the same order; and the capacity is the old one
doubled `k` times, where `k` is the least number of doublings that leaves room
for the new element (0 when there was room). -/
theorem insertion_keeps_every_element {R T D : Type} (ops : RelationOps R)
    (oracle : SbOracle R T D) (m : Model R T D) (r : R) (hcap : 0 < m.maxRelationCount) :
    ∃ (m1 : Model R T D) (i k : Nat),
      addRelation ops oracle m (some r) false = .ok m1 ∧
      i ≤ m.relations.length ∧
      (∀ (j : Nat) (x : R), j < i → m.relations[j]? = some x → ¬ ops.compare r x < 0) ∧
      (∀ x : R, m.relations[i]? = some x → ops.compare r x < 0) ∧
      m1.relations = m.relations.take i ++ r :: m.relations.drop i ∧
      m1.relations.length = m.relations.length + 1 ∧
      m1.relations[i]? = some r ∧
      m1.relations.eraseIdx i = m.relations ∧
      m.relations.Sublist m1.relations ∧
      m1.maxRelationCount = m.maxRelationCount * 2 ^ k ∧
      m.relations.length < m1.maxRelationCount ∧
      (∀ j, j < k → m.maxRelationCount * 2 ^ j ≤ m.relations.length) := by
  obtain ⟨cap, hg, _, _⟩ := growCapacity_pos m.relations.length m.maxRelationCount hcap
  obtain ⟨k, hk1, hk2, hk3⟩ := growCapacity_pow m.relations.length _ _ cap hg
  have hspot := findSpot_spec ops r m.relations
  have hle := findSpot_le ops r m.relations
  refine ⟨{ m with
            maxRelationCount := cap
            relations := insertAt r (findSpot ops r m.relations) m.relations
            printName := none
            inverseName := none
            structMatrix := none
            fitTable := none
            attributeList := [] },
    findSpot ops r m.relations, k, ?_, hle, hspot.1, hspot.2, rfl, ?_, ?_, ?_, ?_,
    hk1, hk2, hk3⟩
  · simp only [addRelation, normalizePhase, Bool.false_and, Bool.false_eq_true, if_false,
      insertPhase, hg]
  · exact insertAt_length r _ _ hle
  · exact insertAt_getElem? r _ _ hle
  · exact insertAt_eraseIdx r _ _ hle
  · exact insertAt_sublist r _ _

theorem insertion_keeps_every_element_witness :
    0 < (sampleModel [1, 3, 6, 7] : Model Nat Unit Unit).maxRelationCount ∧
      addRelation bitsetOps noOracle (sampleModel [1, 3, 6, 7]) (some 5) false =
        .ok { (Model.new 8 : Model Nat Unit Unit) with relations := [1, 3, 5, 6, 7] } ∧
      ∃ (m1 : Model Nat Unit Unit) (i k : Nat),
        addRelation bitsetOps noOracle (sampleModel [1, 3, 6, 7]) (some 5) false = .ok m1 ∧
        i ≤ (sampleModel [1, 3, 6, 7] : Model Nat Unit Unit).relations.length ∧
        (∀ (j : Nat) (x : Nat), j < i →
          (sampleModel [1, 3, 6, 7] : Model Nat Unit Unit).relations[j]? = some x →
          ¬ bitsetOps.compare 5 x < 0) ∧
        (∀ x : Nat, (sampleModel [1, 3, 6, 7] : Model Nat Unit Unit).relations[i]? = some x →
          bitsetOps.compare 5 x < 0) ∧
        m1.relations = (sampleModel [1, 3, 6, 7] : Model Nat Unit Unit).relations.take i ++
          5 :: (sampleModel [1, 3, 6, 7] : Model Nat Unit Unit).relations.drop i ∧
        m1.relations.length =
          (sampleModel [1, 3, 6, 7] : Model Nat Unit Unit).relations.length + 1 ∧
        m1.relations[i]? = some 5 ∧
        m1.relations.eraseIdx i = (sampleModel [1, 3, 6, 7] : Model Nat Unit Unit).relations ∧
        (sampleModel [1, 3, 6, 7] : Model Nat Unit Unit).relations.Sublist m1.relations ∧
        m1.maxRelationCount =
          (sampleModel [1, 3, 6, 7] : Model Nat Unit Unit).maxRelationCount * 2 ^ k ∧
        (sampleModel [1, 3, 6, 7] : Model Nat Unit Unit).relations.length <
          m1.maxRelationCount ∧
        (∀ j, j < k →
          (sampleModel [1, 3, 6, 7] : Model Nat Unit Unit).maxRelationCount * 2 ^ j ≤
            (sampleModel [1, 3, 6, 7] : Model Nat Unit Unit).relations.length) :=
  ⟨by decide, by rfl,
    insertion_keeps_every_element bitsetOps noOracle (sampleModel [1, 3, 6, 7]) 5 (by decide)⟩

/-- A model of positive capacity whose count is within the capacity keeps the
count within the capacity over every returning `addRelation`. -/
theorem addRelation_within_capacity {R T D : Type} (ops : RelationOps R)
    (oracle : SbOracle R T D) (m m1 : Model R T D) (r : R) (normalize : Bool)
    (hinv : m.relations.length ≤ m.maxRelationCount)
    (h : addRelation ops oracle m (some r) normalize = .ok m1) :
    m1.relations.length ≤ m1.maxRelationCount := by
  rcases addRelation_ok_cases ops oracle m m1 r normalize h with hskip | ⟨m2, hp, hins⟩
  · obtain ⟨hsub, hcapeq⟩ := (normalizePhase_relations ops oracle m r normalize).1 m1 hskip
    have := hsub.length_le
    omega
  · obtain ⟨hrel, _, hlt⟩ := insertPhase_ok ops m2 m1 r hins
    have hle := findSpot_le ops r m2.relations
    rw [hrel, insertAt_length r _ _ hle]
    omega

/-- C24 (failing input): a model constructed with capacity 0.  The loop of
lines 303-306 tests `relationCount >= maxRelationCount` with both at 0 and
doubles 0 to 0, so its condition holds after every number of iterations and
`addRelation` never reaches the insertion, for every relation and either value
of `normalize`. -/
theorem zero_capacity_growth_never_ends {R T D : Type} (ops : RelationOps R)
    (oracle : SbOracle R T D) (r : R) (normalize : Bool) :
    (Model.new 0 : Model R T D).maxRelationCount = 0 ∧
      (∀ count fuel : Nat, growCapacity count fuel 0 = none) ∧
      addRelation ops oracle (Model.new 0 : Model R T D) (some r) normalize =
        .error .hang := by
  refine ⟨rfl, fun count fuel => growCapacity_zero count fuel, ?_⟩
  have hn : normalizePhase ops oracle (Model.new 0 : Model R T D) r normalize =
      .proceed (Model.new 0) := by
    simp [normalizePhase, Model.new, Model.getRelationCount]
  simp only [addRelation, hn]
  exact insertPhase_hangs ops _ r rfl

/-! ## Theorems: a variable with cardinality 0 -/

/-- C26 (failing input): the directed model holding ABCD and E, both flagged
independent-only (neither has the dependent variable Z).  The first loop
counts 3 characters for each flagged relation, 6 in all, and the buffer gets
7 characters; the second loop leaves out only E, the last flagged relation,
and writes `IV:ABCD`, 7 characters, so the terminating NUL goes past the end
of the buffer.  The model is the one `addRelation` builds from the two
relations, with or without normalisation. -/
theorem print_name_buffer_overflow :
    addRelations bitsetOps noOracle true (Model.new 4) [15, 16] =
        .ok (sampleModel [15, 16]) ∧
      addRelations bitsetOps noOracle false (Model.new 4) [15, 16] =
        .ok (sampleModel [15, 16]) ∧
      wideLetterView.isDirected 15 = true ∧
      [15, 16].filter wideLetterView.isIndependentOnly = [15, 16] ∧
      lengthPass bitsetOps wideLetterView true 0 [15, 16] 0
          { len := 0, indOnlyRel := -1, useIVI := 0, notUsingIVI := 0 } =
        { len := 6, indOnlyRel := 1, useIVI := 0, notUsingIVI := 0 } ∧
      writePass bitsetOps wideLetterView 0 1 0 [15, 16] 0 "IV" = "IV:ABCD" ∧
      ("IV:ABCD" : String).length = 7 ∧
      getPrintName bitsetOps wideLetterView (sampleModel [15, 16]) 0 = .error .fault ∧
      getPrintName bitsetOps wideLetterView (sampleModel [15, 16]) 1 = .error .fault := by
  refine ⟨by rfl, by rfl, by rfl, by rfl, by rfl, by rfl, by rfl, by rfl, by rfl⟩


/-- The bound the failing input escapes: on an undirected system, and on a
directed system with at most one relation flagged independent-only, the text
written by the second loop is no longer than the length computed by the
first. -/
theorem name_fits_buffer {R : Type} (ops : RelationOps R) (view : RelationView R)
    (u : Int) (isDirected : Bool) (rs : List R)
    (hflag : isDirected = true → (rs.filter view.isIndependentOnly).length ≤ 1)
    (s : NameScan)
    (hs : s = lengthPass ops view isDirected u rs 0
      { len := 0, indOnlyRel := -1, useIVI := 0, notUsingIVI := 0 }) :
    (writePass ops view u s.indOnlyRel s.useIVI rs 0
        (if 0 ≤ s.indOnlyRel then "IV" else if s.useIVI > 1 then "IVI" else "")).length ≤
      (if s.useIVI > 1 then s.len + (3 + 1)
       else if s.useIVI = 1 then s.len + s.notUsingIVI else s.len) := by
  have hiv : ("IV" : String).length = 2 := rfl
  have hivi : ("IVI" : String).length = 3 := rfl
  have hempty : ("" : String).length = 0 := rfl
  cases isDirected with
  | false =>
    obtain ⟨h1, h2, h3, h4, h5⟩ := lengthPass_undirected ops view u rs 0
      { len := 0, indOnlyRel := -1, useIVI := 0, notUsingIVI := 0 }
    rw [← hs] at h1 h2 h3 h4 h5
    dsimp only at h1 h2 h3 h4 h5
    have hidx : ¬ (0 ≤ s.indOnlyRel) := by omega
    rw [h1, if_neg (by decide), writePass_no_index ops view u (-1) s.useIVI rs 0 _ (by decide)]
    refine le_trans (writeNames_length _ _) ?_
    by_cases hu : s.useIVI > 1
    · have hfil : (rs.filter fun r => !(decide (s.useIVI > 1) &&
          decide (view.getVariableCount r = 1) && !ops.isStateBased r)) =
          rs.filter fun r => !(decide (view.getVariableCount r = 1) && !ops.isStateBased r) := by
        apply List.filter_congr
        intro r _
        simp [hu]
      rw [hfil, if_pos hu, if_pos hu, hivi, ← Nat.zero_add (nameCost _), ← h3]
      omega
    · have hfil : (rs.filter fun r => !(decide (s.useIVI > 1) &&
          decide (view.getVariableCount r = 1) && !ops.isStateBased r)) = rs := by
        rw [List.filter_eq_self]
        intro r _
        simp [hu]
      rw [hfil, if_neg hu, if_neg hu, hempty,
        nameCost_split (fun r => view.getPrintName r u)
          (fun r => decide (view.getVariableCount r = 1) && !ops.isStateBased r) rs,
        ← Nat.zero_add (nameCost ((rs.filter fun r =>
          !(decide (view.getVariableCount r = 1) && !ops.isStateBased r)).map
            fun r => view.getPrintName r u)), ← h3]
      by_cases hone : s.useIVI = 1
      · rw [if_pos hone]
        have hlen1 : (rs.filter fun r =>
            decide (view.getVariableCount r = 1) && !ops.isStateBased r).length = 1 := by
          omega
        obtain ⟨r0, hr0⟩ := List.length_eq_one.mp hlen1
        rw [h4 r0 hr0, hr0]
        simp [nameCost]
        omega
      · rw [if_neg hone]
        have hlen0 : (rs.filter fun r =>
            decide (view.getVariableCount r = 1) && !ops.isStateBased r).length = 0 := by
          omega
        rw [List.length_eq_zero.mp hlen0]
        simp [nameCost]
  | true =>
    have hle := hflag rfl
    obtain ⟨h1, h2, h3⟩ := lengthPass_directed ops view u rs 0
      { len := 0, indOnlyRel := -1, useIVI := 0, notUsingIVI := 0 }
    obtain ⟨h4, h5⟩ := directed_single ops view u rs 0
      { len := 0, indOnlyRel := -1, useIVI := 0, notUsingIVI := 0 } hle (by decide) rfl
    rw [← hs] at h1 h2 h3 h4 h5
    dsimp only at h1 h2 h3 h4
    have hstart : (if 0 ≤ s.indOnlyRel then "IV"
        else if s.useIVI > 1 then "IVI" else ("" : String)).length ≤
        3 * (rs.filter view.isIndependentOnly).length := by
      by_cases hnil : rs.filter view.isIndependentOnly = []
      · have hidx : ¬ (0 ≤ s.indOnlyRel) := by
          rw [h3 hnil]
          decide
        have hu : ¬ (s.useIVI > 1) := by omega
        rw [if_neg hidx, if_neg hu, hempty]
        omega
      · have hpos : 0 < (rs.filter view.isIndependentOnly).length :=
          List.length_pos.mpr hnil
        have hidx : 0 ≤ s.indOnlyRel := by
          have := h4 hnil
          omega
        rw [if_pos hidx, hiv]
        omega
    have hrhs : ∀ a b c : Nat,
        (if (0 : Nat) > 1 then a else if (0 : Nat) = 1 then b else c) = c := fun _ _ _ => rfl
    rw [h1, h5, hrhs, h2]
    refine le_trans (writeNames_length _ _) ?_
    rw [h1] at hstart
    omega

/-- Under that bound `getPrintName` returns on every non-empty model, for
every flag. -/
theorem getPrintName_returns {R T D : Type} (ops : RelationOps R) (view : RelationView R)
    (m : Model R T D) (first : R) (rest : List R) (u : Int)
    (hrel : m.relations = first :: rest)
    (hflag : view.isDirected first = true →
      ((first :: rest).filter view.isIndependentOnly).length ≤ 1) :
    ∃ res, getPrintName ops view m u = .ok res := by
  have hfit := name_fits_buffer ops view u (view.isDirected first) (first :: rest) hflag _ rfl
  unfold getPrintName
  rw [hrel]
  by_cases hcond : ((m.printName.isNone && decide (u ≠ 1)) ||
      (m.inverseName.isNone && decide (u = 1))) = true
  · simp only [hcond, if_true, gt_iff_lt, if_neg (not_lt.mpr hfit)]
    exact ⟨_, rfl⟩
  · simp only [hcond, Bool.false_eq_true, if_false]
    exact ⟨_, rfl⟩

/-! ## Theorems: the row of an all-wildcard constraint -/

/-- The finished row of a key in which every variable is a wildcard is the
zero row. -/
theorem constraintRow_all_wild (DONT_CARE : Int) (key : Nat → Nat) (vars : List Variable)
    (statespace : Int) (stateSpaceArr : Nat → Nat → Int)
    (hwild : ∀ v ∈ vars, v.mask &&& key v.segment = v.mask) :
    constraintRow DONT_CARE vars statespace stateSpaceArr key =
      List.replicate statespace.toNat 0 := by
  have hvals : ∀ v ∈ keyValues DONT_CARE key vars, v = DONT_CARE := by
    intro v hv
    simp only [keyValues, List.mem_map] at hv
    obtain ⟨var, hvar, rfl⟩ := hv
    simp [hwild var hvar]
  unfold constraintRow
  have hrow : ∀ c : Nat,
      (if matchState DONT_CARE (stateSpaceArr c) (keyValues DONT_CARE key vars) 0 (-1) = 0
        then (1 : Int) else 0) = 0 := by
    intro c
    rw [matchState_all_wild DONT_CARE _ _ 0 (-1) hvals]
    rfl
  simp only [hrow, List.map_const', List.length_range]

theorem constraintRows_getElem? (DONT_CARE : Int) (vars : List Variable) (statespace : Int)
    (stateSpaceArr : Nat → Nat → Int) (sc : StateConstraint) :
    ∀ (fuel j : Nat) (rows : List (List Int)),
      constraintRows DONT_CARE vars statespace stateSpaceArr sc fuel j = .ok rows →
      ∀ (t : Nat) (key : Nat → Nat), t < fuel → sc.getConstraint (j + t) = some key →
        rows[t]? = some (constraintRow DONT_CARE vars statespace stateSpaceArr key) := by
  intro fuel
  induction fuel with
  | zero => intro j rows _ t key ht; omega
  | succ fuel ih =>
    intro j rows h t key ht hkey
    simp only [constraintRows] at h
    cases hk : sc.getConstraint j with
    | none => simp [hk] at h
    | some key0 =>
      simp only [hk] at h
      cases hr : constraintRows DONT_CARE vars statespace stateSpaceArr sc fuel (j + 1) with
      | error e => simp [hr] at h
      | ok more =>
        simp only [hr, Except.ok.injEq] at h
        subst h
        cases t with
        | zero =>
          rw [Nat.add_zero, hk] at hkey
          cases hkey
          simp
        | succ t =>
          rw [List.getElem?_cons_succ]
          exact ih (j + 1) more hr t key (by omega)
            (by rwa [show j + 1 + t = j + (t + 1) by omega])

/-- In the finished rows of a relation sequence, the row of constraint `j` of
a relation stands at the number of rows of the relations before it, plus `j`,
and is the finished row of that constraint's key. -/
theorem relationRows_getElem? {R : Type} (ops : RelationOps R) (DONT_CARE : Int)
    (vars : List Variable) (statespace : Int) (stateSpaceArr : Nat → Nat → Int)
    (rel : R) (post : List R) (sc : StateConstraint)
    (hsc : ops.getStateConstraints rel = some sc) (j : Nat) (key : Nat → Nat)
    (hj : (j : Int) < sc.getConstraintCount) (hkey : sc.getConstraint j = some key) :
    ∀ (pre : List R) (rows : List (List Int)),
      relationRows ops DONT_CARE vars statespace stateSpaceArr (pre ++ rel :: post) =
        .ok rows →
      rows[rowsNeeded ops pre + j]? =
        some (constraintRow DONT_CARE vars statespace stateSpaceArr key) := by
  intro pre
  induction pre with
  | nil =>
    intro rows h
    simp only [List.nil_append, relationRows, hsc] at h
    by_cases hc : sc.getConstraintCount ≤ 0
    · simp [hc] at h
    · simp only [hc, if_false] at h
      cases hr : constraintRows DONT_CARE vars statespace stateSpaceArr sc
          sc.getConstraintCount.toNat 0 with
      | error e => simp [hr] at h
      | ok first =>
        simp only [hr] at h
        cases hm : relationRows ops DONT_CARE vars statespace stateSpaceArr post with
        | error e => simp [hm] at h
        | ok more =>
          simp only [hm, Except.ok.injEq] at h
          subst h
          have hjn : j < sc.getConstraintCount.toNat := by omega
          have hget := constraintRows_getElem? DONT_CARE vars statespace stateSpaceArr sc _ 0
            first hr j key hjn (by rwa [Nat.zero_add])
          have hlen := constraintRows_length DONT_CARE vars statespace stateSpaceArr sc _ 0
            first hr
          have hzero : rowsNeeded ops ([] : List R) = 0 := by simp [rowsNeeded]
          rw [hzero, Nat.zero_add, List.getElem?_append_left (by omega)]
          exact hget
  | cons p pre ih =>
    intro rows h
    simp only [List.cons_append, relationRows] at h
    cases hp : ops.getStateConstraints p with
    | none => simp [hp] at h
    | some scp =>
      simp only [hp] at h
      by_cases hc : scp.getConstraintCount ≤ 0
      · simp [hc] at h
      · simp only [hc, if_false] at h
        cases hr : constraintRows DONT_CARE vars statespace stateSpaceArr scp
            scp.getConstraintCount.toNat 0 with
        | error e => simp [hr] at h
        | ok first =>
          simp only [hr] at h
          cases hm : relationRows ops DONT_CARE vars statespace stateSpaceArr
              (pre ++ rel :: post) with
          | error e => simp [hm] at h
          | ok more =>
            simp only [List.append_eq, hm, Except.ok.injEq] at h
            subst h
            have hlen := constraintRows_length DONT_CARE vars statespace stateSpaceArr scp _ 0
              first hr
            rw [rowsNeeded_cons_good ops p pre scp hp,
              List.getElem?_append_right (by omega)]
            have hidx : scp.getConstraintCount.toNat + rowsNeeded ops pre + j - first.length =
                rowsNeeded ops pre + j := by omega
            rw [hidx]
            exact ih more hm

/-- A returning call of `makeStructMatrix` on a model without a matrix has
stored the finished rows of the relation sequence followed by the default
row. -/
theorem makeStructMatrix_ok_rows {R T D : Type} (ops : RelationOps R) (DONT_CARE : Int)
    (m m1 : Model R T D) (statespace : Int) (vars : List Variable)
    (stateSpaceArr : Nat → Nat → Int) (habsent : m.structMatrix = none)
    (hss : 0 ≤ statespace)
    (h : makeStructMatrix ops DONT_CARE m statespace vars stateSpaceArr = .ok m1) :
    ∃ rows, relationRows ops DONT_CARE vars statespace stateSpaceArr m.relations = .ok rows ∧
      m1.structMatrix = some (rows ++ [List.replicate statespace.toNat 1]) := by
  have hnonneg : ∀ rel ∈ m.relations, ∀ sc, ops.getStateConstraints rel = some sc →
      0 ≤ sc.getConstraintCount := by
    have h2 := h
    unfold makeStructMatrix at h2
    simp only [habsent, Option.isSome_none, Bool.false_eq_true, if_false] at h2
    split_ifs at h2
    cases hfill : fillRelations ops DONT_CARE vars statespace stateSpaceArr m.relations 0
        (initialMatrix (constraintTotal ops m.relations) statespace) with
    | error e => simp [hfill] at h2
    | ok matrix =>
      intro rel hmem sc hsc
      obtain ⟨sc1, h3, h4⟩ := fillRelations_counts ops DONT_CARE vars statespace stateSpaceArr
        m.relations 0 _ matrix hfill rel hmem
      rw [hsc] at h3
      cases h3
      omega
  rw [makeStructMatrix_eq ops DONT_CARE m statespace vars stateSpaceArr habsent hss hnonneg] at h
  cases hrows : relationRows ops DONT_CARE vars statespace stateSpaceArr m.relations with
  | error e => simp [hrows] at h
  | ok rows =>
    simp only [hrows, Except.ok.injEq] at h
    exact ⟨rows, rfl, by rw [← h]⟩

/-- C10 (amended): for a key in which the segment bits of every variable are
entirely set, `getIndicesFromKey` returns no state index (the counter is 0)
for every `statespace >= 0` and every state table; the iteration of lines
202-212 for that key leaves the matrix as it was; and in the matrix that a
returning `makeStructMatrix` stores, the row of that constraint (constraint
`j` of a relation that follows the relations `pre`) has every column at 0. -/
theorem all_wildcard_row_stays_zero (DONT_CARE : Int) (key : Nat → Nat)
    (vars : List Variable) (statespace : Int) (stateSpaceArr : Nat → Nat → Int)
    (hss : 0 ≤ statespace)
    (hwild : ∀ v ∈ vars, v.mask &&& key v.segment = v.mask) :
    getIndicesFromKey DONT_CARE key vars statespace stateSpaceArr = .ok [] ∧
      (∀ (sc : StateConstraint) (tcc fuel j : Nat) (matrix : List (List Int)),
        sc.getConstraint j = some key →
        fillConstraints DONT_CARE vars statespace stateSpaceArr sc tcc (fuel + 1) j matrix =
          fillConstraints DONT_CARE vars statespace stateSpaceArr sc tcc fuel (j + 1) matrix) ∧
      (∀ (R T D : Type) (ops : RelationOps R) (m m1 : Model R T D) (pre post : List R)
          (rel : R) (sc : StateConstraint) (j : Nat),
        m.structMatrix = none →
        m.relations = pre ++ rel :: post →
        ops.getStateConstraints rel = some sc →
        (j : Int) < sc.getConstraintCount →
        sc.getConstraint j = some key →
        makeStructMatrix ops DONT_CARE m statespace vars stateSpaceArr = .ok m1 →
        ∃ matrix, m1.structMatrix = some matrix ∧
          matrix[rowsNeeded ops pre + j]? = some (List.replicate statespace.toNat 0) ∧
          rowsNeeded ops pre + j + 1 < matrix.length) := by
  have hidx := getIndicesFromKey_all_wild DONT_CARE key vars statespace stateSpaceArr hss hwild
  refine ⟨hidx, ?_, ?_⟩
  · intro sc tcc fuel j matrix hkey
    simp only [fillConstraints, hkey, hidx, writeRow]
  · intro R T D ops m m1 pre post rel sc j habsent hrels hsc hj hkey hbuilt
    obtain ⟨rows, hrows, hmat⟩ := makeStructMatrix_ok_rows ops DONT_CARE m m1 statespace vars
      stateSpaceArr habsent hss hbuilt
    rw [hrels] at hrows
    have hrow := relationRows_getElem? ops DONT_CARE vars statespace stateSpaceArr rel post sc
      hsc j key hj hkey pre rows hrows
    rw [constraintRow_all_wild DONT_CARE key vars statespace stateSpaceArr hwild] at hrow
    have hlt : rowsNeeded ops pre + j < rows.length := by
      by_contra hge
      rw [List.getElem?_eq_none (by omega)] at hrow
      cases hrow
    refine ⟨rows ++ [List.replicate statespace.toNat 1], hmat, ?_, ?_⟩
    · rw [List.getElem?_append_left hlt]
      exact hrow
    · simp only [List.length_append, List.length_singleton]
      omega

theorem all_wildcard_row_stays_zero_witness :
    ((0 : Int) ≤ 4) ∧
      (∀ v ∈ twoBinaryVars, v.mask &&& (fun _ => 15) v.segment = v.mask) ∧
      makeStructMatrix keyListOps (-1) (sampleModel [[4], [7, 15]]) 4 twoBinaryVars
          (tableOf [[0, 0], [0, 1], [1, 0], [1, 1]]) =
        .ok { sampleModel [[4], [7, 15]] with
              totalConstraints := 4
              stateSpaceSize := 4
              structMatrix := some [[0, 0, 1, 0], [0, 0, 1, 1], [0, 0, 0, 0], [1, 1, 1, 1]] } ∧
      getIndicesFromKey (-1) (fun _ => 15) twoBinaryVars 4
          (tableOf [[0, 0], [0, 1], [1, 0], [1, 1]]) = .ok [] ∧
      ∃ matrix,
        ({ sampleModel [[4], [7, 15]] with
            totalConstraints := 4
            stateSpaceSize := 4
            structMatrix :=
              some [[0, 0, 1, 0], [0, 0, 1, 1], [0, 0, 0, 0], [1, 1, 1, 1]] } :
          Model (List Nat) Unit Unit).structMatrix = some matrix ∧
        matrix[rowsNeeded keyListOps [[4]] + 1]? = some (List.replicate (4 : Int).toNat 0) ∧
        rowsNeeded keyListOps [[4]] + 1 + 1 < matrix.length :=
  ⟨by decide, by decide, by rfl,
    (all_wildcard_row_stays_zero (-1) (fun _ => 15) twoBinaryVars 4
      (tableOf [[0, 0], [0, 1], [1, 0], [1, 1]]) (by decide) (by decide)).1,
    (all_wildcard_row_stays_zero (-1) (fun _ => 15) twoBinaryVars 4
      (tableOf [[0, 0], [0, 1], [1, 0], [1, 1]]) (by decide) (by decide)).2.2
      (List Nat) Unit Unit keyListOps (sampleModel [[4], [7, 15]])
      { sampleModel [[4], [7, 15]] with
        totalConstraints := 4
        stateSpaceSize := 4
        structMatrix := some [[0, 0, 1, 0], [0, 0, 1, 1], [0, 0, 0, 0], [1, 1, 1, 1]] }
      [[4]] [] [7, 15]
      { getConstraintCount := 2
        getConstraint := fun j => ([7, 15][j]?).map fun k => fun _ => k }
      1 rfl rfl rfl (by decide) rfl (by rfl)⟩

end Occam
